import Mathlib

/-!
# hopeAbounds/toolkit: ring buffer, list buffer and power-of-two helpers

A shallow embedding of `math/math.go`, `pool/byteslice/byteslice.go`,
`ringbuffer/ringbuffer.go` and `listbuffer/listbuffer.go`.

Conventions of the embedding.

* Go `int` is a 64-bit two's complement integer.  Values are carried as `Int`;
  every `+` and `-` of the source is `add64` / `sub64`, which wrap modulo `2^64`
  into `[-2^63, 2^63)`.
* A Go run-time panic (slice bounds out of range, index out of range, integer
  division by zero, the explicit `panic` of `CeilToPowerOfTwo`, `make` with a
  negative length) is the result `none`.  `some _` is a normal return.
* A byte slice is the list of its `len` bytes.  Slice expressions are checked
  against the length (Go checks `b[lo:hi]` against the capacity, which is at
  least the length, so the embedding panics whenever Go does).
* A `nil` slice and an empty slice are both `[]`.
* The method receiver `rb *RingBuffer` is threaded explicitly: a method that
  mutates the receiver returns the new value; a destination slice that a
  method fills is returned as well.
* The nodes of a `ListBuffer` live in a store `Heap`; a pointer to a node is
  `none` for nil or `some` address, and `head`, `tail` and `next` are such
  pointers.  A method of `ListBuffer` takes the store and the list and returns
  both.  Dereferencing nil is the result `none`.
* A loop whose number of rounds is not fixed takes a bound `fuel` on its rounds
  and is `none` when the bound is used up; each theorem about such a loop
  shows that it returns within the bound its caller gives it.
-/

set_option linter.unusedTactic false
set_option linter.unreachableTactic false
set_option linter.unusedVariables false

namespace Toolkit

/-- One byte of a Go `[]byte`. -/
abbrev Byte := UInt8

/-! ## Go integer and slice primitives -/

/-- Reduction of a mathematical integer to the 64-bit two's complement range. -/
def wrap64 (x : Int) : Int :=
  (x + 9223372036854775808) % 18446744073709551616 - 9223372036854775808

/-- Go `a + b` on `int`. -/
def add64 (a b : Int) : Int := wrap64 (a + b)

/-- Go `a - b` on `int`. -/
def sub64 (a b : Int) : Int := wrap64 (a - b)

/-- Go `a % b` on `int`: truncated remainder, run-time panic when `b == 0`. -/
def rem64 (a b : Int) : Option Int :=
  if b = 0 then none else some (Int.tmod a b)

/-- Go `len(b)`. -/
def len (b : List Byte) : Int := (b.length : Int)

/-- Go `make([]byte, n)`: `n` zero bytes; panics for a negative `n`. -/
def make (n : Int) : Option (List Byte) :=
  if n < 0 then none else some (List.replicate n.toNat 0)

/-- Go `b[lo:hi]`. -/
def slice (b : List Byte) (lo hi : Int) : Option (List Byte) :=
  if 0 ≤ lo ∧ lo ≤ hi ∧ hi ≤ len b then some ((b.take hi.toNat).drop lo.toNat) else none

/-- Go `b[lo:]`. -/
def sliceFrom (b : List Byte) (lo : Int) : Option (List Byte) := slice b lo (len b)

/-- Go `b[:hi]`. -/
def sliceTo (b : List Byte) (hi : Int) : Option (List Byte) := slice b 0 hi

/-- Go `b[i]` as a value. -/
def index (b : List Byte) (i : Int) : Option Byte :=
  if 0 ≤ i ∧ i < len b then b[i.toNat]? else none

/-- Go `b[i] = c`: the slice after the store. -/
def setIndex (b : List Byte) (i : Int) (c : Byte) : Option (List Byte) :=
  if 0 ≤ i ∧ i < len b then some (b.set i.toNat c) else none

/-- Go `copy(dst, src)`: the contents of `dst` afterwards; the first
`min(len(dst), len(src))` bytes are overwritten. -/
def copy (dst src : List Byte) : List Byte :=
  src.take dst.length ++ dst.drop src.length

/-- Go `copy(b[off:], src)`: the contents of `b` afterwards. -/
def copyInto (b : List Byte) (off : Int) (src : List Byte) : Option (List Byte) :=
  if 0 ≤ off ∧ off ≤ len b then
    some (b.take off.toNat ++ copy (b.drop off.toNat) src)
  else none

/-! ## math/math.go -/

/-- Constant `maxintHeadBit = 1 << (bitsize - 2)` with `bitsize = 64`. -/
def maxintHeadBit : Int := 4611686018427387904

/-- Source `fillBits`. -/
def fillBits (n : Int) : Int :=
  let n := Int.lor n (Int.shiftRight n 1)
  let n := Int.lor n (Int.shiftRight n 2)
  let n := Int.lor n (Int.shiftRight n 4)
  let n := Int.lor n (Int.shiftRight n 8)
  let n := Int.lor n (Int.shiftRight n 16)
  let n := Int.lor n (Int.shiftRight n 32)
  n

/-- Source `IsPowerOfTwo`: `n&(n-1) == 0` on 64-bit integers. -/
def IsPowerOfTwo (n : Int) : Bool := decide (Int.land n (sub64 n 1) = 0)

/-- Source `CeilToPowerOfTwo`; `none` is the `panic("argument is too large")`. -/
def CeilToPowerOfTwo (n : Int) : Option Int :=
  if Int.land n maxintHeadBit ≠ 0 ∧ n > maxintHeadBit then none
  else if n ≤ 2 then some 2
  else
    let n := sub64 n 1
    let n := fillBits n
    let n := add64 n 1
    some n

/-! ## pool/byteslice/byteslice.go -/

namespace byteslice

/-- Source `byteslice.Get`: `nil` for `size <= 0`, otherwise a slice of length
`size`.  Its contents are those of a recycled slice when the pool holds one of
sufficient capacity (`recycled`, the bytes of that slice) and zero bytes from
`make` otherwise. -/
def Get (recycled : List Byte) (size : Int) : List Byte :=
  if size ≤ 0 then []
  else if size ≤ len recycled then recycled.take size.toNat
  else List.replicate size.toNat 0

end byteslice

/-! ## ringbuffer/ringbuffer.go -/

def DefaultBufferSize : Int := 1024

def bufferGrowThreshold : Int := 4 * 1024

/-- The error values of the package. -/
inductive Error where
  | ErrIsEmpty
  deriving DecidableEq, Repr

/-- Source `type RingBuffer struct`. -/
structure RingBuffer where
  buf : List Byte
  size : Int
  r : Int
  w : Int
  isEmpty : Bool
  deriving DecidableEq, Repr

namespace RingBuffer

/-- Source `New`. -/
def New (size : Int) : Option RingBuffer :=
  if size = 0 then
    some { buf := [], size := 0, r := 0, w := 0, isEmpty := true }
  else do
    let size ← CeilToPowerOfTwo size
    let buf ← make size
    some { buf := buf, size := size, r := 0, w := 0, isEmpty := true }

/-- Source `Reset`. -/
def Reset (rb : RingBuffer) : RingBuffer :=
  { rb with isEmpty := true, r := 0, w := 0 }

/-- Source `Length`. -/
def Length (rb : RingBuffer) : Int :=
  if rb.r = rb.w then
    if rb.isEmpty then 0 else rb.size
  else if rb.w > rb.r then sub64 rb.w rb.r
  else add64 (sub64 rb.size rb.r) rb.w

/-- Source `Len`. -/
def Len (rb : RingBuffer) : Int := len rb.buf

/-- Source `Cap`. -/
def Cap (rb : RingBuffer) : Int := rb.size

/-- Source `Free`. -/
def Free (rb : RingBuffer) : Int :=
  if rb.r = rb.w then
    if rb.isEmpty then rb.size else 0
  else if rb.w < rb.r then sub64 rb.r rb.w
  else add64 (sub64 rb.size rb.w) rb.r

/-- Source `IsFull`. -/
def IsFull (rb : RingBuffer) : Bool := rb.r = rb.w && !rb.isEmpty

/-- Source `IsEmpty`. -/
def IsEmpty (rb : RingBuffer) : Bool := rb.isEmpty

/-- Source `Peek`: the views `(head, tail)`. -/
def Peek (rb : RingBuffer) (n : Int) : Option (List Byte × List Byte) :=
  if rb.isEmpty then some ([], [])
  else if n ≤ 0 then some ([], [])
  else if rb.w > rb.r then do
    let m := sub64 rb.w rb.r
    let m := if m > n then n else m
    let head ← slice rb.buf rb.r (add64 rb.r m)
    some (head, [])
  else do
    let m := add64 (sub64 rb.size rb.r) rb.w
    let m := if m > n then n else m
    if add64 rb.r m ≤ rb.size then do
      let head ← slice rb.buf rb.r (add64 rb.r m)
      some (head, [])
    else do
      let c1 := sub64 rb.size rb.r
      let head ← sliceFrom rb.buf rb.r
      let c2 := sub64 m c1
      let tail ← sliceTo rb.buf c2
      some (head, tail)

/-- Source `PeekAll`: the views `(head, tail)`. -/
def PeekAll (rb : RingBuffer) : Option (List Byte × List Byte) :=
  if rb.isEmpty then some ([], [])
  else if rb.w > rb.r then do
    let head ← slice rb.buf rb.r rb.w
    some (head, [])
  else do
    let head ← sliceFrom rb.buf rb.r
    if rb.w ≠ 0 then do
      let tail ← sliceTo rb.buf rb.w
      some (head, tail)
    else some (head, [])

/-- Source `Discard`. -/
def Discard (rb : RingBuffer) (n : Int) : Option RingBuffer :=
  if n ≤ 0 then some rb
  else if n < rb.Length then do
    let r ← rem64 (add64 rb.r n) rb.size
    some { rb with r := r }
  else some rb.Reset

/-- Source `Read`: the buffer afterwards, the destination `p` afterwards, and
the returned `(n, err)`. -/
def Read (rb : RingBuffer) (p : List Byte) :
    Option (RingBuffer × List Byte × Int × Option Error) :=
  if len p = 0 then some (rb, p, 0, none)
  else if rb.isEmpty then some (rb, p, 0, some Error.ErrIsEmpty)
  else if rb.w > rb.r then do
    let n := sub64 rb.w rb.r
    let n := if n > len p then len p else n
    let src ← slice rb.buf rb.r (add64 rb.r n)
    let p := copy p src
    let rb := { rb with r := add64 rb.r n }
    let rb := if rb.r = rb.w then rb.Reset else rb
    some (rb, p, n, none)
  else do
    let n := add64 (sub64 rb.size rb.r) rb.w
    let n := if n > len p then len p else n
    let p ←
      if add64 rb.r n ≤ rb.size then do
        let src ← slice rb.buf rb.r (add64 rb.r n)
        some (copy p src)
      else do
        let c1 := sub64 rb.size rb.r
        let src1 ← sliceFrom rb.buf rb.r
        let p := copy p src1
        let c2 := sub64 n c1
        let src2 ← sliceTo rb.buf c2
        copyInto p c1 src2
    let r ← rem64 (add64 rb.r n) rb.size
    let rb := { rb with r := r }
    let rb := if rb.r = rb.w then rb.Reset else rb
    some (rb, p, n, none)

/-- Source `ReadByte`: the buffer afterwards and the returned `(b, err)`. -/
def ReadByte (rb : RingBuffer) : Option (RingBuffer × Byte × Option Error) :=
  if rb.isEmpty then some (rb, 0, some Error.ErrIsEmpty)
  else do
    let b ← index rb.buf rb.r
    let r := add64 rb.r 1
    let r := if r = rb.size then 0 else r
    let rb := { rb with r := r }
    let rb := if rb.r = rb.w then rb.Reset else rb
    some (rb, b, none)

/-- The loop `for 0 < n && n < newCap { n += n / 4 }` of `grow`, run for at
most `fuel` evaluations of its condition; `none` when the fuel is used up
before the condition fails. -/
def growLoop : Nat → Int → Int → Option Int
  | 0, _, _ => none
  | fuel + 1, n, newCap =>
    if 0 < n ∧ n < newCap then growLoop fuel (add64 n (Int.tdiv n 4)) newCap
    else some n

/-- The capacity that `grow` settles on (the part of the source `grow` before
the allocation).  The loop is given `newCap + 1` evaluations of its
condition. -/
def growCap (size newCap : Int) : Option Int :=
  if size = 0 then
    if newCap ≤ DefaultBufferSize then some DefaultBufferSize
    else CeilToPowerOfTwo newCap
  else
    let n := size
    let doubleCap := add64 n n
    if newCap ≤ doubleCap then
      if n < bufferGrowThreshold then some doubleCap
      else do
        let n ← growLoop (newCap.toNat + 1) n newCap
        if n > 0 then some n else some newCap
    else some newCap

/-- Source `grow`.  `recycled` is what the byte-slice pool hands out (see
`byteslice.Get`); `byteslice.Put` only changes the pool. -/
def grow (recycled : List Byte) (rb : RingBuffer) (newCap : Int) : Option RingBuffer := do
  let newCap ← growCap rb.size newCap
  let newBuf := byteslice.Get recycled newCap
  let oldLen := rb.Length
  let (rb, newBuf, _, _) ← rb.Read newBuf
  let rb := { rb with buf := newBuf, r := 0, w := oldLen, size := newCap }
  some (if rb.w > 0 then { rb with isEmpty := false } else rb)

/-- Source `Write`: the buffer afterwards and the returned `(n, err)`. -/
def Write (recycled : List Byte) (rb : RingBuffer) (p : List Byte) :
    Option (RingBuffer × Int × Option Error) :=
  let n := len p
  if n = 0 then some (rb, n, none)
  else do
    let free := rb.Free
    let rb ← if n > free then grow recycled rb (sub64 (add64 rb.size n) free) else some rb
    let rb ←
      if rb.w ≥ rb.r then
        let c1 := sub64 rb.size rb.w
        if c1 ≥ n then do
          let buf ← copyInto rb.buf rb.w p
          some { rb with buf := buf, w := add64 rb.w n }
        else do
          let p1 ← sliceTo p c1
          let buf ← copyInto rb.buf rb.w p1
          let c2 := sub64 n c1
          let p2 ← sliceFrom p c1
          let buf := copy buf p2
          some { rb with buf := buf, w := c2 }
      else do
        let buf ← copyInto rb.buf rb.w p
        some { rb with buf := buf, w := add64 rb.w n }
    let rb := if rb.w = rb.size then { rb with w := 0 } else rb
    some ({ rb with isEmpty := false }, n, none)

/-- Source `WriteByte`: the buffer afterwards and the returned error. -/
def WriteByte (recycled : List Byte) (rb : RingBuffer) (c : Byte) :
    Option (RingBuffer × Option Error) := do
  let rb ← if rb.Free < 1 then grow recycled rb 1 else some rb
  let buf ← setIndex rb.buf rb.w c
  let rb := { rb with buf := buf, w := add64 rb.w 1 }
  let rb := if rb.w = rb.size then { rb with w := 0 } else rb
  some ({ rb with isEmpty := false }, none)

end RingBuffer

/-! ## Abstraction, well-formedness and reachability -/

/-- Bound on the number of bytes a buffer is asked to hold at once (`2^61`).
Go slices are far shorter (a slice cannot exceed the address space), so this
excludes no execution; it keeps the `int` arithmetic of `grow` and
`CeilToPowerOfTwo` away from the 64-bit limits. -/
def maxBytes : Int := 2305843009213693952

/-- The values of Go's 64-bit `int`. -/
def IsInt64 (x : Int) : Prop := -9223372036854775808 ≤ x ∧ x < 9223372036854775808

/-- The value `x` is a power of two. -/
def IsPow2 (x : Int) : Prop := ∃ k : Nat, x = 2 ^ k

/-- The value of `n` after `i` rounds of the body `n += n / 4` of the loop in
`grow`, in 64-bit arithmetic. -/
def growIter (n : Int) : Nat → Int
  | 0 => n
  | i + 1 => add64 (growIter n i) (Int.tdiv (growIter n i) 4)

/-- The sequence in the description of `grow`: `n0 = n`, `n(i+1) = n(i) + n(i)/4`,
over the unbounded integers. -/
def growSeq (n : Int) : Nat → Int
  | 0 => n
  | i + 1 => growSeq n i + growSeq n i / 4

namespace RingBuffer

/-- The readable bytes as `PeekAll` presents them: `head` followed by `tail`. -/
def contents (rb : RingBuffer) : Option (List Byte) :=
  (rb.PeekAll).map (fun v => v.1 ++ v.2)

/-- The readable bytes read off the fields directly: nothing when the buffer is
empty, `buf[r:w]` when `r < w`, and `buf[r:]` followed by `buf[:w]` otherwise. -/
def readable (rb : RingBuffer) : List Byte :=
  if rb.isEmpty then []
  else if rb.w > rb.r then (rb.buf.take rb.w.toNat).drop rb.r.toNat
  else rb.buf.drop rb.r.toNat ++ rb.buf.take rb.w.toNat

/-- Well-formed buffers: the storage has `size` bytes, the cursors lie in
`[0, size)`, an empty buffer has both cursors at `0`, and a buffer without
storage is empty. -/
structure WF (rb : RingBuffer) : Prop where
  len_eq : len rb.buf = rb.size
  size_lt : rb.size < 4611686018427387904
  size_ne_one : rb.size ≠ 1
  r_nonneg : 0 ≤ rb.r
  w_nonneg : 0 ≤ rb.w
  r_lt : 0 < rb.size → rb.r < rb.size
  w_lt : 0 < rb.size → rb.w < rb.size
  empty_zero : rb.isEmpty = true → rb.r = 0 ∧ rb.w = 0
  zero_empty : rb.size = 0 → rb.isEmpty = true

/-- The calls `Write(p)` for the slices of `ws`, in order; each entry is
`(recycled, p)`, with `recycled` what the pool holds at that call. -/
def writeAll (rb : RingBuffer) : List (List Byte × List Byte) → Option RingBuffer
  | [] => some rb
  | (recycled, p) :: ws => do
    let (rb, _, _) ← rb.Write recycled p
    writeAll rb ws

/-- The calls `Read(d)` for the destinations of `ds`, in order: the buffer
afterwards and, for each call, the bytes it returned (`d[:n]`). -/
def readAll (rb : RingBuffer) : List (List Byte) → Option (RingBuffer × List (List Byte))
  | [] => some (rb, [])
  | d :: ds => do
    let (rb, d, n, _) ← rb.Read d
    let (rb, outs) ← readAll rb ds
    some (rb, d.take n.toNat :: outs)

/-- The buffers a client can obtain: `New(k)` for an `int` `k` within
`maxBytes`, followed by any sequence of returning calls of the mutating
methods.  A `Write` is a call whose slice, together with the bytes already
held, stays within `maxBytes`. -/
inductive Reachable : RingBuffer → Prop where
  | new (k : Int) (rb : RingBuffer) :
      IsInt64 k → k ≤ maxBytes → New k = some rb → Reachable rb
  | write (recycled : List Byte) (rb : RingBuffer) (p : List Byte) (rb' : RingBuffer)
      (n : Int) (e : Option Error) :
      Reachable rb → rb.Length + len p ≤ maxBytes →
      rb.Write recycled p = some (rb', n, e) → Reachable rb'
  | writeByte (recycled : List Byte) (rb : RingBuffer) (c : Byte) (rb' : RingBuffer)
      (e : Option Error) :
      Reachable rb → rb.WriteByte recycled c = some (rb', e) → Reachable rb'
  | read (rb : RingBuffer) (p : List Byte) (rb' : RingBuffer) (p' : List Byte)
      (n : Int) (e : Option Error) :
      Reachable rb → rb.Read p = some (rb', p', n, e) → Reachable rb'
  | readByte (rb rb' : RingBuffer) (b : Byte) (e : Option Error) :
      Reachable rb → rb.ReadByte = some (rb', b, e) → Reachable rb'
  | discard (rb : RingBuffer) (n : Int) (rb' : RingBuffer) :
      Reachable rb → rb.Discard n = some rb' → Reachable rb'
  | reset (rb : RingBuffer) : Reachable rb → Reachable rb.Reset

end RingBuffer

/-! ## pool/bytebuffer/bytebuffer.go -/

namespace bytebuffer

/-- Modelled from the spec: the pooled growable buffer, the type
`bytebufferpool.ByteBuffer` of a dependency outside the repository, is given by
its bytes `B`, and a pointer to one is `none` when it is nil.  `Len` is `len(b.B)`
and dereferences its receiver. -/
def Len (b : Option (List Byte)) : Option Int := b.map len

/-- Modelled from the spec: `Get()` acquires an empty, appendable, owned buffer. -/
def Get : List Byte := []

/-- Modelled from the spec: `Write(p)` appends `p` to the bytes of the buffer. -/
def Write (b p : List Byte) : List Byte := b ++ p

end bytebuffer

/-! ## listbuffer/listbuffer.go -/

/-- Source `type ByteBuffer struct` of package `listbuffer`, a node of the list:
`Buf` is nil or the chunk the node owns, given by its bytes `Buf.B`, and `next` is
nil or the address of the following node.  No two nodes share a chunk. -/
structure ByteBuffer where
  Buf : Option (List Byte)
  next : Option Nat
  deriving DecidableEq, Repr

/-- The nodes allocated so far; the address of a node is its position, and a
pointer `*ByteBuffer` is `none` for nil or `some` address. -/
abbrev Heap := List ByteBuffer

namespace ByteBuffer

/-- Source `(*ByteBuffer).Len`. -/
def Len (b : ByteBuffer) : Option Int :=
  if b.Buf = none then some (-1) else bytebuffer.Len b.Buf

/-- Source `(*ByteBuffer).IsEmpty`. -/
def IsEmpty (b : ByteBuffer) : Option Bool :=
  if b.Buf = none then some true else (bytebuffer.Len b.Buf).map (fun n => decide (n = 0))

end ByteBuffer

/-- Source `type ListBuffer struct`. -/
structure ListBuffer where
  bs : List (List Byte)
  head : Option Nat
  tail : Option Nat
  size : Int
  bytes : Int
  deriving DecidableEq, Repr

namespace ListBuffer

/-- The zero value of `ListBuffer`. -/
def zero : ListBuffer := { bs := [], head := none, tail := none, size := 0, bytes := 0 }

/-- Source `Pop`; the result holds the nodes, the list and the returned pointer. -/
def Pop (heap : Heap) (l : ListBuffer) : Option (Heap × ListBuffer × Option Nat) :=
  match l.head with
  | none => some (heap, l, none)
  | some b => do
    let node ← heap[b]?
    let n ← bytebuffer.Len node.Buf
    some (heap.set b { node with next := none },
      { l with
        head := node.next
        tail := if node.next = none then none else l.tail
        size := sub64 l.size 1
        bytes := sub64 l.bytes n },
      some b)

/-- Source `PushFront`. -/
def PushFront (heap : Heap) (l : ListBuffer) (b : Option Nat) : Option (Heap × ListBuffer) :=
  match b with
  | none => some (heap, l)
  | some i => do
    let node ← heap[i]?
    let n ← bytebuffer.Len node.Buf
    some (heap.set i { node with next := if l.head = none then none else l.head },
      { l with
        tail := if l.head = none then some i else l.tail
        head := some i
        size := add64 l.size 1
        bytes := add64 l.bytes n })

/-- Source `PushBack`. -/
def PushBack (heap : Heap) (l : ListBuffer) (b : Option Nat) : Option (Heap × ListBuffer) :=
  match b with
  | none => some (heap, l)
  | some i => do
    let heap ← (match l.tail with
      | none => some heap
      | some t => do
        let last ← heap[t]?
        some (heap.set t { last with next := some i }))
    let node ← heap[i]?
    let n ← bytebuffer.Len node.Buf
    some (heap.set i { node with next := none },
      { l with
        head := if l.tail = none then some i else l.head
        tail := some i
        size := add64 l.size 1
        bytes := add64 l.bytes n })

/-- Source `PushBytesFront`; the new node takes the next free address. -/
def PushBytesFront (heap : Heap) (l : ListBuffer) (p : List Byte) : Option (Heap × ListBuffer) :=
  if len p = 0 then some (heap, l)
  else
    let bb := bytebuffer.Write bytebuffer.Get p
    PushFront (heap ++ [{ Buf := some bb, next := none }]) l (some heap.length)

/-- Source `PushBytesBack`; the new node takes the next free address. -/
def PushBytesBack (heap : Heap) (l : ListBuffer) (p : List Byte) : Option (Heap × ListBuffer) :=
  if len p = 0 then some (heap, l)
  else
    let bb := bytebuffer.Write bytebuffer.Get p
    PushBack (heap ++ [{ Buf := some bb, next := none }]) l (some heap.length)

/-- The loop `for iter := l.head; iter != nil; iter = iter.next` of `PeekBytesList`
and `PeekBytesListWithBytes`, at most `fuel` rounds of it. -/
def peekLoop (heap : Heap) : Nat → Option Nat → List (List Byte) → Option (List (List Byte))
  | _, none, bs => some bs
  | 0, some _, _ => none
  | fuel + 1, some i, bs => do
    let node ← heap[i]?
    let B ← node.Buf
    peekLoop heap fuel node.next (bs ++ [B])

/-- Source `PeekBytesList`. -/
def PeekBytesList (heap : Heap) (l : ListBuffer) : Option (ListBuffer × List (List Byte)) := do
  let bs ← peekLoop heap heap.length l.head []
  some ({ l with bs := bs }, bs)

/-- Source `PeekBytesListWithBytes`. -/
def PeekBytesListWithBytes (heap : Heap) (l : ListBuffer) (bs : List (List Byte)) :
    Option (ListBuffer × List (List Byte)) := do
  let acc := bs.foldl (fun acc b => if len b > 0 then acc ++ [b] else acc) []
  let out ← peekLoop heap heap.length l.head acc
  some ({ l with bs := out }, out)

/-- The loop of `DiscardBytes`, at most `fuel` rounds of it.  `bytebuffer.Put` hands
the chunk of a node that has left the list back to the pool and writes nothing
the list can reach. -/
def discardLoop : Nat → Heap → ListBuffer → Int → Option (Heap × ListBuffer)
  | 0, _, _, _ => none
  | fuel + 1, heap, l, n =>
    if n ≠ 0 then do
      let (heap, l, b) ← Pop heap l
      match b with
      | none => some (heap, l)
      | some i => do
        let node ← heap[i]?
        let blen ← node.Len
        if n < blen then do
          let B ← node.Buf
          let B ← sliceFrom B n
          PushFront (heap.set i { node with Buf := some B }) l (some i)
        else
          discardLoop fuel heap l (sub64 n blen)
    else some (heap, l)

/-- Source `DiscardBytes`. -/
def DiscardBytes (heap : Heap) (l : ListBuffer) (n : Int) : Option (Heap × ListBuffer) :=
  if n ≤ 0 then some (heap, l)
  else discardLoop (heap.length + 1) heap l n

/-- Source `Len`. -/
def Len (l : ListBuffer) : Int := l.size

/-- Source `Bytes`. -/
def Bytes (l : ListBuffer) : Int := l.bytes

/-- Source `IsEmpty`. -/
def IsEmpty (l : ListBuffer) : Bool := l.head = none

/-- The loop `for b := l.Pop(); b != nil; b = l.Pop()` of `Reset`, at most `fuel`
calls of `Pop`. -/
def resetLoop : Nat → Heap → ListBuffer → Option (Heap × ListBuffer)
  | 0, _, _ => none
  | fuel + 1, heap, l => do
    let (heap, l, b) ← Pop heap l
    match b with
    | none => some (heap, l)
    | some _ => resetLoop fuel heap l

/-- Source `Reset`. -/
def Reset (heap : Heap) (l : ListBuffer) : Option (Heap × ListBuffer) := do
  let (heap, l) ← resetLoop (heap.length + 1) heap l
  some (heap, { l with head := none, tail := none, size := 0, bytes := 0, bs := [] })

end ListBuffer

/-! ## The sequence of nodes of a list -/

/-- The pointer `p` leads through exactly the nodes `ids`, in order, and then to nil. -/
def isChain (heap : Heap) : Option Nat → List Nat → Bool
  | p, [] => p == none
  | p, i :: ids =>
    p == some i &&
      (match heap[i]? with
        | none => false
        | some node => isChain heap node.next ids)

/-- The bytes of the chunk of the node at address `i`. -/
def chunk (heap : Heap) (i : Nat) : List Byte :=
  match heap[i]? with
  | some node => node.Buf.getD []
  | none => []

/-- The node at address `i` exists and owns a chunk. -/
def hasChunk (heap : Heap) (i : Nat) : Bool :=
  match heap[i]? with
  | some node => node.Buf.isSome
  | none => false

/-- The chunks of the nodes `ids`. -/
def chunks (heap : Heap) (ids : List Nat) : List (List Byte) := ids.map (chunk heap)

/-- The sum of the chunk lengths of the nodes `ids`. -/
def totalBytes (heap : Heap) (ids : List Nat) : Nat := ((chunks heap ids).map List.length).sum

/-- The nodes of `heap'` own the same chunks as those of `heap`. -/
def SameBufs (heap heap' : Heap) : Prop :=
  heap'.length = heap.length ∧
    ∀ j : Nat, (heap'[j]?).map ByteBuffer.Buf = (heap[j]?).map ByteBuffer.Buf

namespace ListBuffer

/-- The list `l` consists of the nodes `ids`, head first: `head` leads through
them, `tail` is the last of them, each owns a chunk, and the counters `size` and
`bytes` are their number and the sum of their chunk lengths. -/
def Seq (heap : Heap) (l : ListBuffer) (ids : List Nat) : Prop :=
  isChain heap l.head ids = true ∧ l.tail = ids.getLast? ∧
    (∀ i ∈ ids, hasChunk heap i = true) ∧
    l.size = (ids.length : Int) ∧ l.bytes = (totalBytes heap ids : Int) ∧
    l.size < 9223372036854775808 ∧ l.bytes < 9223372036854775808

instance (heap : Heap) (l : ListBuffer) (ids : List Nat) : Decidable (Seq heap l ids) := by
  unfold Seq
  infer_instance

/-- The node `b` may be pushed: it is nil, or it owns a chunk, is not in the list,
and the counters have room for it. -/
def Pushable (heap : Heap) (l : ListBuffer) (b : Option Nat) : Prop :=
  b = none ∨ ∃ i node B ids, b = some i ∧ heap[i]? = some node ∧ node.Buf = some B ∧
    isChain heap l.head ids = true ∧ i ∉ ids ∧
    l.size + 1 < 9223372036854775808 ∧ l.bytes + len B < 9223372036854775808

/-- The states reached from the empty list by the operations of `ListBuffer`, and
by a caller that allocates nodes or changes nodes that are not in the list. -/
inductive Reachable : Heap → ListBuffer → Prop where
  | zero : Reachable [] zero
  | caller (heap : Heap) (l : ListBuffer) (heap' : Heap) (ids : List Nat) :
      Reachable heap l → isChain heap l.head ids = true →
      (∀ i ∈ ids, heap'[i]? = heap[i]?) → Reachable heap' l
  | pushFront (heap : Heap) (l : ListBuffer) (b : Option Nat) (heap' : Heap)
      (l' : ListBuffer) :
      Reachable heap l → Pushable heap l b → PushFront heap l b = some (heap', l') →
      Reachable heap' l'
  | pushBack (heap : Heap) (l : ListBuffer) (b : Option Nat) (heap' : Heap)
      (l' : ListBuffer) :
      Reachable heap l → Pushable heap l b → PushBack heap l b = some (heap', l') →
      Reachable heap' l'
  | pushBytesFront (heap : Heap) (l : ListBuffer) (p : List Byte) (heap' : Heap)
      (l' : ListBuffer) :
      Reachable heap l → l.size + 1 < 9223372036854775808 →
      l.bytes + len p < 9223372036854775808 →
      PushBytesFront heap l p = some (heap', l') → Reachable heap' l'
  | pushBytesBack (heap : Heap) (l : ListBuffer) (p : List Byte) (heap' : Heap)
      (l' : ListBuffer) :
      Reachable heap l → l.size + 1 < 9223372036854775808 →
      l.bytes + len p < 9223372036854775808 →
      PushBytesBack heap l p = some (heap', l') → Reachable heap' l'
  | pop (heap : Heap) (l : ListBuffer) (heap' : Heap) (l' : ListBuffer) (b : Option Nat) :
      Reachable heap l → Pop heap l = some (heap', l', b) → Reachable heap' l'
  | peekBytesList (heap : Heap) (l : ListBuffer) (l' : ListBuffer)
      (out : List (List Byte)) :
      Reachable heap l → PeekBytesList heap l = some (l', out) → Reachable heap l'
  | peekBytesListWithBytes (heap : Heap) (l : ListBuffer) (bs : List (List Byte))
      (l' : ListBuffer) (out : List (List Byte)) :
      Reachable heap l → PeekBytesListWithBytes heap l bs = some (l', out) →
      Reachable heap l'
  | discardBytes (heap : Heap) (l : ListBuffer) (n : Int) (heap' : Heap)
      (l' : ListBuffer) :
      Reachable heap l → IsInt64 n → DiscardBytes heap l n = some (heap', l') →
      Reachable heap' l'
  | reset (heap : Heap) (l : ListBuffer) (heap' : Heap) (l' : ListBuffer) :
      Reachable heap l → Reset heap l = some (heap', l') → Reachable heap' l'

/-- `PushBack` of the nodes `bs`, one call after the other. -/
def pushBackAll (heap : Heap) (l : ListBuffer) : List Nat → Option (Heap × ListBuffer)
  | [] => some (heap, l)
  | b :: bs => do
    let (heap, l) ← PushBack heap l (some b)
    pushBackAll heap l bs

/-- `Pop` called `k` times; the returned pointers in the order of the calls. -/
def popN : Nat → Heap → ListBuffer → Option (Heap × ListBuffer × List (Option Nat))
  | 0, heap, l => some (heap, l, [])
  | k + 1, heap, l => do
    let (heap, l, b) ← Pop heap l
    let (heap, l, bs) ← popN k heap l
    some (heap, l, b :: bs)

end ListBuffer

/-! ## Auxiliary notions for `fillBits` -/

/-- The body of `fillBits` on a natural number. -/
def fillBitsNat (n : Nat) : Nat :=
  let n := n ||| (n >>> 1)
  let n := n ||| (n >>> 2)
  let n := n ||| (n >>> 4)
  let n := n ||| (n >>> 8)
  let n := n ||| (n >>> 16)
  let n := n ||| (n >>> 32)
  n

/-- Bits `[L - k, L)` of `x` are set and no bit from `L` upwards is. -/
def TopRun (k L x : Nat) : Prop :=
  (∀ i, L ≤ i → x.testBit i = false) ∧ (∀ i, i < L → L ≤ i + k → x.testBit i = true)

/-! ## Arithmetic and bit-level lemmas -/

theorem wrap64_eq {x : Int} (h1 : -9223372036854775808 ≤ x) (h2 : x < 9223372036854775808) :
    wrap64 x = x := by
  unfold wrap64; omega

theorem add64_eq {a b : Int} (h1 : -9223372036854775808 ≤ a + b)
    (h2 : a + b < 9223372036854775808) : add64 a b = a + b := wrap64_eq h1 h2

theorem sub64_eq {a b : Int} (h1 : -9223372036854775808 ≤ a - b)
    (h2 : a - b < 9223372036854775808) : sub64 a b = a - b := wrap64_eq h1 h2

theorem wrap64_isInt64 (x : Int) : IsInt64 (wrap64 x) := by
  unfold wrap64 IsInt64; omega

theorem fillBits_natCast (m : Nat) : fillBits (m : Int) = (fillBitsNat m : Int) := rfl

theorem TopRun.step {k L x : Nat} (h : TopRun k L x) :
    TopRun (k + k) L (x ||| (x >>> k)) := by
  obtain ⟨h1, h2⟩ := h
  constructor
  · intro i hi
    simp only [Nat.testBit_or, Nat.testBit_shiftRight, Bool.or_eq_false_iff]
    exact ⟨h1 i hi, h1 (k + i) (by omega)⟩
  · intro i hi hk
    simp only [Nat.testBit_or, Nat.testBit_shiftRight, Bool.or_eq_true]
    by_cases hc : L ≤ i + k
    · exact Or.inl (h2 i hi hc)
    · exact Or.inr (h2 (k + i) (by omega) (by omega))

/-- On a non-zero 64-bit value of bit length `L`, `fillBits` yields `2^L - 1`. -/
theorem fillBitsNat_eq {m : Nat} (h0 : m ≠ 0) (h64 : m < 2 ^ 64) :
    ∃ L, 1 ≤ L ∧ L ≤ 64 ∧ 2 ^ (L - 1) ≤ m ∧ m < 2 ^ L ∧ fillBitsNat m = 2 ^ L - 1 := by
  obtain ⟨i, hi, hj⟩ := Nat.exists_most_significant_bit h0
  have hlo : 2 ^ i ≤ m := Nat.testBit_implies_ge hi
  have hhi : m < 2 ^ (i + 1) := Nat.lt_pow_two_of_testBit m (fun j hj' => hj j (by omega))
  have hi64 : i < 64 := by
    by_contra hc
    have : 2 ^ 64 ≤ 2 ^ i := Nat.pow_le_pow_right (by norm_num) (by omega)
    omega
  refine ⟨i + 1, by omega, by omega, by simpa using hlo, hhi, ?_⟩
  have t0 : TopRun 1 (i + 1) m := by
    refine ⟨fun j hj' => hj j (by omega), fun j hj1 hj2 => ?_⟩
    have : j = i := by omega
    subst this; exact hi
  have t6 := t0.step.step.step.step.step.step
  apply Nat.eq_of_testBit_eq
  intro j
  rw [Nat.testBit_two_pow_sub_one]
  by_cases hj' : j < i + 1
  · simp only [hj', decide_True]
    exact t6.2 j hj' (by omega)
  · simp only [hj', decide_False]
    exact t6.1 j (by omega)

/-- Every `int` above `2^62` has bit 62 set. -/
theorem land_maxintHeadBit {n : Int} (h1 : maxintHeadBit < n) (h2 : n < 9223372036854775808) :
    Int.land n maxintHeadBit ≠ 0 := by
  unfold maxintHeadBit at *
  lift n to Nat using (by omega)
  have e : Int.land (n : Int) 4611686018427387904 = ((n &&& 4611686018427387904 : Nat) : Int) :=
    rfl
  rw [e]
  have h3 : n.testBit 62 = true := by
    rw [Nat.testBit_to_div_mod]
    simp
    omega
  intro hc
  have hc' : n &&& 4611686018427387904 = 0 := by exact_mod_cast hc
  have : (n &&& 4611686018427387904).testBit 62 = true := by
    rw [Nat.testBit_and, h3]
    decide
  rw [hc'] at this
  simp at this

/-- Below the panic threshold `CeilToPowerOfTwo` returns `2^k`, the least power
of two that is at least `n` and at least `2`. -/
theorem CeilToPowerOfTwo_eq {n : Int} (hlo : -9223372036854775808 ≤ n) (h : n ≤ maxintHeadBit) :
    ∃ k : Nat, 1 ≤ k ∧ k ≤ 62 ∧ CeilToPowerOfTwo n = some (2 ^ k) ∧ n ≤ 2 ^ k ∧
      (k = 1 ∨ (2 : Int) ^ (k - 1) < n) := by
  have hnp : ¬ (Int.land n maxintHeadBit ≠ 0 ∧ n > maxintHeadBit) := fun hc => by omega
  unfold maxintHeadBit at h
  by_cases h2 : n ≤ 2
  · refine ⟨1, le_refl _, by norm_num, ?_, by simpa using h2, Or.inl rfl⟩
    simp [CeilToPowerOfTwo, hnp, h2]
  · have e1 : sub64 n 1 = n - 1 := sub64_eq (by omega) (by omega)
    obtain ⟨m, hm⟩ : ∃ m : Nat, n - 1 = (m : Int) := ⟨(n - 1).toNat, by omega⟩
    have hm0 : m ≠ 0 := by omega
    have hm62 : m < 2 ^ 62 := by
      have : (m : Int) < 4611686018427387904 := by omega
      norm_num; exact_mod_cast this
    obtain ⟨L, hL1, -, hLlo, hLhi, hfill⟩ :=
      fillBitsNat_eq hm0 (lt_trans hm62 (by norm_num))
    have hL62 : L ≤ 62 := by
      by_contra hc
      have : 2 ^ 62 ≤ 2 ^ (L - 1) := Nat.pow_le_pow_right (by norm_num) (by omega)
      omega
    have hp62 : 2 ^ L ≤ 2 ^ 62 := Nat.pow_le_pow_right (by norm_num) hL62
    have hpos : 0 < 2 ^ L := Nat.two_pow_pos L
    have hp62' : ((2 ^ L : Nat) : Int) ≤ 4611686018427387904 := by
      have : (2 : Nat) ^ 62 = 4611686018427387904 := by norm_num
      rw [this] at hp62; exact_mod_cast hp62
    have hpos' : (0 : Int) < ((2 ^ L : Nat) : Int) := by exact_mod_cast hpos
    have e2 : fillBits (n - 1) = ((2 ^ L : Nat) : Int) - 1 := by
      rw [hm, fillBits_natCast, hfill]
      exact Int.natCast_pred_of_pos hpos
    have e3 : add64 (((2 ^ L : Nat) : Int) - 1) 1 = ((2 ^ L : Nat) : Int) := by
      rw [add64_eq] <;> omega
    have hL2 : L ≠ 1 := by
      rintro rfl
      simp at hLhi; omega
    refine ⟨L, hL1, hL62, ?_, ?_, Or.inr ?_⟩
    · simp only [CeilToPowerOfTwo, hnp, h2, if_false, e1, e2, e3]
      norm_cast
    · have : (m : Int) < ((2 ^ L : Nat) : Int) := by exact_mod_cast hLhi
      have h3 : n ≤ ((2 ^ L : Nat) : Int) := by omega
      exact_mod_cast h3
    · have : ((2 ^ (L - 1) : Nat) : Int) ≤ (m : Int) := by exact_mod_cast hLlo
      have h3 : ((2 ^ (L - 1) : Nat) : Int) < n := by omega
      exact_mod_cast h3

/-- Above `2^62` the function panics. -/
theorem CeilToPowerOfTwo_panics {n : Int} (h1 : maxintHeadBit < n)
    (h2 : n < 9223372036854775808) : CeilToPowerOfTwo n = none := by
  simp [CeilToPowerOfTwo, land_maxintHeadBit h1 h2, h1]

namespace RingBuffer

/-! ## Lengths of well-formed buffers -/

theorem WF.size_nonneg {rb : RingBuffer} (h : WF rb) : 0 ≤ rb.size := by
  have := h.len_eq
  simp only [len] at this
  omega

theorem WF.size_pos {rb : RingBuffer} (h : WF rb) (hne : rb.isEmpty = false) : 0 < rb.size := by
  have h0 := h.size_nonneg
  have h1 := h.zero_empty
  by_contra hc
  have : rb.size = 0 := by omega
  rw [h1 this] at hne
  exact Bool.noConfusion hne

theorem Length_eq_readable {rb : RingBuffer} (h : WF rb) : rb.Length = len (readable rb) := by
  obtain ⟨h1, h2, h3, h4, h5, h6, h7, h8, h9⟩ := h
  rcases rb with ⟨buf, size, r, w, e⟩
  simp only [len] at *
  simp only [Length, readable, add64, sub64, wrap64, len]
  cases e <;> simp at h8 h9 ⊢
  · split_ifs <;> simp <;> omega
  · omega

theorem Length_nonneg {rb : RingBuffer} (h : WF rb) : 0 ≤ rb.Length := by
  rw [Length_eq_readable h]; simp [len]

theorem Free_eq {rb : RingBuffer} (h : WF rb) : rb.Free = rb.size - rb.Length := by
  obtain ⟨h1, h2, h3, h4, h5, h6, h7, h8, h9⟩ := h
  rcases rb with ⟨buf, size, r, w, e⟩
  simp only [len] at *
  simp only [Length, Free, add64, sub64, wrap64]
  cases e <;> simp at h8 h9 ⊢
  · split_ifs <;> omega
  · omega

theorem Length_le_size {rb : RingBuffer} (h : WF rb) : rb.Length ≤ rb.size := by
  obtain ⟨h1, h2, h3, h4, h5, h6, h7, h8, h9⟩ := h
  rcases rb with ⟨buf, size, r, w, e⟩
  simp only [len] at *
  simp only [Length, add64, sub64, wrap64]
  cases e <;> simp at h8 h9 ⊢
  · split_ifs <;> omega
  · omega

theorem Length_pos {rb : RingBuffer} (h : WF rb) (hne : rb.isEmpty = false) : 0 < rb.Length := by
  have hs := h.size_pos hne
  obtain ⟨h1, h2, h3, h4, h5, h6, h7, h8, h9⟩ := h
  rcases rb with ⟨buf, size, r, w, e⟩
  simp only [len] at *
  subst hne
  simp only [Length, add64, sub64, wrap64]
  simp at hs h9
  specialize h6 hs; specialize h7 hs
  split_ifs <;> first | omega | contradiction

theorem Length_of_isEmpty {rb : RingBuffer} (h : WF rb) (he : rb.isEmpty = true) :
    rb.Length = 0 := by
  have := h.empty_zero he
  simp [Length, this.1, this.2, he]

theorem readable_of_isEmpty {rb : RingBuffer} (he : rb.isEmpty = true) : readable rb = [] := by
  simp [readable, he]

/-- On a well-formed buffer `PeekAll` returns, and its two views together are
the readable bytes. -/
theorem contents_eq {rb : RingBuffer} (h : WF rb) : contents rb = some (readable rb) := by
  obtain ⟨h1, h2, h3, h4, h5, h6, h7, h8, h9⟩ := h
  rcases rb with ⟨buf, size, r, w, e⟩
  simp only [len] at *
  cases e
  · simp at h8 h9
    have hs : 0 < size := by omega
    specialize h6 hs; specialize h7 hs
    by_cases hwr : w > r
    · have c1 : 0 ≤ r ∧ r ≤ w ∧ w ≤ (buf.length : Int) := by omega
      simp [contents, PeekAll, readable, hwr, slice, len, c1]
    · have c1 : 0 ≤ r ∧ r ≤ (buf.length : Int) := by omega
      have c2 : w ≤ (buf.length : Int) := by omega
      by_cases hw0 : w = 0
      · subst hw0
        have hr : ¬ r < 0 := by omega
        simp [contents, PeekAll, readable, slice, sliceFrom, len, c1, hr]
      · simp [contents, PeekAll, readable, hwr, slice, sliceFrom, sliceTo, len, c1, c2, hw0, h5]
  · simp [contents, PeekAll, readable]

end RingBuffer

/-! ## The primitives on natural-number arguments -/

theorem add64_natCast {a b : Nat} (h : a + b < 9223372036854775808) :
    add64 (a : Int) (b : Int) = ((a + b : Nat) : Int) := by
  rw [add64_eq] <;> omega

theorem sub64_natCast {a b : Nat} (h : b ≤ a) (ha : a < 9223372036854775808) :
    sub64 (a : Int) (b : Int) = ((a - b : Nat) : Int) := by
  rw [sub64_eq] <;> omega

theorem slice_natCast {l : List Byte} {a b : Nat} (h1 : a ≤ b) (h2 : b ≤ l.length) :
    slice l (a : Int) (b : Int) = some ((l.take b).drop a) := by
  have c : (0 : Int) ≤ a ∧ (a : Int) ≤ b ∧ (b : Int) ≤ len l := by
    simp only [len]; omega
  simp [slice, c]

theorem sliceFrom_natCast {l : List Byte} {a : Nat} (h1 : a ≤ l.length) :
    sliceFrom l (a : Int) = some (l.drop a) := by
  simp [sliceFrom, len, slice_natCast h1 (le_refl _)]

theorem sliceTo_natCast {l : List Byte} {b : Nat} (h2 : b ≤ l.length) :
    sliceTo l (b : Int) = some (l.take b) := by
  have := slice_natCast (l := l) (Nat.zero_le b) h2
  simpa [sliceTo] using this

theorem copyInto_natCast {l : List Byte} {a : Nat} (h1 : a ≤ l.length) (src : List Byte) :
    copyInto l (a : Int) src = some (l.take a ++ copy (l.drop a) src) := by
  have c : (0 : Int) ≤ a ∧ (a : Int) ≤ len l := by
    simp only [len]; omega
  simp [copyInto, c]

theorem rem64_natCast_lt {a b : Nat} (h : a < b) : rem64 (a : Int) (b : Int) = some (a : Int) := by
  have hb : (b : Int) ≠ 0 := by omega
  simp [rem64, hb, Int.tmod_eq_of_lt (a := (a : Int)) (b := (b : Int)) (by omega) (by omega)]

theorem rem64_natCast_ge {a b : Nat} (h1 : b ≤ a) (h2 : a < b + b) :
    rem64 (a : Int) (b : Int) = some ((a - b : Nat) : Int) := by
  have hb : (b : Int) ≠ 0 := by omega
  have e : Int.tmod (a : Int) (b : Int) = ((a - b : Nat) : Int) := by
    rw [Int.tmod_eq_emod (by omega) (by omega), Int.emod_eq_sub_self_emod,
      Int.emod_eq_of_lt (by omega) (by omega)]
    omega
  simp [rem64, hb, e]

/-! ## `copy` -/

theorem copy_of_le {p s : List Byte} (h : p.length ≤ s.length) : copy p s = s.take p.length := by
  simp [copy, List.drop_eq_nil_of_le h]

theorem copy_of_ge {p s : List Byte} (h : s.length ≤ p.length) :
    copy p s = s ++ p.drop s.length := by
  simp [copy, List.take_of_length_le h]

theorem length_copy (p s : List Byte) : (copy p s).length = p.length := by
  simp only [copy, List.length_append, List.length_take, List.length_drop]
  omega

namespace RingBuffer

theorem readable_mk_contig {b : List Byte} {N : Int} {R W : Nat} (h : R < W) :
    readable (RingBuffer.mk b N R W false) = (b.take W).drop R := by
  have : (W : Int) > R := by omega
  simp [readable, this]

theorem readable_mk_wrap {b : List Byte} {N : Int} {R W : Nat} (h : W ≤ R) :
    readable (RingBuffer.mk b N R W false) = b.drop R ++ b.take W := by
  have : ¬ (W : Int) > R := by omega
  simp [readable, this]

/-- A well-formed buffer written with natural-number cursors. -/
theorem WF.exists_nat {rb : RingBuffer} (h : WF rb) :
    ∃ R W : Nat, rb = RingBuffer.mk rb.buf (rb.buf.length : Int) R W rb.isEmpty ∧
      (rb.isEmpty = false → R < rb.buf.length ∧ W < rb.buf.length) ∧
      (rb.isEmpty = true → R = 0 ∧ W = 0) ∧
      rb.buf.length < 4611686018427387904 ∧ rb.buf.length ≠ 1 := by
  have hs := h.size_nonneg
  obtain ⟨h1, h2, h3, h4, h5, h6, h7, h8, h9⟩ := h
  rcases rb with ⟨buf, size, r, w, e⟩
  simp only [len] at *
  refine ⟨r.toNat, w.toNat, ?_, ?_, ?_, by omega, by omega⟩
  · simp only [RingBuffer.mk.injEq, true_and, and_true]
    omega
  · intro he
    subst he
    have : 0 < size := by
      by_contra hc
      have : size = 0 := by omega
      exact Bool.noConfusion (h9 this)
    specialize h6 this; specialize h7 this
    omega
  · intro he
    have := h8 he
    omega

theorem WF.mk_nat {b : List Byte} {R W : Nat} {e : Bool}
    (h1 : e = false → R < b.length ∧ W < b.length) (h2 : e = true → R = 0 ∧ W = 0)
    (h3 : b.length < 4611686018427387904) (h4 : b.length ≠ 1) :
    WF (RingBuffer.mk b (b.length : Int) R W e) := by
  cases e
  · have := h1 rfl
    constructor <;> simp only [len] <;> first | omega | (intro; omega) | (intro hh; cases hh)
  · have := h2 rfl
    constructor <;> simp only [len] <;> first | omega | (intro; omega) | (intro; trivial)

end RingBuffer

/-! ## List facts behind the two-part copies -/

theorem take_drop_take_of_le (l : List Byte) {a n b : Nat} (h : a + n ≤ b) :
    (l.take (a + n)).drop a = ((l.take b).drop a).take n := by
  rw [List.drop_take, List.drop_take, List.take_take]
  congr 1
  omega

theorem take_drop_eq_take_append (l x : List Byte) {a n : Nat} (h : a + n ≤ l.length) :
    (l.take (a + n)).drop a = (l.drop a ++ x).take n := by
  apply List.ext_getElem?
  intro i
  simp only [List.getElem?_append, List.getElem?_take, List.getElem?_drop,
    List.length_append, List.length_take, List.length_drop]
  split_ifs <;>
    first
    | rfl
    | omega
    | (congr 1; omega)
    | (rw [List.getElem?_eq_none (by omega), List.getElem?_eq_none (by omega)]; done)
    | (rw [List.getElem?_eq_none (by omega)]; done)
    | (symm; rw [List.getElem?_eq_none (by omega)]; done)

theorem drop_append_of_le (l x : List Byte) {a n : Nat} (h : a + n ≤ l.length) :
    (l.drop a ++ x).drop n = l.drop (a + n) ++ x := by
  apply List.ext_getElem?
  intro i
  simp only [List.getElem?_append, List.getElem?_take, List.getElem?_drop,
    List.length_append, List.length_take, List.length_drop]
  split_ifs <;>
    first
    | rfl
    | omega
    | (congr 1; omega)
    | (rw [List.getElem?_eq_none (by omega), List.getElem?_eq_none (by omega)]; done)
    | (rw [List.getElem?_eq_none (by omega)]; done)
    | (symm; rw [List.getElem?_eq_none (by omega)]; done)

theorem drop_append_of_ge (l x : List Byte) {a n : Nat} (h1 : a ≤ l.length)
    (h2 : l.length ≤ a + n) : (l.drop a ++ x).drop n = x.drop (a + n - l.length) := by
  apply List.ext_getElem?
  intro i
  simp only [List.getElem?_append, List.getElem?_take, List.getElem?_drop,
    List.length_append, List.length_take, List.length_drop]
  split_ifs <;>
    first
    | rfl
    | omega
    | (congr 1; omega)
    | (rw [List.getElem?_eq_none (by omega), List.getElem?_eq_none (by omega)]; done)
    | (rw [List.getElem?_eq_none (by omega)]; done)
    | (symm; rw [List.getElem?_eq_none (by omega)]; done)

/-- Copying `l[a:]` to the front of `p` and then `l[:c]` behind it is copying
the first `len(l) - a + c` bytes of `l[a:] ++ l[:b]`, for `c ≤ b`. -/
theorem copy_two_parts (l p : List Byte) {a b c : Nat} (ha : a ≤ l.length)
    (hb : b ≤ l.length) (hc : c ≤ b) (hp : l.length - a + c ≤ p.length)
    (hcb : c = b ∨ p.length = l.length - a + c) :
    (copy p (l.drop a)).take (l.length - a) ++
        copy ((copy p (l.drop a)).drop (l.length - a)) (l.take c) =
      copy p (l.drop a ++ l.take b) := by
  have h1 : copy p (l.drop a) = l.drop a ++ p.drop (l.length - a) := by
    rw [copy_of_ge (by simp only [List.length_drop]; omega), List.length_drop]
  have h2 : (l.drop a ++ p.drop (l.length - a)).take (l.length - a) = l.drop a := by
    apply List.ext_getElem?
    intro i
    simp only [List.getElem?_append, List.getElem?_take, List.getElem?_drop,
      List.length_append, List.length_take, List.length_drop]
    split_ifs <;>
      first
      | rfl
      | omega
      | (congr 1; omega)
      | (rw [List.getElem?_eq_none (by omega), List.getElem?_eq_none (by omega)]; done)
      | (rw [List.getElem?_eq_none (by omega)]; done)
      | (symm; rw [List.getElem?_eq_none (by omega)]; done)
  have h3 : (l.drop a ++ p.drop (l.length - a)).drop (l.length - a) = p.drop (l.length - a) := by
    apply List.ext_getElem?
    intro i
    simp only [List.getElem?_append, List.getElem?_take, List.getElem?_drop,
      List.length_append, List.length_take, List.length_drop]
    split_ifs <;>
      first
      | rfl
      | omega
      | (congr 1; omega)
      | (rw [List.getElem?_eq_none (by omega), List.getElem?_eq_none (by omega)]; done)
      | (rw [List.getElem?_eq_none (by omega)]; done)
      | (symm; rw [List.getElem?_eq_none (by omega)]; done)
  rw [h1, h2, h3]
  rcases hcb with rfl | hcb
  · simp only [copy]
    apply List.ext_getElem?
    intro i
    simp only [List.getElem?_append, List.getElem?_take, List.getElem?_drop,
      List.length_append, List.length_take, List.length_drop]
    split_ifs <;>
      first
      | rfl
      | omega
      | (congr 1; omega)
      | (rw [List.getElem?_eq_none (by omega), List.getElem?_eq_none (by omega)]; done)
      | (rw [List.getElem?_eq_none (by omega)]; done)
      | (symm; rw [List.getElem?_eq_none (by omega)]; done)
  · simp only [copy]
    apply List.ext_getElem?
    intro i
    simp only [List.getElem?_append, List.getElem?_take, List.getElem?_drop,
      List.length_append, List.length_take, List.length_drop]
    split_ifs <;>
      first
      | rfl
      | omega
      | (congr 1; omega)
      | (rw [List.getElem?_eq_none (by omega), List.getElem?_eq_none (by omega)]; done)
      | (rw [List.getElem?_eq_none (by omega)]; done)
      | (symm; rw [List.getElem?_eq_none (by omega)]; done)

namespace RingBuffer

/-! ## `Read`, case by case -/

/-- `Read` when `r < w` and the destination is shorter than the readable part. -/
theorem Read_contig_part {buf : List Byte} {R W : Nat} {p : List Byte}
    (hN : buf.length ≤ 4611686018427387904) (hW : W ≤ buf.length) (hp : 0 < p.length)
    (hc : R + p.length < W) :
    Read (RingBuffer.mk buf (buf.length : Int) R W false) p =
      some (RingBuffer.mk buf (buf.length : Int) ((R + p.length : Nat) : Int) W false,
        copy p ((buf.take W).drop R), (p.length : Int), none) := by
  have e0 : ¬ ((p.length : Int) = 0) := by omega
  have e1 : (W : Int) > R := by omega
  have e2 : sub64 (W : Int) R = ((W - R : Nat) : Int) := sub64_natCast (by omega) (by omega)
  have e3 : ((W - R : Nat) : Int) > (p.length : Int) := by omega
  have e4 : add64 (R : Int) (p.length : Int) = ((R + p.length : Nat) : Int) :=
    add64_natCast (by omega)
  have e5 : slice buf (R : Int) ((R + p.length : Nat) : Int) =
      some ((buf.take (R + p.length)).drop R) := slice_natCast (by omega) (by omega)
  have e6 : ¬ (((R + p.length : Nat) : Int) = (W : Int)) := by omega
  have e7 : copy p ((buf.take (R + p.length)).drop R) = copy p ((buf.take W).drop R) := by
    rw [take_drop_take_of_le buf (by omega : R + p.length ≤ W), copy_of_le, copy_of_le]
    · simp only [List.take_take, min_self]
    · simp only [List.length_take, List.length_drop]; omega
    · simp only [List.length_take, List.length_drop]; omega
  simp only [Read, len, e0, e1, e2, e3, e4, e5, e6, e7, ↓reduceIte, Bool.false_eq_true,
    Option.bind_eq_bind, Option.some_bind]

/-- `Read` when `r < w` and the destination takes every readable byte. -/
theorem Read_contig_all {buf : List Byte} {R W : Nat} {p : List Byte}
    (hN : buf.length ≤ 4611686018427387904) (hW : W ≤ buf.length) (hRW : R < W)
    (hc : W - R ≤ p.length) :
    Read (RingBuffer.mk buf (buf.length : Int) R W false) p =
      some (RingBuffer.mk buf (buf.length : Int) 0 0 true,
        copy p ((buf.take W).drop R), ((W - R : Nat) : Int), none) := by
  have e0 : ¬ ((p.length : Int) = 0) := by omega
  have e1 : (W : Int) > R := by omega
  have e2 : sub64 (W : Int) R = ((W - R : Nat) : Int) := sub64_natCast (by omega) (by omega)
  have e3 : ¬ ((W - R : Nat) : Int) > (p.length : Int) := by omega
  have e4 : add64 (R : Int) ((W - R : Nat) : Int) = (W : Int) := by
    rw [add64_natCast (by omega)]; omega
  have e5 : slice buf (R : Int) (W : Int) = some ((buf.take W).drop R) :=
    slice_natCast (by omega) (by omega)
  simp only [Read, len, e0, e1, e2, e3, e4, e5, ↓reduceIte, Bool.false_eq_true,
    Option.bind_eq_bind, Option.some_bind, Reset]

/-- `Read` when `w ≤ r`, the destination is shorter than the readable part, and
the bytes read stop before the end of storage. -/
theorem Read_wrap_part_lt {buf : List Byte} {R W : Nat} {p : List Byte}
    (hN : buf.length ≤ 4611686018427387904) (hWR : W ≤ R) (hp : 0 < p.length)
    (hc : R + p.length < buf.length) :
    Read (RingBuffer.mk buf (buf.length : Int) R W false) p =
      some (RingBuffer.mk buf (buf.length : Int) ((R + p.length : Nat) : Int) W false,
        copy p (buf.drop R ++ buf.take W), (p.length : Int), none) := by
  have e0 : ¬ ((p.length : Int) = 0) := by omega
  have e1 : ¬ (W : Int) > R := by omega
  have e2 : sub64 (buf.length : Int) R = ((buf.length - R : Nat) : Int) :=
    sub64_natCast (by omega) (by omega)
  have e2' : add64 ((buf.length - R : Nat) : Int) (W : Int) = ((buf.length - R + W : Nat) : Int) :=
    add64_natCast (by omega)
  have e3 : ((buf.length - R + W : Nat) : Int) > (p.length : Int) := by omega
  have e4 : add64 (R : Int) (p.length : Int) = ((R + p.length : Nat) : Int) :=
    add64_natCast (by omega)
  have e4' : ((R + p.length : Nat) : Int) ≤ (buf.length : Int) := by omega
  have e5 : slice buf (R : Int) ((R + p.length : Nat) : Int) =
      some ((buf.take (R + p.length)).drop R) := slice_natCast (by omega) (by omega)
  have e6 : rem64 ((R + p.length : Nat) : Int) (buf.length : Int) =
      some ((R + p.length : Nat) : Int) := rem64_natCast_lt hc
  have e6' : ¬ (((R + p.length : Nat) : Int) = (W : Int)) := by omega
  have e7 : copy p ((buf.take (R + p.length)).drop R) = copy p (buf.drop R ++ buf.take W) := by
    rw [take_drop_eq_take_append buf (buf.take W) (by omega : R + p.length ≤ buf.length),
      copy_of_le, copy_of_le]
    · simp only [List.take_take, min_self]
    · simp only [List.length_append, List.length_take, List.length_drop]; omega
    · simp only [List.length_append, List.length_take, List.length_drop]; omega
  simp only [Read, len, e0, e1, e2, e2', e3, e4, e4', e5, e6, e6', e7, ↓reduceIte,
    Bool.false_eq_true, Option.bind_eq_bind, Option.some_bind]

/-- `Read` when `w ≤ r`, the destination is shorter than the readable part, and
the bytes read stop exactly at the end of storage. -/
theorem Read_wrap_part_eq {buf : List Byte} {R W : Nat} {p : List Byte}
    (hN : buf.length ≤ 4611686018427387904) (hWR : W ≤ R) (hW : 0 < W) (hp : 0 < p.length)
    (hc : R + p.length = buf.length) :
    Read (RingBuffer.mk buf (buf.length : Int) R W false) p =
      some (RingBuffer.mk buf (buf.length : Int) 0 W false,
        copy p (buf.drop R ++ buf.take W), (p.length : Int), none) := by
  have e0 : ¬ ((p.length : Int) = 0) := by omega
  have e1 : ¬ (W : Int) > R := by omega
  have e2 : sub64 (buf.length : Int) R = ((buf.length - R : Nat) : Int) :=
    sub64_natCast (by omega) (by omega)
  have e2' : add64 ((buf.length - R : Nat) : Int) (W : Int) = ((buf.length - R + W : Nat) : Int) :=
    add64_natCast (by omega)
  have e3 : ((buf.length - R + W : Nat) : Int) > (p.length : Int) := by omega
  have e4 : add64 (R : Int) (p.length : Int) = ((R + p.length : Nat) : Int) :=
    add64_natCast (by omega)
  have e4' : ((R + p.length : Nat) : Int) ≤ (buf.length : Int) := by omega
  have e5 : slice buf (R : Int) ((R + p.length : Nat) : Int) =
      some ((buf.take (R + p.length)).drop R) := slice_natCast (by omega) (by omega)
  have e6 : rem64 ((R + p.length : Nat) : Int) (buf.length : Int) = some 0 := by
    have ec : R + p.length - buf.length = 0 := by omega
    rw [rem64_natCast_ge (by omega) (by omega), ec]
    rfl
  have e6' : ¬ ((0 : Int) = (W : Int)) := by omega
  have e7 : copy p ((buf.take (R + p.length)).drop R) = copy p (buf.drop R ++ buf.take W) := by
    rw [take_drop_eq_take_append buf (buf.take W) (by omega : R + p.length ≤ buf.length),
      copy_of_le, copy_of_le]
    · simp only [List.take_take, min_self]
    · simp only [List.length_append, List.length_take, List.length_drop]; omega
    · simp only [List.length_append, List.length_take, List.length_drop]; omega
  simp only [Read, len, e0, e1, e2, e2', e3, e4, e4', e5, e6, e6', e7, ↓reduceIte,
    Bool.false_eq_true, Option.bind_eq_bind, Option.some_bind]

/-- `Read` when `w ≤ r` and the bytes read continue past the end of storage:
`n` is `min(len(p), Length())` and `c` the new read cursor before the reset. -/
theorem Read_wrap_two {buf : List Byte} {R W : Nat} {p : List Byte}
    (hN : buf.length ≤ 4611686018427387904) (hWR : W ≤ R) (hR : R < buf.length)
    {n c : Nat} (hn1 : n ≤ p.length) (hn2 : n ≤ buf.length - R + W)
    (hn3 : n = p.length ∨ n = buf.length - R + W) (hc : buf.length < R + n)
    (hcn : c = R + n - buf.length) :
    Read (RingBuffer.mk buf (buf.length : Int) R W false) p =
      some (if c = W then RingBuffer.mk buf (buf.length : Int) 0 0 true
          else RingBuffer.mk buf (buf.length : Int) c W false,
        copy p (buf.drop R ++ buf.take W), (n : Int), none) := by
  have a0 : ¬ ((p.length : Int) = 0) := by omega
  have a1 : ¬ (W : Int) > R := by omega
  have a2 : ¬ ((R + n : Nat) : Int) ≤ (buf.length : Int) := by omega
  have a3 : n - (buf.length - R) = c := by omega
  have a4 : c ≤ W := by omega
  have a5 : buf.length - R ≤ p.length := by omega
  have a6 : c = W ∨ p.length = buf.length - R + c := by omega
  have a7 : buf.length - R + c ≤ p.length := by omega
  have a8 : ((c : Int) = (W : Int)) ↔ c = W := Nat.cast_inj
  have a9 : (if ((buf.length - R + W : Nat) : Int) > (p.length : Int) then (p.length : Int)
      else ((buf.length - R + W : Nat) : Int)) = (n : Int) := by
    by_cases hif : ((buf.length - R + W : Nat) : Int) > (p.length : Int)
    · rw [if_pos hif]; omega
    · rw [if_neg hif]; omega
  have b1 : R + n < 9223372036854775808 := by omega
  have b2 : buf.length - R ≤ n := by omega
  have b3 : buf.length - R + W < 9223372036854775808 := by omega
  have b4 : R + n < buf.length + buf.length := by omega
  have b5 : c ≤ buf.length := by omega
  have e2 : sub64 (buf.length : Int) R = ((buf.length - R : Nat) : Int) :=
    sub64_natCast (le_of_lt hR) (by omega)
  have e2b : add64 ((buf.length - R : Nat) : Int) (W : Int) =
      ((buf.length - R + W : Nat) : Int) := add64_natCast b3
  have e4 : add64 (R : Int) (n : Int) = ((R + n : Nat) : Int) := add64_natCast b1
  have e5 : sliceFrom buf (R : Int) = some (buf.drop R) := sliceFrom_natCast (le_of_lt hR)
  have e5b : sub64 (n : Int) ((buf.length - R : Nat) : Int) = (c : Int) := by
    rw [sub64_natCast b2 (lt_of_le_of_lt (Nat.le_add_left _ _) b1), a3]
  have e5c : sliceTo buf (c : Int) = some (buf.take c) := sliceTo_natCast b5
  have e5d : copyInto (copy p (buf.drop R)) ((buf.length - R : Nat) : Int) (buf.take c) =
      some ((copy p (buf.drop R)).take (buf.length - R) ++
        copy ((copy p (buf.drop R)).drop (buf.length - R)) (buf.take c)) :=
    copyInto_natCast (by rw [length_copy]; exact a5) _
  have e6 : rem64 ((R + n : Nat) : Int) (buf.length : Int) = some (c : Int) := by
    rw [rem64_natCast_ge (le_of_lt hc) b4, hcn]
  have e7 : (copy p (buf.drop R)).take (buf.length - R) ++
        copy ((copy p (buf.drop R)).drop (buf.length - R)) (buf.take c) =
      copy p (buf.drop R ++ buf.take W) :=
    copy_two_parts buf p (le_of_lt hR) (le_trans hWR (le_of_lt hR)) a4 a7 a6
  simp only [Read, len, a0, a1, e2, e2b, a9, e4, a2, e5, e5b, e5c, e5d, e6, e7, a8,
    ↓reduceIte, Bool.false_eq_true, Option.bind_eq_bind, Option.some_bind, Reset]

/-- `Read` when `w = 0` and the destination takes every readable byte: these end
exactly at the end of storage. -/
theorem Read_wrap_all_zero {buf : List Byte} {R : Nat} {p : List Byte}
    (hN : buf.length ≤ 4611686018427387904) (hR : R < buf.length)
    (hc : buf.length ≤ R + p.length) :
    Read (RingBuffer.mk buf (buf.length : Int) R (0 : Nat) false) p =
      some (RingBuffer.mk buf (buf.length : Int) 0 0 true,
        copy p (buf.drop R ++ buf.take 0), ((buf.length - R : Nat) : Int), none) := by
  have e0 : ¬ ((p.length : Int) = 0) := by omega
  have e1 : ¬ ((0 : Nat) : Int) > R := by omega
  have e2 : sub64 (buf.length : Int) R = ((buf.length - R : Nat) : Int) :=
    sub64_natCast (by omega) (by omega)
  have e2' : add64 ((buf.length - R : Nat) : Int) ((0 : Nat) : Int) =
      ((buf.length - R : Nat) : Int) := by
    rw [add64_natCast (by omega)]; rfl
  have e3 : ¬ ((buf.length - R : Nat) : Int) > (p.length : Int) := by omega
  have e4 : add64 (R : Int) ((buf.length - R : Nat) : Int) = (buf.length : Int) := by
    rw [add64_natCast (by omega)]; omega
  have e5 : slice buf (R : Int) (buf.length : Int) = some ((buf.take buf.length).drop R) :=
    slice_natCast (by omega) (by omega)
  have e6 : rem64 (buf.length : Int) (buf.length : Int) = some ((0 : Nat) : Int) := by
    have ec : buf.length - buf.length = 0 := by omega
    rw [rem64_natCast_ge (by omega) (by omega), ec]
  have e7 : copy p ((buf.take buf.length).drop R) = copy p (buf.drop R ++ buf.take 0) := by
    rw [List.take_length, List.take_zero, List.append_nil]
  simp only [Read, len, e0, e1, e2, e2', e3, e4, e5, e6, e7, ↓reduceIte, le_refl,
    Bool.false_eq_true, Option.bind_eq_bind, Option.some_bind, Reset]

end RingBuffer

namespace RingBuffer

theorem Length_mk_contig {b : List Byte} {N : Int} {R W : Nat} (hRW : R < W)
    (hW : W < 9223372036854775808) :
    Length (RingBuffer.mk b N R W false) = ((W - R : Nat) : Int) := by
  have e1 : ¬ ((R : Int) = (W : Int)) := by omega
  have e2 : (W : Int) > (R : Int) := by omega
  simp only [Length, e1, e2, ↓reduceIte, sub64_natCast (le_of_lt hRW) hW]

theorem Length_mk_wrap {b : List Byte} {N R W : Nat} (hWR : W ≤ R) (hR : R < N)
    (hN : N ≤ 4611686018427387904) :
    Length (RingBuffer.mk b (N : Int) R W false) = ((N - R + W : Nat) : Int) := by
  have e2 : ¬ (W : Int) > (R : Int) := by omega
  have e3 : sub64 (N : Int) R = ((N - R : Nat) : Int) := sub64_natCast (le_of_lt hR) (by omega)
  have e4 : add64 ((N - R : Nat) : Int) (W : Int) = ((N - R + W : Nat) : Int) :=
    add64_natCast (by omega)
  by_cases e1 : (R : Int) = (W : Int)
  · simp only [Length, e1, ↓reduceIte, Bool.false_eq_true]
    omega
  · simp only [Length, e1, e2, e3, e4, ↓reduceIte]

/-- What `Read` does on a non-empty well-formed buffer and a non-empty
destination `p`: the readable bytes are copied to the front of `p` and removed
from the buffer, the storage and the capacity stay. -/
theorem Read_spec {rb : RingBuffer} (h : WF rb) (hne : rb.isEmpty = false) {p : List Byte}
    (hp : p ≠ []) :
    ∃ rb', rb.Read p = some (rb', copy p (readable rb), min (len p) rb.Length, none) ∧
      WF rb' ∧ readable rb' = (readable rb).drop p.length ∧ rb'.size = rb.size ∧
      rb'.buf = rb.buf ∧ (rb.Length ≤ len p → rb' = rb.Reset) ∧
      (len p < rb.Length → rb'.isEmpty = false ∧ rb'.w = rb.w) := by
  obtain ⟨R, W, hrb, hlt, -, hN', hN1⟩ := h.exists_nat
  obtain ⟨hR, hW⟩ := hlt hne
  rcases rb with ⟨buf, size, r, w, e⟩
  simp only [RingBuffer.mk.injEq, true_and, and_true] at hrb hne hR hW hN' hN1
  obtain ⟨rfl, rfl, rfl⟩ := hrb
  subst hne
  have hN := le_of_lt hN'
  have hpl : 0 < p.length := List.length_pos.mpr hp
  have hz : WF (RingBuffer.mk buf (buf.length : Int) 0 0 true) :=
    WF.mk_nat (R := 0) (W := 0) (fun hh => Bool.noConfusion hh) (fun _ => ⟨rfl, rfl⟩) hN' hN1
  by_cases hRW : R < W
  · have hL := Length_mk_contig (b := buf) (N := (buf.length : Int)) hRW (by omega)
    rw [hL, readable_mk_contig hRW]
    by_cases hc : R + p.length < W
    · have hmin : min (len p) ((W - R : Nat) : Int) = (p.length : Int) := by
        simp only [len]; omega
      rw [hmin]
      refine ⟨_, Read_contig_part hN (le_of_lt hW) hpl hc, ?_, ?_, rfl, rfl, ?_, ?_⟩
      · exact WF.mk_nat (fun _ => ⟨by omega, hW⟩) (fun hh => Bool.noConfusion hh) hN' hN1
      · rw [readable_mk_contig hc, List.drop_drop, Nat.add_comm]
      · intro hh; simp only [len] at hh; omega
      · intro _; exact ⟨rfl, rfl⟩
    · have hmin : min (len p) ((W - R : Nat) : Int) = ((W - R : Nat) : Int) := by
        simp only [len]; omega
      rw [hmin]
      refine ⟨_, Read_contig_all hN (le_of_lt hW) hRW (by omega), hz, ?_, rfl, rfl, ?_, ?_⟩
      · rw [readable_of_isEmpty rfl, List.drop_eq_nil_of_le]
        simp only [List.length_take, List.length_drop]; omega
      · intro _; rfl
      · intro hh; simp only [len] at hh; omega
  · have hWR : W ≤ R := by omega
    have hL := Length_mk_wrap (b := buf) hWR hR hN
    rw [hL, readable_mk_wrap hWR]
    by_cases hW0 : W = 0
    · subst hW0
      by_cases hc : R + p.length < buf.length
      · have hmin : min (len p) ((buf.length - R + 0 : Nat) : Int) = (p.length : Int) := by
          simp only [len]; omega
        rw [hmin]
        refine ⟨_, Read_wrap_part_lt hN hWR hpl hc, ?_, ?_, rfl, rfl, ?_, ?_⟩
        · exact WF.mk_nat (fun _ => ⟨hc, hW⟩) (fun hh => Bool.noConfusion hh) hN' hN1
        · rw [readable_mk_wrap (by omega), drop_append_of_le buf _ (le_of_lt hc)]
        · intro hh; simp only [len] at hh; omega
        · intro _; exact ⟨rfl, rfl⟩
      · have hmin : min (len p) ((buf.length - R + 0 : Nat) : Int) =
            ((buf.length - R : Nat) : Int) := by
          simp only [len]; omega
        rw [hmin]
        refine ⟨_, Read_wrap_all_zero hN hR (by omega), hz, ?_, rfl, rfl, ?_, ?_⟩
        · rw [readable_of_isEmpty rfl, List.drop_eq_nil_of_le]
          simp only [List.length_append, List.length_take, List.length_drop]; omega
        · intro _; rfl
        · intro hh; simp only [len] at hh; omega
    · by_cases hc : R + p.length < buf.length
      · have hmin : min (len p) ((buf.length - R + W : Nat) : Int) = (p.length : Int) := by
          simp only [len]; omega
        rw [hmin]
        refine ⟨_, Read_wrap_part_lt hN hWR hpl hc, ?_, ?_, rfl, rfl, ?_, ?_⟩
        · exact WF.mk_nat (fun _ => ⟨hc, hW⟩) (fun hh => Bool.noConfusion hh) hN' hN1
        · rw [readable_mk_wrap (by omega), drop_append_of_le buf _ (le_of_lt hc)]
        · intro hh; simp only [len] at hh; omega
        · intro _; exact ⟨rfl, rfl⟩
      · by_cases hc2 : R + p.length = buf.length
        · have hmin : min (len p) ((buf.length - R + W : Nat) : Int) = (p.length : Int) := by
            simp only [len]; omega
          rw [hmin]
          refine ⟨_, Read_wrap_part_eq hN hWR (by omega) hpl hc2, ?_, ?_, rfl, rfl, ?_, ?_⟩
          · exact WF.mk_nat (R := 0) (fun _ => ⟨by omega, hW⟩) (fun hh => Bool.noConfusion hh)
              hN' hN1
          · have e := readable_mk_contig (b := buf) (N := (buf.length : Int)) (R := 0)
              (W := W) (by omega)
            rw [Nat.cast_zero] at e
            rw [e, drop_append_of_ge buf _ (le_of_lt hR) (by omega)]
            congr 1; omega
          · intro hh; simp only [len] at hh; omega
          · intro _; exact ⟨rfl, rfl⟩
        · obtain ⟨n, hn⟩ : ∃ n, n = min p.length (buf.length - R + W) := ⟨_, rfl⟩
          obtain ⟨c, hcn⟩ : ∃ c, c = R + n - buf.length := ⟨_, rfl⟩
          have hmin : min (len p) ((buf.length - R + W : Nat) : Int) = (n : Int) := by
            simp only [len]; omega
          rw [hmin]
          have hrd := Read_wrap_two (p := p) hN hWR hR (n := n) (c := c) (by omega) (by omega)
            (by omega) (by omega) hcn
          by_cases hcW : c = W
          · rw [if_pos hcW] at hrd
            refine ⟨_, hrd, hz, ?_, rfl, rfl, ?_, ?_⟩
            · rw [readable_of_isEmpty rfl, List.drop_eq_nil_of_le]
              simp only [List.length_append, List.length_take, List.length_drop]; omega
            · intro _; rfl
            · intro hh; simp only [len] at hh; omega
          · rw [if_neg hcW] at hrd
            refine ⟨_, hrd, ?_, ?_, rfl, rfl, ?_, ?_⟩
            · exact WF.mk_nat (fun _ => ⟨by omega, hW⟩) (fun hh => Bool.noConfusion hh) hN' hN1
            · rw [readable_mk_contig (by omega),
                drop_append_of_ge buf _ (le_of_lt hR) (by omega)]
              congr 1; omega
            · intro hh; simp only [len] at hh; omega
            · intro _; exact ⟨rfl, rfl⟩

end RingBuffer

namespace RingBuffer

/-! ## The capacity chosen by `grow` -/

/-- From a size of at least `4`, and with the request within `maxBytes`, the
loop of `grow` ends within `newCap - n + 1` evaluations of its condition, at a
value that is at least `n` and `newCap` and at most a quarter above `newCap`
(or `n` itself). -/
theorem growLoop_spec (fuel : Nat) : ∀ (n newCap : Int), 4 ≤ n → n < 4611686018427387904 →
    newCap ≤ maxBytes → (newCap - n).toNat < fuel →
    ∃ m, growLoop fuel n newCap = some m ∧ n ≤ m ∧ newCap ≤ m ∧
      (m = n ∨ m < newCap + newCap / 4 + 1) := by
  unfold maxBytes
  induction fuel with
  | zero => intro n newCap _ _ _ hf; omega
  | succ fuel ih =>
    intro n newCap h4 hn hc hf
    by_cases hlt : n < newCap
    · have hcond : 0 < n ∧ n < newCap := ⟨by omega, hlt⟩
      have hdiv : Int.tdiv n 4 = n / 4 := Int.tdiv_eq_ediv (by omega) (by omega)
      have hadd : add64 n (n / 4) = n + n / 4 := add64_eq (by omega) (by omega)
      obtain ⟨m, hm, h1, h2, h3⟩ := ih (n + n / 4) newCap (by omega) (by omega) hc (by omega)
      refine ⟨m, ?_, by omega, h2, Or.inr ?_⟩
      · simp only [growLoop, hcond, and_self, ↓reduceIte, hdiv, hadd, hm]
      · rcases h3 with h3 | h3 <;> omega
    · have hcond : ¬ (0 < n ∧ n < newCap) := fun hh => hlt hh.2
      exact ⟨n, by simp only [growLoop, hcond, ↓reduceIte], le_refl _, by omega, Or.inl rfl⟩

/-- The capacity `grow` settles on, for a request of `1 ≤ newCap ≤ maxBytes`
made on a buffer of capacity `size`: it is at least the request and the old
capacity, at least `2`, and at most `2^62`. -/
theorem growCap_spec {size newCap : Int} (hs0 : 0 ≤ size) (hs1 : size ≠ 1)
    (hs2 : size < 4611686018427387904) (hc1 : 1 ≤ newCap) (hc2 : newCap ≤ maxBytes) :
    ∃ cap, growCap size newCap = some cap ∧ newCap ≤ cap ∧ size ≤ cap ∧ 2 ≤ cap ∧
      cap < 4611686018427387904 := by
  have hc2' := hc2
  unfold maxBytes at hc2'
  by_cases hz : size = 0
  · subst hz
    by_cases hd : newCap ≤ DefaultBufferSize
    · refine ⟨DefaultBufferSize, ?_, hd, ?_, ?_, ?_⟩
      · simp only [growCap, ↓reduceIte, hd]
      all_goals unfold DefaultBufferSize; omega
    · obtain ⟨k, hk1, hk62, hk, hle, hmin⟩ :=
        CeilToPowerOfTwo_eq (n := newCap) (by omega) (by unfold maxintHeadBit; omega)
      have hk61 : k ≤ 61 := by
        by_contra hcon
        have hp : (2 : Int) ^ 61 ≤ 2 ^ (k - 1) := pow_le_pow_right₀ (by norm_num) (by omega)
        norm_num at hp
        rcases hmin with h1 | h1 <;> omega
      have hp1 : (2 : Int) ^ 1 ≤ 2 ^ k := pow_le_pow_right₀ (by norm_num) hk1
      have hp2 : (2 : Int) ^ k ≤ 2 ^ 61 := pow_le_pow_right₀ (by norm_num) hk61
      norm_num at hp1 hp2
      refine ⟨2 ^ k, ?_, hle, by omega, hp1, by omega⟩
      simp only [growCap, ↓reduceIte, hd, hk]
  · have hdbl : add64 size size = size + size := add64_eq (by omega) (by omega)
    by_cases hd : newCap ≤ size + size
    · by_cases ht : size < bufferGrowThreshold
      · refine ⟨size + size, ?_, hd, by omega, by omega, ?_⟩
        · simp only [growCap, hz, ↓reduceIte, hdbl, hd, ht]
        · unfold bufferGrowThreshold at ht; omega
      · have ht' : 4096 ≤ size := by unfold bufferGrowThreshold at ht; omega
        obtain ⟨m, hm, h1, h2, h3⟩ :=
          growLoop_spec (newCap.toNat + 1) size newCap (by omega) hs2 hc2 (by omega)
        have hpos : m > 0 := by omega
        refine ⟨m, ?_, h2, h1, by omega, ?_⟩
        · simp only [growCap, hz, ↓reduceIte, hdbl, hd, ht, hm, Option.bind_eq_bind,
            Option.some_bind, hpos]
        · rcases h3 with h3 | h3 <;> omega
    · refine ⟨newCap, ?_, le_refl _, by omega, by omega, by omega⟩
      simp only [growCap, hz, ↓reduceIte, hdbl, hd]

/-- A request of `1` on a full buffer: the capacity `grow` settles on. -/
theorem growCap_one {size : Int} (hs0 : 0 ≤ size) (hs2 : size < 4611686018427387904) :
    growCap size 1 =
      some (if size = 0 then DefaultBufferSize
        else if size < bufferGrowThreshold then size + size else size) := by
  by_cases hz : size = 0
  · subst hz
    have : (1 : Int) ≤ DefaultBufferSize := by unfold DefaultBufferSize; omega
    simp only [growCap, ↓reduceIte, this]
  · have hdbl : add64 size size = size + size := add64_eq (by omega) (by omega)
    have hd : (1 : Int) ≤ size + size := by omega
    by_cases ht : size < bufferGrowThreshold
    · simp only [growCap, hz, ↓reduceIte, hdbl, hd, ht]
    · have hcond : ¬ (0 < size ∧ size < 1) := fun hh => by omega
      have hpos : size > 0 := by omega
      have hl : growLoop ((1 : Int).toNat + 1) size 1 = some size := by
        simp only [growLoop, hcond, ↓reduceIte]
      simp only [growCap, hz, ↓reduceIte, hdbl, hd, ht, hl, Option.bind_eq_bind,
        Option.some_bind, hpos]

end RingBuffer

theorem byteslice.length_Get (recycled : List Byte) {size : Int} (h : 0 < size) :
    (byteslice.Get recycled size).length = size.toNat := by
  have h0 : ¬ size ≤ 0 := by omega
  by_cases hr : size ≤ len recycled
  · simp only [byteslice.Get, h0, hr, ↓reduceIte, List.length_take]
    simp only [len] at hr
    omega
  · simp only [byteslice.Get, h0, hr, ↓reduceIte, List.length_replicate]

namespace RingBuffer

/-! ## `grow` -/

/-- The buffer `grow` installs: the readable bytes at the front of the new
storage, `r = 0`, `w` the number of readable bytes. -/
theorem grow_eq {rb : RingBuffer} (h : WF rb) (recycled : List Byte) {newCap cap : Int}
    (hcap : growCap rb.size newCap = some cap) (hpos : 0 < cap) (hL : rb.Length ≤ cap) :
    grow recycled rb newCap =
      some (RingBuffer.mk (copy (byteslice.Get recycled cap) (readable rb)) cap 0 rb.Length
        rb.isEmpty) := by
  have hlen := byteslice.length_Get recycled hpos
  have hG0 : ¬ (len (byteslice.Get recycled cap) = 0) := by
    simp only [len, hlen]; omega
  cases he : rb.isEmpty
  · have hne : byteslice.Get recycled cap ≠ [] := by
      intro hc; rw [hc] at hG0; exact hG0 rfl
    obtain ⟨rb', hrd, -, -, -, -, hreset, -⟩ := Read_spec h he hne
    have hle : rb.Length ≤ len (byteslice.Get recycled cap) := by
      simp only [len, hlen]; omega
    have hLpos := Length_pos h he
    have hLpos' : rb.Length > 0 := hLpos
    rw [hreset hle] at hrd
    simp only [grow, hcap, Option.bind_eq_bind, Option.some_bind, hrd, Reset, hLpos',
      ↓reduceIte]
  · have hL0 := Length_of_isEmpty h he
    have hrd : rb.Read (byteslice.Get recycled cap) =
        some (rb, byteslice.Get recycled cap, 0, some Error.ErrIsEmpty) := by
      simp only [Read, hG0, he, ↓reduceIte]
    have hcopy : copy (byteslice.Get recycled cap) (readable rb) = byteslice.Get recycled cap := by
      rw [readable_of_isEmpty he]
      simp only [copy, List.take_nil, List.length_nil, List.drop_zero, List.nil_append]
    have hnp : ¬ ((0 : Int) > 0) := by omega
    simp only [grow, hcap, Option.bind_eq_bind, Option.some_bind, hrd, hL0, hnp, ↓reduceIte,
      hcopy, he]

/-- When the new capacity exceeds the number of readable bytes, the buffer
`grow` installs is well formed and holds the same readable bytes. -/
theorem grow_spec {rb : RingBuffer} (h : WF rb) (recycled : List Byte) {newCap cap : Int}
    (hcap : growCap rb.size newCap = some cap) (hL : rb.Length < cap)
    (hc1 : cap ≠ 1) (hc2 : cap < 4611686018427387904) :
    ∃ rb', grow recycled rb newCap = some rb' ∧ WF rb' ∧ readable rb' = readable rb ∧
      rb'.size = cap ∧ rb'.Length = rb.Length ∧ rb'.isEmpty = rb.isEmpty := by
  have hL0 := Length_nonneg h
  have hpos : 0 < cap := by omega
  have hlen := byteslice.length_Get recycled hpos
  have hLr := Length_eq_readable h
  simp only [len] at hLr
  have hge := grow_eq h recycled hcap hpos (le_of_lt hL)
  obtain ⟨rd, hrd⟩ : ∃ rd, rd = readable rb := ⟨_, rfl⟩
  obtain ⟨B, hB⟩ : ∃ B, B = copy (byteslice.Get recycled cap) rd := ⟨_, rfl⟩
  have hBl : B.length = cap.toNat := by rw [hB, length_copy, hlen]
  have hcl : cap = (B.length : Int) := by omega
  have hLn : rb.Length = ((rd.length : Nat) : Int) := by rw [hrd]; exact hLr
  have hBe : B = rd ++ (byteslice.Get recycled cap).drop rd.length := by
    rw [hB]; exact copy_of_ge (by omega)
  rw [← hrd, ← hB, hLn, hcl] at hge
  have hwf : WF (RingBuffer.mk B (B.length : Int) ((0 : Nat) : Int) ((rd.length : Nat) : Int)
      rb.isEmpty) :=
    WF.mk_nat (fun _ => by omega)
      (fun he => ⟨rfl, by have := Length_of_isEmpty h he; omega⟩) (by omega) (by omega)
  rw [Nat.cast_zero] at hwf
  refine ⟨_, hge, hwf, ?_, hcl.symm, ?_, rfl⟩
  · rw [← hrd]
    cases he : rb.isEmpty
    · have hLpos := Length_pos h he
      have e := readable_mk_contig (b := B) (N := (B.length : Int)) (R := 0) (W := rd.length)
        (by omega)
      rw [Nat.cast_zero] at e
      rw [e, List.drop_zero, hBe, List.take_left']
      rfl
    · rw [readable_of_isEmpty rfl, hrd, readable_of_isEmpty he]
  · rw [hLn]
    cases he : rb.isEmpty
    · have hLpos := Length_pos h he
      have e := Length_mk_contig (b := B) (N := (B.length : Int)) (R := 0) (W := rd.length)
        (by omega) (by omega)
      rw [Nat.cast_zero] at e
      rw [e]; rfl
    · have := Length_of_isEmpty h he
      have e0 : ((rd.length : Nat) : Int) = 0 := by omega
      rw [e0]
      rfl

end RingBuffer

/-! ## List facts behind `Write` -/

theorem write_front_lt (buf p : List Byte) {R W : Nat} (h1 : R ≤ W)
    (h2 : W + p.length ≤ buf.length) :
    ((buf.take W ++ copy (buf.drop W) p).take (W + p.length)).drop R =
      (buf.take W).drop R ++ p := by
  simp only [copy]
  apply List.ext_getElem?
  intro i
  simp only [List.getElem?_append, List.getElem?_take, List.getElem?_drop,
    List.length_append, List.length_take, List.length_drop]
  split_ifs <;>
    first
    | rfl
    | omega
    | (congr 1; omega)
    | (rw [List.getElem?_eq_none (by omega), List.getElem?_eq_none (by omega)]; done)
    | (rw [List.getElem?_eq_none (by omega)]; done)
    | (symm; rw [List.getElem?_eq_none (by omega)]; done)

theorem write_front_eq (buf p : List Byte) {R W : Nat} (h1 : R ≤ W)
    (h2 : W + p.length = buf.length) :
    (buf.take W ++ copy (buf.drop W) p).drop R = (buf.take W).drop R ++ p := by
  simp only [copy]
  apply List.ext_getElem?
  intro i
  simp only [List.getElem?_append, List.getElem?_take, List.getElem?_drop,
    List.length_append, List.length_take, List.length_drop]
  split_ifs <;>
    first
    | rfl
    | omega
    | (congr 1; omega)
    | (rw [List.getElem?_eq_none (by omega), List.getElem?_eq_none (by omega)]; done)
    | (rw [List.getElem?_eq_none (by omega)]; done)
    | (symm; rw [List.getElem?_eq_none (by omega)]; done)

theorem write_back (buf p : List Byte) {R W : Nat} (h1 : W + p.length ≤ R)
    (h2 : R ≤ buf.length) :
    (buf.take W ++ copy (buf.drop W) p).drop R ++
        (buf.take W ++ copy (buf.drop W) p).take (W + p.length) =
      buf.drop R ++ buf.take W ++ p := by
  simp only [copy]
  apply List.ext_getElem?
  intro i
  simp only [List.getElem?_append, List.getElem?_take, List.getElem?_drop,
    List.length_append, List.length_take, List.length_drop]
  split_ifs <;>
    first
    | rfl
    | omega
    | (congr 1; omega)
    | (rw [List.getElem?_eq_none (by omega), List.getElem?_eq_none (by omega)]; done)
    | (rw [List.getElem?_eq_none (by omega)]; done)
    | (symm; rw [List.getElem?_eq_none (by omega)]; done)

theorem write_two_storage (buf p : List Byte) {W : Nat} (h1 : W ≤ buf.length)
    (h2 : buf.length < W + p.length) (h3 : p.length ≤ buf.length) :
    copy (buf.take W ++ copy (buf.drop W) (p.take (buf.length - W))) (p.drop (buf.length - W)) =
      p.drop (buf.length - W) ++ (buf.take W).drop (W + p.length - buf.length) ++
        p.take (buf.length - W) := by
  simp only [copy]
  apply List.ext_getElem?
  intro i
  simp only [List.getElem?_append, List.getElem?_take, List.getElem?_drop,
    List.length_append, List.length_take, List.length_drop]
  split_ifs <;>
    first
    | rfl
    | omega
    | (congr 1; omega)
    | (rw [List.getElem?_eq_none (by omega), List.getElem?_eq_none (by omega)]; done)
    | (rw [List.getElem?_eq_none (by omega)]; done)
    | (symm; rw [List.getElem?_eq_none (by omega)]; done)

theorem write_two (buf p : List Byte) {R W : Nat} (h1 : W ≤ buf.length)
    (h2 : buf.length < W + p.length) (h3 : W + p.length - buf.length ≤ R) (h4 : R ≤ W) :
    (p.drop (buf.length - W) ++ (buf.take W).drop (W + p.length - buf.length) ++
          p.take (buf.length - W)).drop R ++
        (p.drop (buf.length - W) ++ (buf.take W).drop (W + p.length - buf.length) ++
          p.take (buf.length - W)).take (W + p.length - buf.length) =
      (buf.take W).drop R ++ p := by
  apply List.ext_getElem?
  intro i
  simp only [List.getElem?_append, List.getElem?_take, List.getElem?_drop,
    List.length_append, List.length_take, List.length_drop]
  split_ifs <;>
    first
    | rfl
    | omega
    | (congr 1; omega)
    | (rw [List.getElem?_eq_none (by omega), List.getElem?_eq_none (by omega)]; done)
    | (rw [List.getElem?_eq_none (by omega)]; done)
    | (symm; rw [List.getElem?_eq_none (by omega)]; done)

namespace RingBuffer

/-! ## `Write` without growth, case by case -/

/-- `Write` when `w ≥ r` and `p` fits before the end of storage. -/
theorem Write_front {buf : List Byte} {R W : Nat} {e : Bool} {p : List Byte}
    (recycled : List Byte) (hN : buf.length < 4611686018427387904) (hRW : R ≤ W)
    (hfit : W + p.length ≤ buf.length) (hp : 0 < p.length)
    (hfree : ¬ ((p.length : Int) > Free (RingBuffer.mk buf (buf.length : Int) R W e))) :
    Write recycled (RingBuffer.mk buf (buf.length : Int) R W e) p =
      some (RingBuffer.mk (buf.take W ++ copy (buf.drop W) p) (buf.length : Int) R
        (if W + p.length = buf.length then 0 else ((W + p.length : Nat) : Int)) false,
        (p.length : Int), none) := by
  have a0 : ¬ ((p.length : Int) = 0) := by omega
  have a1 : (W : Int) ≥ (R : Int) := by omega
  have a2 : ((buf.length - W : Nat) : Int) ≥ (p.length : Int) := by omega
  have a3 : (((W + p.length : Nat) : Int) = (buf.length : Int)) ↔ W + p.length = buf.length :=
    Nat.cast_inj
  have e2 : sub64 (buf.length : Int) W = ((buf.length - W : Nat) : Int) :=
    sub64_natCast (by omega) (by omega)
  have e3 := copyInto_natCast (l := buf) (a := W) (by omega) p
  have e4 : add64 (W : Int) (p.length : Int) = ((W + p.length : Nat) : Int) :=
    add64_natCast (by omega)
  simp only [Write, len, a0, hfree, a1, e2, a2, e3, e4, a3, ↓reduceIte, Option.bind_eq_bind,
    Option.some_bind]
  split_ifs <;> rfl

/-- `Write` when `w < r` (and `p` fits before `r`). -/
theorem Write_back {buf : List Byte} {R W : Nat} {e : Bool} {p : List Byte}
    (recycled : List Byte) (hN : buf.length < 4611686018427387904) (hWR : W < R)
    (hR : R < buf.length) (hfit : W + p.length ≤ R) (hp : 0 < p.length)
    (hfree : ¬ ((p.length : Int) > Free (RingBuffer.mk buf (buf.length : Int) R W e))) :
    Write recycled (RingBuffer.mk buf (buf.length : Int) R W e) p =
      some (RingBuffer.mk (buf.take W ++ copy (buf.drop W) p) (buf.length : Int) R
        ((W + p.length : Nat) : Int) false, (p.length : Int), none) := by
  have a0 : ¬ ((p.length : Int) = 0) := by omega
  have a1 : ¬ (W : Int) ≥ (R : Int) := by omega
  have a3 : ¬ (((W + p.length : Nat) : Int) = (buf.length : Int)) := by omega
  have e3 := copyInto_natCast (l := buf) (a := W) (by omega) p
  have e4 : add64 (W : Int) (p.length : Int) = ((W + p.length : Nat) : Int) :=
    add64_natCast (by omega)
  simp only [Write, len, a0, hfree, a1, e3, e4, a3, ↓reduceIte, Option.bind_eq_bind,
    Option.some_bind]

/-- `Write` when `w ≥ r` and `p` continues past the end of storage. -/
theorem Write_two {buf : List Byte} {R W : Nat} {e : Bool} {p : List Byte}
    (recycled : List Byte) (hN : buf.length < 4611686018427387904) (hRW : R ≤ W)
    (hW : W ≤ buf.length) (hover : buf.length < W + p.length)
    (hfit : W + p.length - buf.length ≤ R) (hR : R < buf.length)
    (hfree : ¬ ((p.length : Int) > Free (RingBuffer.mk buf (buf.length : Int) R W e))) :
    Write recycled (RingBuffer.mk buf (buf.length : Int) R W e) p =
      some (RingBuffer.mk
        (copy (buf.take W ++ copy (buf.drop W) (p.take (buf.length - W)))
          (p.drop (buf.length - W)))
        (buf.length : Int) R ((W + p.length - buf.length : Nat) : Int) false,
        (p.length : Int), none) := by
  have a0 : ¬ ((p.length : Int) = 0) := by omega
  have a1 : (W : Int) ≥ (R : Int) := by omega
  have a2 : ¬ ((buf.length - W : Nat) : Int) ≥ (p.length : Int) := by omega
  have a3 : ¬ (((W + p.length - buf.length : Nat) : Int) = (buf.length : Int)) := by omega
  have a4 : p.length - (buf.length - W) = W + p.length - buf.length := by omega
  have e2 : sub64 (buf.length : Int) W = ((buf.length - W : Nat) : Int) :=
    sub64_natCast (by omega) (by omega)
  have e3 : sliceTo p ((buf.length - W : Nat) : Int) = some (p.take (buf.length - W)) :=
    sliceTo_natCast (by omega)
  have e4 := copyInto_natCast (l := buf) (a := W) hW (p.take (buf.length - W))
  have e5 : sub64 (p.length : Int) ((buf.length - W : Nat) : Int) =
      ((W + p.length - buf.length : Nat) : Int) := by
    rw [sub64_natCast (by omega) (by omega), a4]
  have e6 : sliceFrom p ((buf.length - W : Nat) : Int) = some (p.drop (buf.length - W)) :=
    sliceFrom_natCast (by omega)
  simp only [Write, len, a0, hfree, a1, e2, a2, e3, e4, e5, e6, a3, ↓reduceIte,
    Option.bind_eq_bind, Option.some_bind]

end RingBuffer

theorem length_take_append_copy (buf p : List Byte) {W : Nat} (h : W ≤ buf.length) :
    (buf.take W ++ copy (buf.drop W) p).length = buf.length := by
  simp only [List.length_append, List.length_take, length_copy, List.length_drop]
  omega

namespace RingBuffer

/-- A state whose storage `B` has the length of `buf` is well formed under the
conditions of `WF.mk_nat`. -/
theorem WF.mk_nat_of_length {B buf : List Byte} {R W : Nat} {e : Bool}
    (hB : B.length = buf.length)
    (h1 : e = false → R < buf.length ∧ W < buf.length) (h2 : e = true → R = 0 ∧ W = 0)
    (h3 : buf.length < 4611686018427387904) (h4 : buf.length ≠ 1) :
    WF (RingBuffer.mk B (buf.length : Int) R W e) := by
  rw [← hB] at h1 h3 h4 ⊢
  exact WF.mk_nat h1 h2 h3 h4

/-- `Write` of a non-empty `p` that fits into the free space appends `p` to the
readable bytes and keeps the capacity. -/
theorem Write_fit {rb : RingBuffer} (h : WF rb) (recycled : List Byte) {p : List Byte}
    (hp : p ≠ []) (hfree : len p ≤ rb.Free) :
    ∃ rb', rb.Write recycled p = some (rb', len p, none) ∧ WF rb' ∧
      readable rb' = readable rb ++ p ∧ rb'.size = rb.size ∧ rb'.isEmpty = false := by
  have hFree := Free_eq h
  obtain ⟨R, W, hrb, hlt, hemp, hN, hN1⟩ := h.exists_nat
  rcases rb with ⟨buf, size, r, w, e⟩
  simp only [RingBuffer.mk.injEq, true_and, and_true] at hrb hlt hemp hN hN1 hFree
  obtain ⟨rfl, rfl, rfl⟩ := hrb
  have hpl : 0 < p.length := List.length_pos.mpr hp
  have hnf : ¬ ((p.length : Int) > Free (RingBuffer.mk buf (buf.length : Int) R W e)) :=
    not_lt.mpr hfree
  simp only [len] at hfree ⊢
  cases e
  · obtain ⟨hR, hW⟩ := hlt rfl
    by_cases hRW : R < W
    · have hL := Length_mk_contig (b := buf) (N := (buf.length : Int)) hRW (by omega)
      rw [hFree, hL] at hfree
      rw [readable_mk_contig hRW]
      by_cases hfit : W + p.length ≤ buf.length
      · have hev := Write_front recycled hN (le_of_lt hRW) hfit hpl hnf
        have hBl := length_take_append_copy buf p (le_of_lt hW)
        by_cases heq : W + p.length = buf.length
        · rw [if_pos heq] at hev
          refine ⟨_, hev, ?_, ?_, rfl, rfl⟩
          · exact WF.mk_nat_of_length (R := R) (W := 0) hBl (fun _ => ⟨hR, by omega⟩)
              (fun hh => Bool.noConfusion hh) hN hN1
          · have e := readable_mk_wrap (b := buf.take W ++ copy (buf.drop W) p)
              (N := (buf.length : Int)) (R := R) (W := 0) (Nat.zero_le _)
            rw [Nat.cast_zero] at e
            rw [e, List.take_zero, List.append_nil, write_front_eq buf p (le_of_lt hRW) heq]
        · rw [if_neg heq] at hev
          refine ⟨_, hev, ?_, ?_, rfl, rfl⟩
          · exact WF.mk_nat_of_length hBl (fun _ => ⟨hR, by omega⟩)
              (fun hh => Bool.noConfusion hh) hN hN1
          · rw [readable_mk_contig (by omega), write_front_lt buf p (le_of_lt hRW) hfit]
      · have hev := Write_two recycled hN (le_of_lt hRW) (le_of_lt hW) (by omega)
          (by omega) hR hnf
        have hst := write_two_storage buf p (le_of_lt hW) (by omega) (by omega)
        rw [hst] at hev
        have hBl : (p.drop (buf.length - W) ++ (buf.take W).drop (W + p.length - buf.length) ++
            p.take (buf.length - W)).length = buf.length := by
          simp only [List.length_append, List.length_take, List.length_drop]
          omega
        refine ⟨_, hev, ?_, ?_, rfl, rfl⟩
        · exact WF.mk_nat_of_length hBl (fun _ => ⟨hR, by omega⟩)
            (fun hh => Bool.noConfusion hh) hN hN1
        · rw [readable_mk_wrap (by omega),
            write_two buf p (le_of_lt hW) (by omega) (by omega) (le_of_lt hRW)]
    · by_cases hWR : W < R
      · have hL := Length_mk_wrap (b := buf) (le_of_lt hWR) hR (le_of_lt hN)
        rw [hFree, hL] at hfree
        rw [readable_mk_wrap (le_of_lt hWR)]
        have hev := Write_back recycled hN hWR hR (by omega) hpl hnf
        have hBl := length_take_append_copy buf p (le_of_lt hW)
        refine ⟨_, hev, ?_, ?_, rfl, rfl⟩
        · exact WF.mk_nat_of_length hBl (fun _ => ⟨hR, by omega⟩)
            (fun hh => Bool.noConfusion hh) hN hN1
        · rw [readable_mk_wrap (by omega), write_back buf p (by omega) (le_of_lt hR)]
      · have hL := Length_mk_wrap (b := buf) (by omega : W ≤ R) hR (le_of_lt hN)
        rw [hFree, hL] at hfree
        omega
  · obtain ⟨rfl, rfl⟩ := hemp rfl
    have hL := Length_of_isEmpty h rfl
    rw [hFree, hL] at hfree
    rw [readable_of_isEmpty rfl, List.nil_append]
    have hfit : 0 + p.length ≤ buf.length := by omega
    have hev := Write_front recycled hN (le_refl 0) hfit hpl hnf
    have hBl := length_take_append_copy buf p (Nat.zero_le _)
    have hne1 : buf.length ≠ 0 := by omega
    simp only [Nat.cast_zero] at hev ⊢
    by_cases heq : 0 + p.length = buf.length
    · rw [if_pos heq] at hev
      refine ⟨_, hev, ?_, ?_, rfl, rfl⟩
      · exact WF.mk_nat_of_length (R := 0) (W := 0) hBl (fun _ => ⟨by omega, by omega⟩)
          (fun hh => Bool.noConfusion hh) hN hN1
      · have e := readable_mk_wrap (b := buf.take 0 ++ copy (buf.drop 0) p)
          (N := (buf.length : Int)) (R := 0) (W := 0) (Nat.zero_le _)
        rw [Nat.cast_zero] at e
        have e2 := write_front_eq buf p (le_refl 0) heq
        rw [List.drop_zero] at e2
        rw [e, List.take_zero (l := buf.take 0 ++ copy (buf.drop 0) p), List.append_nil,
          List.drop_zero, e2]
        rfl
    · rw [if_neg heq] at hev
      refine ⟨_, hev, ?_, ?_, rfl, rfl⟩
      · exact WF.mk_nat_of_length (R := 0) hBl (fun _ => ⟨by omega, by omega⟩)
          (fun hh => Bool.noConfusion hh) hN hN1
      · have e := readable_mk_contig (b := buf.take 0 ++ copy (buf.drop 0) p)
          (N := (buf.length : Int)) (R := 0) (W := 0 + p.length) (by omega)
        rw [Nat.cast_zero] at e
        rw [e, write_front_lt buf p (le_refl 0) hfit]
        rfl

end RingBuffer

namespace RingBuffer

/-! ## `Write` in general -/

theorem Write_of_grow {rb rb1 : RingBuffer} (recycled : List Byte) {p : List Byte}
    (hp : ¬ (len p = 0)) (hgt : len p > rb.Free)
    (hg : grow recycled rb (sub64 (add64 rb.size (len p)) rb.Free) = some rb1)
    (hfit : ¬ (len p > rb1.Free)) : rb.Write recycled p = rb1.Write recycled p := by
  simp only [Write, hp, hgt, hg, hfit, ↓reduceIte, Option.bind_eq_bind, Option.some_bind]

/-- The argument `rb.size + n - free` that `Write` passes to `grow` is the
number of bytes the buffer has to hold. -/
theorem Write_request {rb : RingBuffer} (h : WF rb) {n : Int} (hn : 0 ≤ n)
    (hb : rb.Length + n ≤ maxBytes) :
    sub64 (add64 rb.size n) rb.Free = rb.Length + n := by
  have h1 := Free_eq h
  have h2 := Length_nonneg h
  have h3 := Length_le_size h
  have h4 := h.size_lt
  unfold maxBytes at hb
  rw [h1]
  simp only [add64, sub64, wrap64]
  omega

/-- `Write` of a non-empty `p` returns `(len(p), nil)`, appends `p` to the
readable bytes, and changes the capacity only when `p` exceeds the free space,
to the capacity `grow` chooses for `Length() + len(p)`. -/
theorem Write_spec {rb : RingBuffer} (h : WF rb) (recycled : List Byte) {p : List Byte}
    (hp : p ≠ []) (hb : rb.Length + len p ≤ maxBytes) :
    ∃ rb', rb.Write recycled p = some (rb', len p, none) ∧ WF rb' ∧
      readable rb' = readable rb ++ p ∧ rb'.isEmpty = false ∧
      (len p ≤ rb.Free → rb'.size = rb.size) ∧
      (rb.Free < len p → growCap rb.size (rb.Length + len p) = some rb'.size) := by
  by_cases hfree : len p ≤ rb.Free
  · obtain ⟨rb', h1, h2, h3, h4, h5⟩ := Write_fit h recycled hp hfree
    exact ⟨rb', h1, h2, h3, h5, fun _ => h4, fun hh => absurd hfree (not_le.mpr hh)⟩
  · have hpl : 0 < p.length := List.length_pos.mpr hp
    have hlen : 0 < len p := by simp only [len]; omega
    have hL0 := Length_nonneg h
    have hreq := Write_request h (le_of_lt hlen) hb
    obtain ⟨cap, hcap, hc1, hc2, hc3, hc4⟩ :=
      growCap_spec h.size_nonneg h.size_ne_one h.size_lt (by omega : 1 ≤ rb.Length + len p) hb
    obtain ⟨rb1, hg, hwf1, hrd1, hs1, hL1, -⟩ :=
      grow_spec h recycled hcap (by omega) (by omega) hc4
    have hF1 := Free_eq hwf1
    have hfit1 : len p ≤ rb1.Free := by rw [hF1, hs1, hL1]; omega
    obtain ⟨rb', h1, h2, h3, h4, h5⟩ := Write_fit hwf1 recycled hp hfit1
    rw [← hreq] at hg
    have hw := Write_of_grow recycled (by omega) (not_le.mp hfree) hg (not_lt.mpr hfit1)
    refine ⟨rb', by rw [hw]; exact h1, h2, by rw [h3, hrd1], h5,
      fun hh => absurd hh hfree, fun _ => ?_⟩
    rw [h4, hs1]; exact hcap

/-- `Write` of an empty slice returns `(0, nil)` and changes nothing. -/
theorem Write_nil (recycled : List Byte) (rb : RingBuffer) :
    rb.Write recycled [] = some (rb, 0, none) := by
  simp only [Write, len, List.length_nil, Nat.cast_zero, ↓reduceIte]

end RingBuffer

theorem set_eq_take_append_copy (buf : List Byte) {W : Nat} (c : Byte) (h : W < buf.length) :
    buf.set W c = buf.take W ++ copy (buf.drop W) [c] := by
  have hc : copy (buf.drop W) [c] = [c] ++ (buf.drop W).drop 1 :=
    copy_of_ge (by simp only [List.length_drop, List.length_singleton]; omega)
  rw [hc, List.set_eq_take_append_cons_drop, if_pos h, List.drop_drop]
  rfl

namespace RingBuffer

/-! ## `WriteByte` -/

/-- `WriteByte` when there is free space. -/
theorem WriteByte_eval {buf : List Byte} {R W : Nat} {e : Bool} (recycled : List Byte)
    (c : Byte) (hN : buf.length < 4611686018427387904) (hW : W < buf.length)
    (hfree : ¬ (Free (RingBuffer.mk buf (buf.length : Int) R W e) < 1)) :
    WriteByte recycled (RingBuffer.mk buf (buf.length : Int) R W e) c =
      some (RingBuffer.mk (buf.set W c) (buf.length : Int) R
        (if W + 1 = buf.length then 0 else ((W + 1 : Nat) : Int)) false, none) := by
  have a1 : (0 : Int) ≤ (W : Int) ∧ (W : Int) < len buf := by simp only [len]; omega
  have a3 : (((W + 1 : Nat) : Int) = (buf.length : Int)) ↔ W + 1 = buf.length := Nat.cast_inj
  have e1 : setIndex buf (W : Int) c = some (buf.set W c) := by
    simp only [setIndex, a1, and_self, ↓reduceIte, Int.toNat_ofNat]
  have e2 : add64 (W : Int) 1 = ((W + 1 : Nat) : Int) := by
    rw [add64_eq] <;> omega
  simp only [WriteByte, hfree, e1, e2, a3, ↓reduceIte, Option.bind_eq_bind, Option.some_bind]
  split_ifs <;> rfl

/-- With free space, `WriteByte(c)` leaves the buffer that `Write` of the
one-byte slice `[c]` leaves. -/
theorem WriteByte_fit {rb : RingBuffer} (h : WF rb) (recycled : List Byte) (c : Byte)
    (hfree : 1 ≤ rb.Free) :
    ∃ rb', rb.WriteByte recycled c = some (rb', none) ∧
      rb.Write recycled [c] = some (rb', 1, none) := by
  have hFree := Free_eq h
  have hLs := Length_le_size h
  have hnf1 : ¬ (rb.Free < 1) := by omega
  have hnf : ¬ ((([c] : List Byte).length : Int) > rb.Free) := by
    simp only [List.length_singleton, Nat.cast_one]; omega
  obtain ⟨R, W, hrb, hlt, hemp, hN, hN1⟩ := h.exists_nat
  rcases rb with ⟨buf, size, r, w, e⟩
  simp only [RingBuffer.mk.injEq, true_and, and_true] at hrb hlt hemp hN hN1 hFree hLs
  obtain ⟨rfl, rfl, rfl⟩ := hrb
  have hpos : 0 < buf.length := by
    have := Length_nonneg h
    omega
  have hW : W < buf.length := by
    cases e
    · exact (hlt rfl).2
    · have := (hemp rfl).2; omega
  have hev := WriteByte_eval recycled c hN hW hnf1
  rw [set_eq_take_append_copy buf c hW] at hev
  refine ⟨_, hev, ?_⟩
  by_cases hRW : R ≤ W
  · have hw := Write_front (p := [c]) recycled hN hRW (by simpa using hW) (by simp) hnf
    simpa using hw
  · have hR : R < buf.length := by
      cases e
      · exact (hlt rfl).1
      · have := (hemp rfl).1; omega
    have hw := Write_back (p := [c]) recycled hN (by omega) hR (by simp; omega) (by simp) hnf
    have hne : ¬ (W + 1 = buf.length) := by omega
    rw [if_neg hne]
    simpa using hw

theorem WriteByte_of_grow {rb rb1 : RingBuffer} (recycled : List Byte) (c : Byte)
    (hlt : rb.Free < 1) (hg : grow recycled rb 1 = some rb1) (hfit : ¬ (rb1.Free < 1)) :
    rb.WriteByte recycled c = rb1.WriteByte recycled c := by
  simp only [WriteByte, hlt, hg, hfit, ↓reduceIte, Option.bind_eq_bind, Option.some_bind]

/-- `WriteByte(c)` on a buffer that has free space or a capacity below the
growth threshold returns `nil` and appends `c` to the readable bytes. -/
theorem WriteByte_spec {rb : RingBuffer} (h : WF rb) (recycled : List Byte) (c : Byte)
    (hok : 1 ≤ rb.Free ∨ rb.size < bufferGrowThreshold) :
    ∃ rb', rb.WriteByte recycled c = some (rb', none) ∧ WF rb' ∧
      readable rb' = readable rb ++ [c] ∧ rb'.Length = rb.Length + 1 := by
  have hne : ([c] : List Byte) ≠ [] := by simp
  have key : ∀ rb1 : RingBuffer, WF rb1 → 1 ≤ rb1.Free →
      ∃ rb', rb1.WriteByte recycled c = some (rb', none) ∧ WF rb' ∧
        readable rb' = readable rb1 ++ [c] ∧ rb'.Length = rb1.Length + 1 := by
    intro rb1 h1 hf1
    obtain ⟨rb', hwb, hw⟩ := WriteByte_fit h1 recycled c hf1
    obtain ⟨rb'', hw', hwf, hrd, -, -⟩ := Write_fit h1 recycled hne (by simpa [len] using hf1)
    rw [hw] at hw'
    simp only [Option.some.injEq, Prod.mk.injEq] at hw'
    obtain ⟨rfl, -⟩ := hw'
    refine ⟨rb', hwb, hwf, hrd, ?_⟩
    rw [Length_eq_readable hwf, Length_eq_readable h1, hrd]
    simp [len]
  by_cases hfree : 1 ≤ rb.Free
  · exact key rb h hfree
  · have hsz : rb.size < bufferGrowThreshold := by
      rcases hok with h1 | h1
      · exact absurd h1 hfree
      · exact h1
    have hFree := Free_eq h
    have hLs := Length_le_size h
    have hs0 := h.size_nonneg
    have hL : rb.Length = rb.size := by omega
    have hc := growCap_one hs0 h.size_lt
    obtain ⟨cap, hcapdef⟩ : ∃ cap, cap = (if rb.size = 0 then DefaultBufferSize
        else if rb.size < bufferGrowThreshold then rb.size + rb.size else rb.size) := ⟨_, rfl⟩
    rw [← hcapdef] at hc
    have hcap : rb.size < cap ∧ cap ≠ 1 ∧ cap < 4611686018427387904 := by
      unfold bufferGrowThreshold at hsz
      rw [hcapdef]
      unfold DefaultBufferSize bufferGrowThreshold
      split_ifs <;> omega
    obtain ⟨rb1, hg, hwf1, hrd1, hs1, hL1, -⟩ :=
      grow_spec h recycled hc (by omega) hcap.2.1 hcap.2.2
    have hF1 := Free_eq hwf1
    have hf1 : 1 ≤ rb1.Free := by rw [hF1, hs1, hL1]; omega
    obtain ⟨rb', h1, h2, h3, h4⟩ := key rb1 hwf1 hf1
    refine ⟨rb', ?_, h2, by rw [h3, hrd1], by rw [h4, hL1]⟩
    rw [WriteByte_of_grow recycled c (by omega) hg (by omega)]
    exact h1

/-- `WriteByte(c)` on a full buffer whose capacity has reached the growth
threshold: `grow(1)` keeps the capacity, leaves `w == size`, and the store
`rb.buf[rb.w] = c` is out of range. -/
theorem WriteByte_panics {rb : RingBuffer} (h : WF rb) (recycled : List Byte) (c : Byte)
    (hfull : rb.Free < 1) (hsz : bufferGrowThreshold ≤ rb.size) :
    rb.WriteByte recycled c = none := by
  have hFree := Free_eq h
  have hLs := Length_le_size h
  have hs0 := h.size_nonneg
  have hL : rb.Length = rb.size := by omega
  have hc := growCap_one hs0 h.size_lt
  have hsz' := hsz
  unfold bufferGrowThreshold at hsz'
  have hz : ¬ rb.size = 0 := by omega
  have ht : ¬ rb.size < bufferGrowThreshold := by omega
  simp only [hz, ht, ↓reduceIte] at hc
  have hg := grow_eq h recycled hc (by omega) (by omega)
  have hlen : len (copy (byteslice.Get recycled rb.size) (readable rb)) = rb.size := by
    simp only [len, length_copy, byteslice.length_Get recycled (by omega : 0 < rb.size)]
    omega
  have hidx : ¬ ((0 : Int) ≤ rb.Length ∧
      rb.Length < len (copy (byteslice.Get recycled rb.size) (readable rb))) := by
    rw [hlen]; omega
  simp only [WriteByte, hfull, hg, ↓reduceIte, Option.bind_eq_bind, Option.some_bind, setIndex,
    hidx, Option.none_bind]

/-- A returning `WriteByte` leaves a well-formed buffer. -/
theorem WriteByte_WF {rb rb' : RingBuffer} (h : WF rb) {recycled : List Byte} {c : Byte}
    {e : Option Error} (hw : rb.WriteByte recycled c = some (rb', e)) : WF rb' := by
  by_cases hok : 1 ≤ rb.Free ∨ rb.size < bufferGrowThreshold
  · obtain ⟨rb'', h1, h2, -, -⟩ := WriteByte_spec h recycled c hok
    rw [h1] at hw
    simp only [Option.some.injEq, Prod.mk.injEq] at hw
    rw [← hw.1]; exact h2
  · have hp := WriteByte_panics h recycled c (by omega) (by omega)
    rw [hp] at hw
    exact Option.noConfusion hw

end RingBuffer

namespace RingBuffer

/-! ## `Reset`, `ReadByte`, `Discard` -/

theorem WF_Reset {rb : RingBuffer} (h : WF rb) : WF rb.Reset := by
  exact ⟨h.len_eq, h.size_lt, h.size_ne_one, le_refl 0, le_refl 0, fun hs => hs, fun hs => hs,
    fun _ => ⟨rfl, rfl⟩, fun _ => rfl⟩

/-- `ReadByte` on a non-empty buffer returns the byte at `r` and leaves a
well-formed buffer. -/
theorem ReadByte_spec {rb : RingBuffer} (h : WF rb) (hne : rb.isEmpty = false) :
    ∃ rb' b, rb.ReadByte = some (rb', b, none) ∧ WF rb' ∧ rb'.size = rb.size ∧
      rb'.buf = rb.buf := by
  obtain ⟨R, W, hrb, hlt, -, hN, hN1⟩ := h.exists_nat
  obtain ⟨hR, hW⟩ := hlt hne
  rcases rb with ⟨buf, size, r, w, e⟩
  simp only [RingBuffer.mk.injEq, true_and, and_true] at hrb hne hR hW hN hN1
  obtain ⟨rfl, rfl, rfl⟩ := hrb
  subst hne
  obtain ⟨S, hS⟩ : ∃ S, S = R + 1 := ⟨_, rfl⟩
  have a1 : (0 : Int) ≤ (R : Int) ∧ (R : Int) < len buf := by simp only [len]; omega
  obtain ⟨b, hb⟩ : ∃ b, buf[R]? = some b := ⟨_, List.getElem?_eq_getElem hR⟩
  have e1 : index buf (R : Int) = some b := by
    simp only [index, a1, and_self, ↓reduceIte, Int.toNat_ofNat, hb]
  have e2 : add64 (R : Int) 1 = (S : Int) := by
    rw [add64_eq] <;> omega
  have hz : WF (RingBuffer.mk buf (buf.length : Int) 0 0 true) :=
    WF.mk_nat (R := 0) (W := 0) (fun hh => Bool.noConfusion hh) (fun _ => ⟨rfl, rfl⟩) hN hN1
  have c1 : ((S : Int) = (buf.length : Int)) ↔ S = buf.length := Nat.cast_inj
  have c2 : ((0 : Int) = (W : Int)) ↔ 0 = W := by omega
  have c3 : ((S : Int) = (W : Int)) ↔ S = W := Nat.cast_inj
  by_cases hend : S = buf.length
  · by_cases hw0 : 0 = W
    · refine ⟨RingBuffer.mk buf (buf.length : Int) 0 0 true, b, ?_, hz, rfl, rfl⟩
      simp only [ReadByte, e1, e2, c1, c2, hend, hw0, ↓reduceIte, Bool.false_eq_true,
        Option.bind_eq_bind, Option.some_bind, Reset]
    · refine ⟨RingBuffer.mk buf (buf.length : Int) 0 W false, b, ?_, ?_, rfl, rfl⟩
      · simp only [ReadByte, e1, e2, c1, c2, hend, hw0, ↓reduceIte, Bool.false_eq_true,
          Option.bind_eq_bind, Option.some_bind]
      · exact WF.mk_nat (R := 0) (fun _ => ⟨by omega, hW⟩) (fun hh => Bool.noConfusion hh)
          hN hN1
  · by_cases hw : S = W
    · subst hw
      refine ⟨RingBuffer.mk buf (buf.length : Int) 0 0 true, b, ?_, hz, rfl, rfl⟩
      simp only [ReadByte, e1, e2, c1, hend, ↓reduceIte, Bool.false_eq_true,
        Option.bind_eq_bind, Option.some_bind, Reset]
    · refine ⟨RingBuffer.mk buf (buf.length : Int) (S : Int) W false, b, ?_, ?_, rfl, rfl⟩
      · simp only [ReadByte, e1, e2, c1, c3, hend, hw, ↓reduceIte, Bool.false_eq_true,
          Option.bind_eq_bind, Option.some_bind]
      · exact WF.mk_nat (fun _ => ⟨by omega, hW⟩) (fun hh => Bool.noConfusion hh) hN hN1

/-- `Discard(n)` for `0 < n < Length()` leaves the buffer that a `Read` into a
destination of length `n` leaves. -/
theorem Discard_eq_Read {rb : RingBuffer} (h : WF rb) {p : List Byte} (hp : p ≠ [])
    (hlt : len p < rb.Length) :
    ∃ rb' p' k, rb.Read p = some (rb', p', k, none) ∧ rb.Discard (len p) = some rb' := by
  have hne : rb.isEmpty = false := by
    by_contra hc
    have := Length_of_isEmpty h (by simpa using hc)
    simp only [len] at hlt
    omega
  have hLs := Length_le_size h
  obtain ⟨R, W, hrb, hlt', -, hN', hN1⟩ := h.exists_nat
  obtain ⟨hR, hW⟩ := hlt' hne
  rcases rb with ⟨buf, size, r, w, e⟩
  simp only [RingBuffer.mk.injEq, true_and, and_true] at hrb hne hR hW hN' hN1 hLs
  obtain ⟨rfl, rfl, rfl⟩ := hrb
  subst hne
  have hN := le_of_lt hN'
  have hpl : 0 < p.length := List.length_pos.mpr hp
  have hpN : p.length < buf.length := by simp only [len] at hlt; omega
  have a0 : ¬ (len p ≤ 0) := by simp only [len]; omega
  have e0 : add64 (R : Int) (len p) = ((R + p.length : Nat) : Int) := by
    simp only [len]; exact add64_natCast (by omega)
  by_cases hRW : R < W
  · rw [Length_mk_contig hRW (by omega)] at hlt
    simp only [len] at hlt
    have hc : R + p.length < W := by omega
    have e1 := rem64_natCast_lt (a := R + p.length) (b := buf.length) (by omega)
    refine ⟨_, _, _, Read_contig_part hN (le_of_lt hW) hpl hc, ?_⟩
    simp only [Discard, a0, e0, e1, ↓reduceIte, Option.bind_eq_bind, Option.some_bind]
    rw [if_pos]
    rw [Length_mk_contig hRW (by omega)]
    simp only [len]; omega
  · have hWR : W ≤ R := by omega
    have hL := Length_mk_wrap (b := buf) hWR hR hN
    rw [hL] at hlt
    have hlt2 : len p < Length (RingBuffer.mk buf (buf.length : Int) R W false) := by
      rw [hL]; exact hlt
    simp only [len] at hlt
    by_cases hc : R + p.length < buf.length
    · have e1 := rem64_natCast_lt (a := R + p.length) (b := buf.length) hc
      refine ⟨_, _, _, Read_wrap_part_lt hN hWR hpl hc, ?_⟩
      simp only [Discard, a0, e0, e1, hlt2, ↓reduceIte, Option.bind_eq_bind, Option.some_bind]
    · by_cases hc2 : R + p.length = buf.length
      · have e1 := rem64_natCast_ge (a := R + p.length) (b := buf.length) (by omega) (by omega)
        have e2 : R + p.length - buf.length = 0 := by omega
        rw [e2] at e1
        refine ⟨_, _, _, Read_wrap_part_eq hN hWR (by omega) hpl hc2, ?_⟩
        simp only [Discard, a0, e0, e1, hlt2, ↓reduceIte, Option.bind_eq_bind,
          Option.some_bind, Nat.cast_zero]
      · have e1 := rem64_natCast_ge (a := R + p.length) (b := buf.length) (by omega) (by omega)
        have hrd := Read_wrap_two (p := p) hN hWR hR (n := p.length)
          (c := R + p.length - buf.length) (le_refl _) (by omega) (Or.inl rfl) (by omega) rfl
        have hcW : ¬ (R + p.length - buf.length = W) := by omega
        rw [if_neg hcW] at hrd
        refine ⟨_, _, _, hrd, ?_⟩
        simp only [Discard, a0, e0, e1, hlt2, ↓reduceIte, Option.bind_eq_bind,
          Option.some_bind]

theorem Discard_nonpos (rb : RingBuffer) {n : Int} (hn : n ≤ 0) : rb.Discard n = some rb := by
  simp only [Discard, hn, ↓reduceIte]

theorem Discard_all (rb : RingBuffer) {n : Int} (hn : 0 < n) (hge : rb.Length ≤ n) :
    rb.Discard n = some rb.Reset := by
  have a0 : ¬ (n ≤ 0) := by omega
  have a1 : ¬ (n < rb.Length) := by omega
  simp only [Discard, a0, a1, ↓reduceIte]

/-- `Discard(n)` for `0 < n < Length()` drops the first `n` readable bytes and
changes nothing but `r`. -/
theorem Discard_spec {rb : RingBuffer} (h : WF rb) {n : Int} (hn : 0 < n)
    (hlt : n < rb.Length) :
    ∃ rb', rb.Discard n = some rb' ∧ WF rb' ∧ readable rb' = (readable rb).drop n.toNat ∧
      rb'.size = rb.size ∧ rb'.buf = rb.buf ∧ rb'.w = rb.w ∧ rb'.isEmpty = false := by
  obtain ⟨p, hpn⟩ : ∃ p : List Byte, p.length = n.toNat := ⟨List.replicate n.toNat 0, by simp⟩
  have hp : p ≠ [] := by
    intro hc; rw [hc] at hpn; simp only [List.length_nil] at hpn; omega
  have hlen : len p = n := by simp only [len]; omega
  have hne : rb.isEmpty = false := by
    by_contra hc
    have := Length_of_isEmpty h (by simpa using hc)
    omega
  obtain ⟨rb', p', k, hrd, hd⟩ := Discard_eq_Read h hp (by rw [hlen]; exact hlt)
  obtain ⟨rb'', hrd', hwf, hrdb, hs, hb, -, hpart⟩ := Read_spec h hne hp
  rw [hrd] at hrd'
  simp only [Option.some.injEq, Prod.mk.injEq] at hrd'
  obtain ⟨rfl, -⟩ := hrd'
  obtain ⟨hpe, hpw⟩ := hpart (by rw [hlen]; exact hlt)
  rw [hlen] at hd
  rw [hpn] at hrdb
  exact ⟨rb', hd, hwf, hrdb, hs, hb, hpw, hpe⟩

/-- A returning `Discard` leaves a well-formed buffer. -/
theorem Discard_WF {rb rb' : RingBuffer} (h : WF rb) {n : Int}
    (hd : rb.Discard n = some rb') : WF rb' := by
  by_cases hn : n ≤ 0
  · rw [Discard_nonpos rb hn] at hd
    simp only [Option.some.injEq] at hd
    rw [← hd]; exact h
  · by_cases hlt : n < rb.Length
    · obtain ⟨rb'', h1, h2, -⟩ := Discard_spec h (by omega) hlt
      rw [h1] at hd
      simp only [Option.some.injEq] at hd
      rw [← hd]; exact h2
    · rw [Discard_all rb (by omega) (by omega)] at hd
      simp only [Option.some.injEq] at hd
      rw [← hd]; exact WF_Reset h

end RingBuffer

theorem drop_append_take_eq_take (l : List Byte) {a b c : Nat} (ha : a ≤ l.length)
    (hc : c ≤ b) (hb : b ≤ l.length) :
    l.drop a ++ l.take c = (l.drop a ++ l.take b).take (l.length - a + c) := by
  apply List.ext_getElem?
  intro i
  simp only [List.getElem?_append, List.getElem?_take, List.getElem?_drop,
    List.length_append, List.length_take, List.length_drop]
  split_ifs <;>
    first
    | rfl
    | omega
    | (congr 1; omega)
    | (rw [List.getElem?_eq_none (by omega), List.getElem?_eq_none (by omega)]; done)
    | (rw [List.getElem?_eq_none (by omega)]; done)
    | (symm; rw [List.getElem?_eq_none (by omega)]; done)

namespace RingBuffer

/-! ## `Peek` and `PeekAll` -/

theorem Peek_of_isEmpty {rb : RingBuffer} (n : Int) (he : rb.isEmpty = true) :
    rb.Peek n = some ([], []) := by
  simp only [Peek, he, ↓reduceIte]

theorem Peek_nonpos (rb : RingBuffer) {n : Int} (hn : n ≤ 0) : rb.Peek n = some ([], []) := by
  simp only [Peek, hn, ↓reduceIte, ite_self]

/-- `Peek(n)` on a non-empty buffer with `r < w`: one view of `m = min(n, w - r)`
bytes. -/
theorem Peek_contig {buf : List Byte} {R W : Nat} {n : Int} {m : Nat}
    (hN : buf.length ≤ 4611686018427387904) (hW : W ≤ buf.length) (hRW : R < W) (hn : 0 < n)
    (hm : (m : Int) = min n ((W - R : Nat) : Int)) :
    Peek (RingBuffer.mk buf (buf.length : Int) R W false) n =
      some ((buf.take (R + m)).drop R, []) := by
  have a0 : ¬ (n ≤ 0) := by omega
  have a1 : (W : Int) > R := by omega
  have a2 : (if ((W - R : Nat) : Int) > n then n else ((W - R : Nat) : Int)) = (m : Int) := by
    by_cases hif : ((W - R : Nat) : Int) > n
    · rw [if_pos hif]; omega
    · rw [if_neg hif]; omega
  have b1 : R + m < 9223372036854775808 := by omega
  have b2 : R + m ≤ buf.length := by omega
  have e2 : sub64 (W : Int) R = ((W - R : Nat) : Int) := sub64_natCast (by omega) (by omega)
  have e4 : add64 (R : Int) (m : Int) = ((R + m : Nat) : Int) := add64_natCast b1
  have e5 : slice buf (R : Int) ((R + m : Nat) : Int) = some ((buf.take (R + m)).drop R) :=
    slice_natCast (Nat.le_add_right _ _) b2
  simp only [Peek, a0, a1, e2, a2, e4, e5, ↓reduceIte, Bool.false_eq_true,
    Option.bind_eq_bind, Option.some_bind]

/-- `Peek(n)` on a non-empty buffer with `w ≤ r`, when the `m` bytes end within
storage: one view. -/
theorem Peek_wrap_one {buf : List Byte} {R W : Nat} {n : Int} {m : Nat}
    (hN : buf.length ≤ 4611686018427387904) (hWR : W ≤ R) (hR : R < buf.length) (hn : 0 < n)
    (hm : (m : Int) = min n ((buf.length - R + W : Nat) : Int)) (hfit : R + m ≤ buf.length) :
    Peek (RingBuffer.mk buf (buf.length : Int) R W false) n =
      some ((buf.take (R + m)).drop R, []) := by
  have a0 : ¬ (n ≤ 0) := by omega
  have a1 : ¬ (W : Int) > R := by omega
  have a2 : (if ((buf.length - R + W : Nat) : Int) > n then n
      else ((buf.length - R + W : Nat) : Int)) = (m : Int) := by
    by_cases hif : ((buf.length - R + W : Nat) : Int) > n
    · rw [if_pos hif]; omega
    · rw [if_neg hif]; omega
  have a3 : ((R + m : Nat) : Int) ≤ (buf.length : Int) := by omega
  have b1 : R + m < 9223372036854775808 := by omega
  have b3 : buf.length - R + W < 9223372036854775808 := by omega
  have e2 : sub64 (buf.length : Int) R = ((buf.length - R : Nat) : Int) :=
    sub64_natCast (le_of_lt hR) (by omega)
  have e2b : add64 ((buf.length - R : Nat) : Int) (W : Int) =
      ((buf.length - R + W : Nat) : Int) := add64_natCast b3
  have e4 : add64 (R : Int) (m : Int) = ((R + m : Nat) : Int) := add64_natCast b1
  have e5 : slice buf (R : Int) ((R + m : Nat) : Int) = some ((buf.take (R + m)).drop R) :=
    slice_natCast (Nat.le_add_right _ _) hfit
  simp only [Peek, a0, a1, e2, e2b, a2, e4, a3, e5, ↓reduceIte, Bool.false_eq_true,
    Option.bind_eq_bind, Option.some_bind]

/-- `Peek(n)` on a non-empty buffer with `w ≤ r`, when the `m` bytes continue
past the end of storage: two views. -/
theorem Peek_wrap_two {buf : List Byte} {R W : Nat} {n : Int} {m : Nat}
    (hN : buf.length ≤ 4611686018427387904) (hWR : W ≤ R) (hR : R < buf.length) (hn : 0 < n)
    (hm : (m : Int) = min n ((buf.length - R + W : Nat) : Int)) (hover : buf.length < R + m) :
    Peek (RingBuffer.mk buf (buf.length : Int) R W false) n =
      some (buf.drop R, buf.take (m - (buf.length - R))) := by
  have a0 : ¬ (n ≤ 0) := by omega
  have a1 : ¬ (W : Int) > R := by omega
  have a2 : (if ((buf.length - R + W : Nat) : Int) > n then n
      else ((buf.length - R + W : Nat) : Int)) = (m : Int) := by
    by_cases hif : ((buf.length - R + W : Nat) : Int) > n
    · rw [if_pos hif]; omega
    · rw [if_neg hif]; omega
  have a3 : ¬ ((R + m : Nat) : Int) ≤ (buf.length : Int) := by omega
  have b1 : R + m < 9223372036854775808 := by omega
  have b2 : buf.length - R ≤ m := by omega
  have b3 : buf.length - R + W < 9223372036854775808 := by omega
  have b4 : m < 9223372036854775808 := by omega
  have b5 : m - (buf.length - R) ≤ buf.length := by omega
  have e2 : sub64 (buf.length : Int) R = ((buf.length - R : Nat) : Int) :=
    sub64_natCast (le_of_lt hR) (by omega)
  have e2b : add64 ((buf.length - R : Nat) : Int) (W : Int) =
      ((buf.length - R + W : Nat) : Int) := add64_natCast b3
  have e4 : add64 (R : Int) (m : Int) = ((R + m : Nat) : Int) := add64_natCast b1
  have e5 : sliceFrom buf (R : Int) = some (buf.drop R) := sliceFrom_natCast (le_of_lt hR)
  have e6 : sub64 (m : Int) ((buf.length - R : Nat) : Int) =
      ((m - (buf.length - R) : Nat) : Int) := sub64_natCast b2 b4
  have e7 : sliceTo buf ((m - (buf.length - R) : Nat) : Int) =
      some (buf.take (m - (buf.length - R))) := sliceTo_natCast b5
  simp only [Peek, a0, a1, e2, e2b, a2, e4, a3, e5, e6, e7, ↓reduceIte, Bool.false_eq_true,
    Option.bind_eq_bind, Option.some_bind]

theorem PeekAll_contig {buf : List Byte} {N : Int} {R W : Nat} (hW : W ≤ buf.length)
    (hRW : R < W) :
    PeekAll (RingBuffer.mk buf N R W false) = some ((buf.take W).drop R, []) := by
  have a1 : (W : Int) > R := by omega
  have e5 : slice buf (R : Int) (W : Int) = some ((buf.take W).drop R) :=
    slice_natCast (le_of_lt hRW) hW
  simp only [PeekAll, a1, e5, ↓reduceIte, Bool.false_eq_true, Option.bind_eq_bind,
    Option.some_bind]

theorem PeekAll_wrap {buf : List Byte} {N : Int} {R W : Nat} (hR : R ≤ buf.length)
    (hWR : W ≤ R) :
    PeekAll (RingBuffer.mk buf N R W false) = some (buf.drop R, buf.take W) := by
  have a1 : ¬ (W : Int) > R := by omega
  have e5 : sliceFrom buf (R : Int) = some (buf.drop R) := sliceFrom_natCast hR
  have e6 : sliceTo buf (W : Int) = some (buf.take W) := sliceTo_natCast (le_trans hWR hR)
  by_cases hw : W = 0
  · subst hw
    have a3 : ¬ (0 : Int) > R := by omega
    simp only [PeekAll, a3, e5, ↓reduceIte, Bool.false_eq_true, Option.bind_eq_bind,
      Option.some_bind, Nat.cast_zero, ne_eq, not_true_eq_false, List.take_zero]
  · have a2 : (W : Int) ≠ 0 := by omega
    simp only [PeekAll, a1, e5, e6, a2, ↓reduceIte, Bool.false_eq_true, Option.bind_eq_bind,
      Option.some_bind, ne_eq, not_false_eq_true]

end RingBuffer

namespace RingBuffer

/-! ## `New` and reachable buffers -/

/-- `New(k)` for `k` within `maxBytes` returns: the zero-capacity buffer for
`k = 0`, and otherwise an empty buffer of zero bytes whose capacity is a power
of two, at least `2` and at least `k`. -/
theorem New_spec {k : Int} (hk : IsInt64 k) (hb : k ≤ maxBytes) :
    ∃ rb, New k = some rb ∧ WF rb ∧ rb.isEmpty = true ∧ k ≤ rb.size ∧
      (k = 0 → rb.size = 0) ∧ (k ≠ 0 → IsPow2 rb.size ∧ 2 ≤ rb.size) := by
  unfold maxBytes at hb
  unfold IsInt64 at hk
  by_cases h0 : k = 0
  · subst h0
    refine ⟨RingBuffer.mk [] 0 0 0 true, ?_, ?_, rfl, le_refl _, fun _ => rfl,
      fun hh => absurd rfl hh⟩
    · simp only [New, ↓reduceIte]
    · exact WF.mk_nat (b := []) (R := 0) (W := 0) (fun hh => Bool.noConfusion hh)
        (fun _ => ⟨rfl, rfl⟩) (by simp) (by simp)
  · obtain ⟨j, hj1, -, hj, hle, hmin⟩ :=
      CeilToPowerOfTwo_eq (n := k) hk.1 (by unfold maxintHeadBit; omega)
    have hj61 : j ≤ 61 := by
      by_contra hcon
      have hp : (2 : Int) ^ 61 ≤ 2 ^ (j - 1) := pow_le_pow_right₀ (by norm_num) (by omega)
      norm_num at hp
      rcases hmin with h1 | h1 <;> omega
    have hp1 : (2 : Int) ^ 1 ≤ 2 ^ j := pow_le_pow_right₀ (by norm_num) hj1
    have hp2 : (2 : Int) ^ j ≤ 2 ^ 61 := pow_le_pow_right₀ (by norm_num) hj61
    norm_num at hp1 hp2
    have hpow : IsPow2 ((2 : Int) ^ j) := ⟨j, rfl⟩
    obtain ⟨c, hc⟩ : ∃ c : Int, c = 2 ^ j := ⟨_, rfl⟩
    rw [← hc] at hj hle hp1 hp2 hpow
    have hmk : make c = some (List.replicate c.toNat 0) := by
      have : ¬ c < 0 := by omega
      simp only [make, this, ↓reduceIte]
    have hcl : c = (((List.replicate c.toNat (0 : Byte)).length : Nat) : Int) := by
      rw [List.length_replicate]; omega
    refine ⟨RingBuffer.mk (List.replicate c.toNat 0) c 0 0 true, ?_, ?_, rfl, hle,
      fun hh => absurd hh h0, fun _ => ⟨hpow, hp1⟩⟩
    · simp only [New, h0, ↓reduceIte, hj, hmk, Option.bind_eq_bind, Option.some_bind]
    · have hwf := WF.mk_nat (b := List.replicate c.toNat (0 : Byte)) (R := 0) (W := 0)
        (e := true) (fun hh => Bool.noConfusion hh) (fun _ => ⟨rfl, rfl⟩)
        (by rw [List.length_replicate]; omega) (by rw [List.length_replicate]; omega)
      rw [← hcl, Nat.cast_zero] at hwf
      exact hwf

/-- A returning `Read` leaves a well-formed buffer. -/
theorem Read_WF {rb rb' : RingBuffer} (h : WF rb) {p p' : List Byte} {n : Int}
    {e : Option Error} (hr : rb.Read p = some (rb', p', n, e)) : WF rb' := by
  by_cases hp : p = []
  · subst hp
    simp only [Read, len, List.length_nil, Nat.cast_zero, ↓reduceIte, Option.some.injEq,
      Prod.mk.injEq] at hr
    rw [← hr.1]; exact h
  · cases he : rb.isEmpty
    · obtain ⟨rb'', h1, h2, -⟩ := Read_spec h he hp
      rw [h1] at hr
      simp only [Option.some.injEq, Prod.mk.injEq] at hr
      rw [← hr.1]; exact h2
    · have hl : ¬ (len p = 0) := by
        have := List.length_pos.mpr hp
        simp only [len]; omega
      simp only [Read, hl, he, ↓reduceIte, Option.some.injEq, Prod.mk.injEq] at hr
      rw [← hr.1]; exact h

/-- A returning `Write` within `maxBytes` leaves a well-formed buffer. -/
theorem Write_WF {rb rb' : RingBuffer} (h : WF rb) {recycled p : List Byte} {n : Int}
    {e : Option Error} (hb : rb.Length + len p ≤ maxBytes)
    (hw : rb.Write recycled p = some (rb', n, e)) : WF rb' := by
  by_cases hp : p = []
  · subst hp
    rw [Write_nil] at hw
    simp only [Option.some.injEq, Prod.mk.injEq] at hw
    rw [← hw.1]; exact h
  · obtain ⟨rb'', h1, h2, -⟩ := Write_spec h recycled hp hb
    rw [h1] at hw
    simp only [Option.some.injEq, Prod.mk.injEq] at hw
    rw [← hw.1]; exact h2

/-- A returning `ReadByte` leaves a well-formed buffer. -/
theorem ReadByte_WF {rb rb' : RingBuffer} (h : WF rb) {b : Byte} {e : Option Error}
    (hr : rb.ReadByte = some (rb', b, e)) : WF rb' := by
  cases he : rb.isEmpty
  · obtain ⟨rb'', b', h1, h2, -⟩ := ReadByte_spec h he
    rw [h1] at hr
    simp only [Option.some.injEq, Prod.mk.injEq] at hr
    rw [← hr.1]; exact h2
  · simp only [ReadByte, he, ↓reduceIte, Option.some.injEq, Prod.mk.injEq] at hr
    rw [← hr.1]; exact h

/-- Every reachable buffer is well formed. -/
theorem Reachable.wf {rb : RingBuffer} (h : Reachable rb) : WF rb := by
  induction h with
  | new k rb hk hb hn =>
    obtain ⟨rb', h1, h2, -⟩ := New_spec hk hb
    rw [h1] at hn
    simp only [Option.some.injEq] at hn
    rw [← hn]; exact h2
  | write recycled rb p rb' n e _ hb hw ih => exact Write_WF ih hb hw
  | writeByte recycled rb c rb' e _ hw ih => exact WriteByte_WF ih hw
  | read rb p rb' p' n e _ hr ih => exact Read_WF ih hr
  | readByte rb rb' b e _ hr ih => exact ReadByte_WF ih hr
  | discard rb n rb' _ hd ih => exact Discard_WF ih hd
  | reset rb _ ih => exact WF_Reset ih

end RingBuffer

namespace RingBuffer

/-! ## Further facts about the capacity chosen by `grow` -/

theorem growCap_zero_pow2 {newCap : Int} (hc1 : 1 ≤ newCap) (hc2 : newCap ≤ maxBytes) :
    ∃ cap, growCap 0 newCap = some cap ∧ IsPow2 cap := by
  unfold maxBytes at hc2
  by_cases hd : newCap ≤ DefaultBufferSize
  · refine ⟨DefaultBufferSize, ?_, ⟨10, by unfold DefaultBufferSize; norm_num⟩⟩
    simp only [growCap, ↓reduceIte, hd]
  · obtain ⟨k, -, -, hk, -, -⟩ :=
      CeilToPowerOfTwo_eq (n := newCap) (by omega) (by unfold maxintHeadBit; omega)
    exact ⟨2 ^ k, by simp only [growCap, ↓reduceIte, hd, hk], ⟨k, rfl⟩⟩

theorem growCap_double {size newCap : Int} (hs0 : 0 < size) (hs1 : size < bufferGrowThreshold)
    (hc : newCap ≤ 2 * size) : growCap size newCap = some (2 * size) := by
  have hs1' := hs1
  unfold bufferGrowThreshold at hs1'
  have hz : ¬ size = 0 := by omega
  have hdbl : add64 size size = 2 * size := by rw [add64_eq] <;> omega
  simp only [growCap, hz, ↓reduceIte, hdbl, hc, hs1]

theorem not_isPow2_five : ¬ IsPow2 5 := by
  rintro ⟨k, hk⟩
  by_cases h3 : k < 3
  · interval_cases k <;> norm_num at hk
  · have hp : (2 : Int) ^ 3 ≤ 2 ^ k := pow_le_pow_right₀ (by norm_num) (by omega)
    norm_num at hp
    omega

/-! ## The claims about `Write`, `WriteByte`, `Length` and `Free` -/

/-- C1. On every reachable buffer, `Write(p)` (with the bytes held and `p`
together within `maxBytes`) returns `(len(p), nil)`; the readable bytes that
`PeekAll` presents afterwards are those before the call followed by `p`, in
every case of wrapping and growth; and `Write` of an empty `p` leaves the
buffer unchanged. -/
theorem C1_Write_appends (recycled : List Byte) (rb : RingBuffer) (p : List Byte)
    (hr : Reachable rb) (hb : rb.Length + len p ≤ maxBytes) :
    ∃ rb' bs, rb.Write recycled p = some (rb', len p, none) ∧ contents rb = some bs ∧
      contents rb' = some (bs ++ p) ∧ (p = [] → rb' = rb) := by
  have h := hr.wf
  by_cases hp : p = []
  · subst hp
    exact ⟨rb, readable rb, Write_nil recycled rb, contents_eq h,
      by rw [List.append_nil]; exact contents_eq h, fun _ => rfl⟩
  · obtain ⟨rb', h1, h2, h3, -⟩ := Write_spec h recycled hp hb
    exact ⟨rb', readable rb, h1, contents_eq h, by rw [contents_eq h2, h3],
      fun hh => absurd hh hp⟩

/-- Witness of C1: `Write("hi")` on `New(0)`. -/
theorem C1_Write_appends_witness :
    ∃ rb' bs, (RingBuffer.mk [] 0 0 0 true).Write [] [104, 105] =
        some (rb', len [104, 105], none) ∧
      contents (RingBuffer.mk [] 0 0 0 true) = some bs ∧
      contents rb' = some (bs ++ [104, 105]) ∧
      (([104, 105] : List Byte) = [] → rb' = RingBuffer.mk [] 0 0 0 true) :=
  C1_Write_appends [] (RingBuffer.mk [] 0 0 0 true) [104, 105]
    (Reachable.new 0 _ ⟨by decide, by decide⟩ (by decide) rfl) (by decide)

/-- C3 (failing input). `New(4096)`, then `Write` of 4096 bytes, which fills the
buffer, then `WriteByte`: `grow(1)` keeps the capacity 4096 and sets `w` to
4096, so the store `rb.buf[rb.w] = c` is out of range and `WriteByte` panics
instead of returning `nil`. -/
theorem C3_WriteByte_full_panics :
    ∃ rb0 rb1, New 4096 = some rb0 ∧
      rb0.Write [] (List.replicate 4096 7) = some (rb1, 4096, none) ∧ Reachable rb1 ∧
      rb1.Length = 4096 ∧ rb1.Cap = 4096 ∧ rb1.IsFull = true ∧ rb1.WriteByte [] 1 = none := by
  have hnew : New 4096 = some (RingBuffer.mk (List.replicate 4096 0) 4096 0 0 true) := rfl
  have hr0 : Reachable (RingBuffer.mk (List.replicate 4096 0) 4096 0 0 true) :=
    Reachable.new 4096 _ ⟨by decide, by decide⟩ (by decide) hnew
  have hb : (RingBuffer.mk (List.replicate 4096 0) 4096 0 0 true).Length +
      len (List.replicate 4096 7) ≤ maxBytes := by
    simp only [Length, ↓reduceIte, len, List.length_replicate, maxBytes]
    decide
  have hne : (List.replicate 4096 (7 : Byte)) ≠ [] := by
    intro hc
    have := congrArg List.length hc
    rw [List.length_replicate, List.length_nil] at this
    exact absurd this (by decide)
  have hfree : len (List.replicate 4096 (7 : Byte)) ≤
      (RingBuffer.mk (List.replicate 4096 0) 4096 0 0 true).Free := by
    simp only [Free, ↓reduceIte, len, List.length_replicate]
    decide
  obtain ⟨rb1, h1, h2, h3, h4, h5⟩ := Write_fit hr0.wf [] hne hfree
  have hlen : len (List.replicate 4096 (7 : Byte)) = 4096 := by
    simp only [len, List.length_replicate]; rfl
  rw [hlen] at h1
  have hL : rb1.Length = 4096 := by
    rw [Length_eq_readable h2, h3, readable_of_isEmpty rfl, List.nil_append, hlen]
  have hF := Free_eq h2
  have hs : rb1.size = 4096 := h4
  have hfull : rb1.IsFull = true := by
    have hr := h2.r_nonneg
    have hw := h2.w_nonneg
    have hrl := h2.r_lt (by omega)
    have hwl := h2.w_lt (by omega)
    by_cases hrw : rb1.r = rb1.w
    · simp only [IsFull, hrw, h5, decide_True, Bool.not_false, Bool.and_self]
    · exfalso
      simp only [Length, hrw, ↓reduceIte, add64, sub64, wrap64] at hL
      split_ifs at hL <;> omega
  refine ⟨_, rb1, hnew, h1, Reachable.write [] _ _ rb1 4096 none hr0 hb h1, hL, hs, hfull, ?_⟩
  exact WriteByte_panics h2 [] 1 (by rw [hF, hs, hL]; decide)
    (by rw [hs]; unfold bufferGrowThreshold; decide)

/-- C4 (counterexample). `New(2)` and a `Write` of five bytes, more than the
free space: the capacity afterwards is 5, which is not a power of two. -/
theorem C4_counterexample :
    ∃ rb0 rb1, New 2 = some rb0 ∧ Reachable rb0 ∧ len [1, 2, 3, 4, 5] > rb0.Free ∧
      rb0.Write [] [1, 2, 3, 4, 5] = some (rb1, 5, none) ∧ rb1.Cap = 5 ∧ ¬ IsPow2 rb1.Cap :=
  ⟨RingBuffer.mk [0, 0] 2 0 0 true, RingBuffer.mk [1, 2, 3, 4, 5] 5 0 0 false, by decide,
    Reachable.new 2 _ ⟨by decide, by decide⟩ (by decide) (by decide), by decide, by decide, rfl,
    not_isPow2_five⟩

/-- C4 (amended). On every reachable buffer and for `p` longer than the free
space (within `maxBytes`), `Write(p)` leaves a capacity of at least the prior
`Length()` plus `len(p)`; that capacity is a power of two when the prior
capacity was 0, and twice the prior capacity when that was positive, below
4096, and at least half of what is needed.  In every reachable state the
capacity is 0 or at least 2. -/
theorem C4_Write_capacity (recycled : List Byte) (rb : RingBuffer) (p : List Byte)
    (hr : Reachable rb) (hb : rb.Length + len p ≤ maxBytes) (hgt : len p > rb.Free) :
    ∃ rb', rb.Write recycled p = some (rb', len p, none) ∧
      rb.Length + len p ≤ rb'.Cap ∧
      (rb.Cap = 0 → IsPow2 rb'.Cap) ∧
      (0 < rb.Cap → rb.Cap < 4096 → rb.Length + len p ≤ 2 * rb.Cap → rb'.Cap = 2 * rb.Cap) ∧
      (rb.Cap = 0 ∨ 2 ≤ rb.Cap) ∧ (rb'.Cap = 0 ∨ 2 ≤ rb'.Cap) := by
  have h := hr.wf
  have hFree := Free_eq h
  have hL0 := Length_nonneg h
  have hLs := Length_le_size h
  have hs0 := h.size_nonneg
  have hp : p ≠ [] := by
    rintro rfl
    simp only [len, List.length_nil, Nat.cast_zero] at hgt
    omega
  have hlen : 0 < len p := by
    have := List.length_pos.mpr hp
    simp only [len]; omega
  obtain ⟨rb', h1, h2, -, -, -, h6⟩ := Write_spec h recycled hp hb
  have hcap := h6 hgt
  obtain ⟨cap, hc, hc1, -, hc3, -⟩ :=
    growCap_spec hs0 h.size_ne_one h.size_lt (by omega : 1 ≤ rb.Length + len p) hb
  have hcs : rb'.size = cap := by
    rw [hc] at hcap
    simp only [Option.some.injEq] at hcap
    exact hcap.symm
  have hne1 := h.size_ne_one
  refine ⟨rb', h1, ?_, ?_, ?_, ?_, ?_⟩
  · simp only [Cap]; omega
  · intro hz
    simp only [Cap] at hz
    obtain ⟨cap', hc', hpow⟩ := growCap_zero_pow2 (by omega : 1 ≤ rb.Length + len p) hb
    rw [hz] at hcap
    rw [hc'] at hcap
    simp only [Option.some.injEq] at hcap
    simp only [Cap]
    rw [← hcap]; exact hpow
  · intro hpos hlt hle
    simp only [Cap] at hpos hlt hle ⊢
    have hd := growCap_double hpos (by unfold bufferGrowThreshold; omega) hle
    rw [hd] at hcap
    simp only [Option.some.injEq] at hcap
    exact hcap.symm
  · simp only [Cap]; omega
  · simp only [Cap]; omega

/-- Witness of C4 (amended): the five-byte `Write` on `New(2)`. -/
theorem C4_Write_capacity_witness :
    ∃ rb', (RingBuffer.mk [0, 0] 2 0 0 true).Write [] [1, 2, 3, 4, 5] =
        some (rb', len [1, 2, 3, 4, 5], none) ∧
      (RingBuffer.mk [0, 0] 2 0 0 true).Length + len [1, 2, 3, 4, 5] ≤ rb'.Cap ∧
      ((RingBuffer.mk [0, 0] 2 0 0 true).Cap = 0 → IsPow2 rb'.Cap) ∧
      (0 < (RingBuffer.mk [0, 0] 2 0 0 true).Cap → (RingBuffer.mk [0, 0] 2 0 0 true).Cap < 4096 →
        (RingBuffer.mk [0, 0] 2 0 0 true).Length + len [1, 2, 3, 4, 5] ≤
          2 * (RingBuffer.mk [0, 0] 2 0 0 true).Cap →
        rb'.Cap = 2 * (RingBuffer.mk [0, 0] 2 0 0 true).Cap) ∧
      ((RingBuffer.mk [0, 0] 2 0 0 true).Cap = 0 ∨ 2 ≤ (RingBuffer.mk [0, 0] 2 0 0 true).Cap) ∧
      (rb'.Cap = 0 ∨ 2 ≤ rb'.Cap) :=
  C4_Write_capacity [] (RingBuffer.mk [0, 0] 2 0 0 true) [1, 2, 3, 4, 5]
    (Reachable.new 2 _ ⟨by decide, by decide⟩ (by decide) (by decide)) (by decide) (by decide)

/-- C5. For every buffer value whose `size` is an `int`, whatever `r`, `w` and
`isEmpty` are, `Length() + Free() == Cap()` in Go's wrapping arithmetic. -/
theorem C5_Length_add_Free (rb : RingBuffer) (hs : IsInt64 rb.size) :
    add64 rb.Length rb.Free = rb.Cap := by
  rcases rb with ⟨buf, size, r, w, e⟩
  unfold IsInt64 at hs
  simp only [Length, Free, Cap, add64, sub64, wrap64] at hs ⊢
  split_ifs <;> omega

/-- Witness of C5: a buffer with the cursors out of order and outside storage. -/
theorem C5_Length_add_Free_witness :
    add64 (RingBuffer.mk [] (-3) 7 2 false).Length (RingBuffer.mk [] (-3) 7 2 false).Free =
      (RingBuffer.mk [] (-3) 7 2 false).Cap :=
  C5_Length_add_Free (RingBuffer.mk [] (-3) 7 2 false) ⟨by decide, by decide⟩

end RingBuffer

theorem take_copy_min (p s : List Byte) :
    (copy p s).take (min p.length s.length) = s.take (min p.length s.length) := by
  rcases Nat.le_total p.length s.length with h | h
  · rw [copy_of_le h, Nat.min_eq_left h, List.take_take, Nat.min_self]
  · rw [copy_of_ge h, Nat.min_eq_right h, List.take_left', List.take_length]
    rfl

theorem drop_copy_min (p s : List Byte) :
    (copy p s).drop (min p.length s.length) = p.drop (min p.length s.length) := by
  rcases Nat.le_total p.length s.length with h | h
  · rw [copy_of_le h, Nat.min_eq_left h, List.drop_length, List.drop_eq_nil_of_le]
    simp only [List.length_take]; omega
  · rw [copy_of_ge h, Nat.min_eq_right h, List.drop_left']
    rfl

theorem drop_min_length (s : List Byte) (a : Nat) : s.drop (min a s.length) = s.drop a := by
  rcases Nat.le_total a s.length with h | h
  · rw [Nat.min_eq_left h]
  · rw [Nat.min_eq_right h, List.drop_length, List.drop_eq_nil_of_le h]

namespace RingBuffer

theorem isEmpty_of_Length_zero {rb : RingBuffer} (h : WF rb) (hL : rb.Length = 0) :
    rb.isEmpty = true := by
  by_contra hc
  have := Length_pos h (by simpa using hc)
  omega

/-! ## The claims about `Read` and `ReadByte` -/

/-- C6. On every reachable non-empty buffer and for every non-empty destination
`dst`, `Read(dst)` returns `n = min(len(dst), Length())` and no error; the first
`n` bytes of `dst` are then the first `n` readable bytes (the rest of `dst` is
untouched), the readable bytes afterwards are the prior ones without their
first `n`, the capacity is unchanged, and when `n` is the prior `Length()` the
buffer is empty with both cursors at 0. -/
theorem C6_Read (rb : RingBuffer) (dst : List Byte) (hr : Reachable rb)
    (hne : rb.IsEmpty = false) (hd : 0 < len dst) :
    ∃ rb' dst' bs, rb.Read dst = some (rb', dst', min (len dst) rb.Length, none) ∧
      contents rb = some bs ∧
      dst'.take (min (len dst) rb.Length).toNat = bs.take (min (len dst) rb.Length).toNat ∧
      dst'.drop (min (len dst) rb.Length).toNat = dst.drop (min (len dst) rb.Length).toNat ∧
      contents rb' = some (bs.drop (min (len dst) rb.Length).toNat) ∧
      rb'.Cap = rb.Cap ∧
      (min (len dst) rb.Length = rb.Length → rb'.IsEmpty = true ∧ rb'.r = 0 ∧ rb'.w = 0) := by
  have h := hr.wf
  have hp : dst ≠ [] := by
    rintro rfl
    simp only [len, List.length_nil, Nat.cast_zero] at hd
    omega
  obtain ⟨rb', h1, h2, h3, h4, -, h6, -⟩ := Read_spec h hne hp
  have hL := Length_eq_readable h
  have hn : (min (len dst) rb.Length).toNat = min dst.length (readable rb).length := by
    rw [hL]; simp only [len]; omega
  refine ⟨rb', copy dst (readable rb), readable rb, h1, contents_eq h, ?_, ?_, ?_, h4, ?_⟩
  · rw [hn, take_copy_min]
  · rw [hn, drop_copy_min]
  · rw [contents_eq h2, h3, hn, drop_min_length]
  · intro hmin
    have hle : rb.Length ≤ len dst := by omega
    rw [h6 hle]
    exact ⟨rfl, rfl, rfl⟩

/-- Witness of C6: three bytes held with `r = 1`, `w = 0` in four bytes of
storage, read into a destination of two bytes. -/
theorem C6_Read_witness :
    ∃ rb' dst' bs, (RingBuffer.mk [5, 2, 3, 4] 4 2 1 false).Read [0, 0] =
        some (rb', dst', min (len [0, 0]) (RingBuffer.mk [5, 2, 3, 4] 4 2 1 false).Length, none) ∧
      contents (RingBuffer.mk [5, 2, 3, 4] 4 2 1 false) = some bs ∧
      dst'.take (min (len [0, 0]) (RingBuffer.mk [5, 2, 3, 4] 4 2 1 false).Length).toNat =
        bs.take (min (len [0, 0]) (RingBuffer.mk [5, 2, 3, 4] 4 2 1 false).Length).toNat ∧
      dst'.drop (min (len [0, 0]) (RingBuffer.mk [5, 2, 3, 4] 4 2 1 false).Length).toNat =
        ([0, 0] : List Byte).drop
          (min (len [0, 0]) (RingBuffer.mk [5, 2, 3, 4] 4 2 1 false).Length).toNat ∧
      contents rb' = some
        (bs.drop (min (len [0, 0]) (RingBuffer.mk [5, 2, 3, 4] 4 2 1 false).Length).toNat) ∧
      rb'.Cap = (RingBuffer.mk [5, 2, 3, 4] 4 2 1 false).Cap ∧
      (min (len [0, 0]) (RingBuffer.mk [5, 2, 3, 4] 4 2 1 false).Length =
          (RingBuffer.mk [5, 2, 3, 4] 4 2 1 false).Length →
        rb'.IsEmpty = true ∧ rb'.r = 0 ∧ rb'.w = 0) :=
  C6_Read (RingBuffer.mk [5, 2, 3, 4] 4 2 1 false) [0, 0]
    (Reachable.write [] (RingBuffer.mk [1, 2, 3, 0] 4 2 3 false) [4, 5] _ 2 none
      (Reachable.read (RingBuffer.mk [1, 2, 3, 0] 4 0 3 false) [0, 0] _ [1, 2] 2 none
        (Reachable.write [] (RingBuffer.mk [0, 0, 0, 0] 4 0 0 true) [1, 2, 3] _ 3 none
          (Reachable.new 4 _ ⟨by decide, by decide⟩ (by decide) (by decide))
          (by decide) (by decide))
        (by decide))
      (by decide) (by decide))
    (by decide) (by decide)

/-- C7. On every reachable buffer: `Read(dst)` returns `ErrIsEmpty` exactly when
`Length() == 0` and `len(dst) > 0`; `ReadByte` returns `ErrIsEmpty` exactly when
`Length() == 0`; `Read` with `len(dst) == 0` returns `(0, nil)`; and in each of
these error or zero-length cases the buffer (and the destination) is left as it
was. -/
theorem C7_Read_errors (rb : RingBuffer) (dst : List Byte) (hr : Reachable rb) :
    (∃ rb' dst' n e, rb.Read dst = some (rb', dst', n, e) ∧
      (e = some Error.ErrIsEmpty ↔ rb.Length = 0 ∧ 0 < len dst) ∧
      (e = some Error.ErrIsEmpty → rb' = rb ∧ dst' = dst ∧ n = 0) ∧
      (len dst = 0 → rb' = rb ∧ dst' = dst ∧ n = 0 ∧ e = none)) ∧
    (∃ rb' b e, rb.ReadByte = some (rb', b, e) ∧
      (e = some Error.ErrIsEmpty ↔ rb.Length = 0) ∧
      (e = some Error.ErrIsEmpty → rb' = rb)) := by
  have h := hr.wf
  constructor
  · by_cases hp : dst = []
    · subst hp
      refine ⟨rb, [], 0, none, ?_, ?_, ?_, ?_⟩
      · simp only [Read, len, List.length_nil, Nat.cast_zero, ↓reduceIte]
      · simp only [len, List.length_nil, Nat.cast_zero, lt_self_iff_false, and_false]
        exact ⟨fun hh => Option.noConfusion hh, fun hh => hh.elim⟩
      · intro hh; exact Option.noConfusion hh
      · intro _; exact ⟨rfl, rfl, rfl, rfl⟩
    · have hpl := List.length_pos.mpr hp
      have hl : ¬ (len dst = 0) := by simp only [len]; omega
      have hl' : 0 < len dst := by simp only [len]; omega
      cases he : rb.isEmpty
      · obtain ⟨rb', h1, -⟩ := Read_spec h he hp
        have hLp := Length_pos h he
        refine ⟨rb', _, _, none, h1, ?_, ?_, ?_⟩
        · exact ⟨fun hh => Option.noConfusion hh, fun hh => by omega⟩
        · intro hh; exact Option.noConfusion hh
        · intro hh; exact absurd hh hl
      · have hL := Length_of_isEmpty h he
        refine ⟨rb, dst, 0, some Error.ErrIsEmpty, ?_, ?_, ?_, ?_⟩
        · simp only [Read, hl, he, ↓reduceIte]
        · exact ⟨fun _ => ⟨hL, hl'⟩, fun _ => rfl⟩
        · intro _; exact ⟨rfl, rfl, rfl⟩
        · intro hh; exact absurd hh hl
  · cases he : rb.isEmpty
    · obtain ⟨rb', b, h1, -⟩ := ReadByte_spec h he
      have hLp := Length_pos h he
      refine ⟨rb', b, none, h1, ?_, ?_⟩
      · exact ⟨fun hh => Option.noConfusion hh, fun hh => by omega⟩
      · intro hh; exact Option.noConfusion hh
    · have hL := Length_of_isEmpty h he
      refine ⟨rb, 0, some Error.ErrIsEmpty, ?_, ?_, ?_⟩
      · simp only [ReadByte, he, ↓reduceIte]
      · exact ⟨fun _ => hL, fun _ => rfl⟩
      · intro _; rfl

/-- Witness of C7: `Read` into two bytes and `ReadByte` on `New(4)`. -/
theorem C7_Read_errors_witness :
    (∃ rb' dst' n e, (RingBuffer.mk [0, 0, 0, 0] 4 0 0 true).Read [9, 9] = some (rb', dst', n, e) ∧
      (e = some Error.ErrIsEmpty ↔
        (RingBuffer.mk [0, 0, 0, 0] 4 0 0 true).Length = 0 ∧ 0 < len [9, 9]) ∧
      (e = some Error.ErrIsEmpty →
        rb' = RingBuffer.mk [0, 0, 0, 0] 4 0 0 true ∧ dst' = [9, 9] ∧ n = 0) ∧
      (len [9, 9] = 0 →
        rb' = RingBuffer.mk [0, 0, 0, 0] 4 0 0 true ∧ dst' = [9, 9] ∧ n = 0 ∧ e = none)) ∧
    (∃ rb' b e, (RingBuffer.mk [0, 0, 0, 0] 4 0 0 true).ReadByte = some (rb', b, e) ∧
      (e = some Error.ErrIsEmpty ↔ (RingBuffer.mk [0, 0, 0, 0] 4 0 0 true).Length = 0) ∧
      (e = some Error.ErrIsEmpty → rb' = RingBuffer.mk [0, 0, 0, 0] 4 0 0 true)) :=
  C7_Read_errors (RingBuffer.mk [0, 0, 0, 0] 4 0 0 true) [9, 9]
    (Reachable.new 4 _ ⟨by decide, by decide⟩ (by decide) (by decide))

end RingBuffer

namespace RingBuffer

/-! ## The claims about `Peek`, `PeekAll` and `Discard` -/

theorem WF.r_le_size {rb : RingBuffer} (h : WF rb) : rb.r ≤ rb.size := by
  by_cases hs : 0 < rb.size
  · exact le_of_lt (h.r_lt hs)
  · have h0 := h.size_nonneg
    have hz : rb.size = 0 := by omega
    have := (h.empty_zero (h.zero_empty hz)).1
    omega

/-- What `Peek(n)` returns on a non-empty well-formed buffer for `n > 0`. -/
theorem Peek_spec {rb : RingBuffer} (h : WF rb) (hne : rb.isEmpty = false) {n : Int}
    (hn : 0 < n) :
    ∃ head tail, rb.Peek n = some (head, tail) ∧
      head ++ tail = (readable rb).take (min n rb.Length).toNat ∧
      (tail ≠ [] ↔ rb.r + min n rb.Length > rb.size) := by
  obtain ⟨R, W, hrb, hlt, -, hN', hN1⟩ := h.exists_nat
  obtain ⟨hR, hW⟩ := hlt hne
  rcases rb with ⟨buf, size, r, w, e⟩
  simp only [RingBuffer.mk.injEq, true_and, and_true] at hrb hne hR hW hN' hN1
  obtain ⟨rfl, rfl, rfl⟩ := hrb
  subst hne
  have hN := le_of_lt hN'
  by_cases hRW : R < W
  · have hL := Length_mk_contig (b := buf) (N := (buf.length : Int)) hRW (by omega)
    rw [hL, readable_mk_contig hRW]
    obtain ⟨m, hm⟩ : ∃ m : Nat, (m : Int) = min n ((W - R : Nat) : Int) :=
      ⟨(min n ((W - R : Nat) : Int)).toNat, by omega⟩
    rw [← hm]
    refine ⟨_, _, Peek_contig hN (le_of_lt hW) hRW hn hm, ?_, ?_⟩
    · rw [List.append_nil, Int.toNat_ofNat, take_drop_take_of_le buf (by omega : R + m ≤ W)]
    · constructor
      · intro hh; exact absurd rfl hh
      · intro hh; dsimp only at hh; omega
  · have hWR : W ≤ R := by omega
    have hL := Length_mk_wrap (b := buf) hWR hR hN
    rw [hL, readable_mk_wrap hWR]
    obtain ⟨m, hm⟩ : ∃ m : Nat, (m : Int) = min n ((buf.length - R + W : Nat) : Int) :=
      ⟨(min n ((buf.length - R + W : Nat) : Int)).toNat, by omega⟩
    rw [← hm]
    by_cases hfit : R + m ≤ buf.length
    · refine ⟨_, _, Peek_wrap_one hN hWR hR hn hm hfit, ?_, ?_⟩
      · rw [List.append_nil, Int.toNat_ofNat, take_drop_eq_take_append buf _ hfit]
      · constructor
        · intro hh; exact absurd rfl hh
        · intro hh; dsimp only at hh; omega
    · have hc : m - (buf.length - R) ≤ W := by omega
      refine ⟨_, _, Peek_wrap_two hN hWR hR hn hm (by omega), ?_, ?_⟩
      · rw [Int.toNat_ofNat, drop_append_take_eq_take buf (le_of_lt hR) hc (le_of_lt hW)]
        congr 1
        omega
      · constructor
        · intro _; dsimp only; omega
        · intro _ hnil
          have hl := congrArg List.length hnil
          simp only [List.length_take, List.length_nil] at hl
          omega

/-- C8. On every reachable buffer and for every `n`, `Peek(n)` (which assigns to
no field of the buffer) returns views `head`, `tail` such that `head` followed
by `tail` is the first `min(max(n, 0), Length())` readable bytes; `tail` is
non-empty exactly when these bytes extend past the end of storage; and both
views are empty when the buffer is empty or `n <= 0`. -/
theorem C8_Peek (rb : RingBuffer) (n : Int) (hr : Reachable rb) :
    ∃ head tail bs, rb.Peek n = some (head, tail) ∧ contents rb = some bs ∧
      head ++ tail = bs.take (min (max n 0) rb.Length).toNat ∧
      (tail ≠ [] ↔ rb.r + min (max n 0) rb.Length > rb.size) ∧
      (rb.IsEmpty = true ∨ n ≤ 0 → head = [] ∧ tail = []) := by
  have h := hr.wf
  have hL0 := Length_nonneg h
  have hr0 := h.r_nonneg
  have hs0 := h.size_nonneg
  have hrl := h.r_le_size
  by_cases hn : n ≤ 0
  · have hm : min (max n 0) rb.Length = 0 := by omega
    rw [hm]
    refine ⟨[], [], readable rb, Peek_nonpos rb hn, contents_eq h, ?_, ?_, fun _ => ⟨rfl, rfl⟩⟩
    · simp only [List.append_nil, Int.toNat_zero, List.take_zero]
    · constructor
      · intro hh; exact absurd rfl hh
      · intro hh; omega
  · cases he : rb.isEmpty
    · obtain ⟨head, tail, h1, h2, h3⟩ := Peek_spec h he (by omega : 0 < n)
      have hm : min (max n 0) rb.Length = min n rb.Length := by omega
      rw [hm]
      refine ⟨head, tail, readable rb, h1, contents_eq h, h2, h3, ?_⟩
      intro hh
      rcases hh with hh | hh
      · simp only [IsEmpty, he] at hh
        exact Bool.noConfusion hh
      · exact absurd hh hn
    · have hL := Length_of_isEmpty h he
      have hm : min (max n 0) rb.Length = 0 := by omega
      rw [hm]
      refine ⟨[], [], readable rb, Peek_of_isEmpty n he, contents_eq h, ?_, ?_,
        fun _ => ⟨rfl, rfl⟩⟩
      · simp only [List.append_nil, Int.toNat_zero, List.take_zero]
      · constructor
        · intro hh; exact absurd rfl hh
        · intro hh; omega

/-- Witness of C8: `Peek(3)` on three bytes held across the end of storage. -/
theorem C8_Peek_witness :
    ∃ head tail bs, (RingBuffer.mk [5, 2, 3, 4] 4 2 1 false).Peek 3 = some (head, tail) ∧
      contents (RingBuffer.mk [5, 2, 3, 4] 4 2 1 false) = some bs ∧
      head ++ tail =
        bs.take (min (max 3 0) (RingBuffer.mk [5, 2, 3, 4] 4 2 1 false).Length).toNat ∧
      (tail ≠ [] ↔ (RingBuffer.mk [5, 2, 3, 4] 4 2 1 false).r +
          min (max 3 0) (RingBuffer.mk [5, 2, 3, 4] 4 2 1 false).Length >
        (RingBuffer.mk [5, 2, 3, 4] 4 2 1 false).size) ∧
      ((RingBuffer.mk [5, 2, 3, 4] 4 2 1 false).IsEmpty = true ∨ (3 : Int) ≤ 0 →
        head = [] ∧ tail = []) :=
  C8_Peek (RingBuffer.mk [5, 2, 3, 4] 4 2 1 false) 3
    (Reachable.write [] (RingBuffer.mk [1, 2, 3, 0] 4 2 3 false) [4, 5] _ 2 none
      (Reachable.read (RingBuffer.mk [1, 2, 3, 0] 4 0 3 false) [0, 0] _ [1, 2] 2 none
        (Reachable.write [] (RingBuffer.mk [0, 0, 0, 0] 4 0 0 true) [1, 2, 3] _ 3 none
          (Reachable.new 4 _ ⟨by decide, by decide⟩ (by decide) (by decide))
          (by decide) (by decide))
        (by decide))
      (by decide) (by decide))

/-- C9. On every reachable buffer and for every `n > 0` with `n >= Length()`,
`PeekAll()` returns the very pair of views that `Peek(n)` returns; on an empty
buffer both return two empty views, whatever `n` is. -/
theorem C9_PeekAll_eq_Peek (rb : RingBuffer) (n : Int) (hr : Reachable rb)
    (hn : rb.Length ≤ n) (hpos : 0 < n) :
    (∃ v, rb.PeekAll = some v ∧ rb.Peek n = some v) ∧
    (rb.IsEmpty = true → rb.PeekAll = some ([], []) ∧ ∀ m, rb.Peek m = some ([], [])) := by
  have h := hr.wf
  constructor
  · cases he : rb.isEmpty
    · obtain ⟨R, W, hrb, hlt, -, hN', hN1⟩ := h.exists_nat
      obtain ⟨hR, hW⟩ := hlt he
      rcases rb with ⟨buf, size, r, w, e⟩
      simp only [RingBuffer.mk.injEq, true_and, and_true] at hrb he hR hW hN' hN1
      obtain ⟨rfl, rfl, rfl⟩ := hrb
      subst he
      have hN := le_of_lt hN'
      by_cases hRW : R < W
      · rw [Length_mk_contig hRW (by omega)] at hn
        have hm : ((W - R : Nat) : Int) = min n ((W - R : Nat) : Int) := by omega
        have hp := Peek_contig hN (le_of_lt hW) hRW hpos hm
        have e1 : R + (W - R) = W := by omega
        rw [e1] at hp
        exact ⟨_, PeekAll_contig (le_of_lt hW) hRW, hp⟩
      · have hWR : W ≤ R := by omega
        rw [Length_mk_wrap hWR hR hN] at hn
        have hm : ((buf.length - R + W : Nat) : Int) =
            min n ((buf.length - R + W : Nat) : Int) := by omega
        by_cases hW0 : W = 0
        · subst hW0
          have hp := Peek_wrap_one hN hWR hR hpos hm (by omega)
          have e1 : R + (buf.length - R + 0) = buf.length := by omega
          rw [e1, List.take_length] at hp
          have ha := @PeekAll_wrap buf (buf.length : Int) R 0 (le_of_lt hR) hWR
          rw [List.take_zero] at ha
          exact ⟨_, ha, hp⟩
        · have hp := Peek_wrap_two hN hWR hR hpos hm (by omega)
          have e1 : buf.length - R + W - (buf.length - R) = W := by omega
          rw [e1] at hp
          exact ⟨_, PeekAll_wrap (le_of_lt hR) hWR, hp⟩
    · refine ⟨([], []), ?_, Peek_of_isEmpty n he⟩
      simp only [PeekAll, he, ↓reduceIte]
  · intro he
    simp only [IsEmpty] at he
    refine ⟨?_, fun m => Peek_of_isEmpty m he⟩
    simp only [PeekAll, he, ↓reduceIte]

/-- Witness of C9: `PeekAll()` and `Peek(7)` on three bytes held across the end
of storage. -/
theorem C9_PeekAll_eq_Peek_witness :
    (∃ v, (RingBuffer.mk [5, 2, 3, 4] 4 2 1 false).PeekAll = some v ∧
      (RingBuffer.mk [5, 2, 3, 4] 4 2 1 false).Peek 7 = some v) ∧
    ((RingBuffer.mk [5, 2, 3, 4] 4 2 1 false).IsEmpty = true →
      (RingBuffer.mk [5, 2, 3, 4] 4 2 1 false).PeekAll = some ([], []) ∧
      ∀ m, (RingBuffer.mk [5, 2, 3, 4] 4 2 1 false).Peek m = some ([], [])) :=
  C9_PeekAll_eq_Peek (RingBuffer.mk [5, 2, 3, 4] 4 2 1 false) 7
    (Reachable.write [] (RingBuffer.mk [1, 2, 3, 0] 4 2 3 false) [4, 5] _ 2 none
      (Reachable.read (RingBuffer.mk [1, 2, 3, 0] 4 0 3 false) [0, 0] _ [1, 2] 2 none
        (Reachable.write [] (RingBuffer.mk [0, 0, 0, 0] 4 0 0 true) [1, 2, 3] _ 3 none
          (Reachable.new 4 _ ⟨by decide, by decide⟩ (by decide) (by decide))
          (by decide) (by decide))
        (by decide))
      (by decide) (by decide))
    (by decide) (by decide)

/-- C10. On every reachable buffer and for every `n`: `Discard(n)` with `n <= 0`
leaves the buffer unchanged; with `0 < n < Length()` it removes the first `n`
readable bytes, `Length()` drops by `n`, and `w`, `size` and the storage are
unchanged; with `n >= Length()` the buffer becomes `Reset()` of the prior one
(empty, `Length() == 0`, both cursors 0, capacity retained).  `Discard` returns
in every case, the zero-capacity buffer included. -/
theorem C10_Discard (rb : RingBuffer) (n : Int) (hr : Reachable rb) :
    (n ≤ 0 → rb.Discard n = some rb) ∧
    (0 < n → n < rb.Length → ∃ rb' bs, rb.Discard n = some rb' ∧ contents rb = some bs ∧
      contents rb' = some (bs.drop n.toNat) ∧ rb'.Length = rb.Length - n ∧ rb'.w = rb.w ∧
      rb'.size = rb.size ∧ rb'.buf = rb.buf) ∧
    (rb.Length ≤ n → rb.Discard n = some rb.Reset ∧ rb.Reset.IsEmpty = true ∧
      rb.Reset.Length = 0 ∧ rb.Reset.r = 0 ∧ rb.Reset.w = 0 ∧ rb.Reset.Cap = rb.Cap) := by
  have h := hr.wf
  have hL0 := Length_nonneg h
  refine ⟨fun hn => Discard_nonpos rb hn, ?_, ?_⟩
  · intro hn hlt
    obtain ⟨rb', h1, h2, h3, h4, h5, h6, -⟩ := Discard_spec h hn hlt
    refine ⟨rb', readable rb, h1, contents_eq h, by rw [contents_eq h2, h3], ?_, h6, h4, h5⟩
    have e1 := Length_eq_readable h
    rw [Length_eq_readable h2, h3]
    simp only [len, List.length_drop] at e1 ⊢
    omega
  · intro hge
    refine ⟨?_, rfl, ?_, rfl, rfl, rfl⟩
    · by_cases hn : 0 < n
      · exact Discard_all rb hn hge
      · have hL : rb.Length = 0 := by omega
        have he := isEmpty_of_Length_zero h hL
        obtain ⟨hr0, hw0⟩ := h.empty_zero he
        rw [Discard_nonpos rb (by omega)]
        rcases rb with ⟨buf, size, r, w, e⟩
        simp only at he hr0 hw0
        subst he hr0 hw0
        rfl
    · simp only [Length, Reset, ↓reduceIte]

/-- Witness of C10: `Discard(2)` on three bytes held across the end of
storage. -/
theorem C10_Discard_witness :
    ((2 : Int) ≤ 0 → (RingBuffer.mk [5, 2, 3, 4] 4 2 1 false).Discard 2 =
      some (RingBuffer.mk [5, 2, 3, 4] 4 2 1 false)) ∧
    ((0 : Int) < 2 → 2 < (RingBuffer.mk [5, 2, 3, 4] 4 2 1 false).Length →
      ∃ rb' bs, (RingBuffer.mk [5, 2, 3, 4] 4 2 1 false).Discard 2 = some rb' ∧
        contents (RingBuffer.mk [5, 2, 3, 4] 4 2 1 false) = some bs ∧
        contents rb' = some (bs.drop (2 : Int).toNat) ∧
        rb'.Length = (RingBuffer.mk [5, 2, 3, 4] 4 2 1 false).Length - 2 ∧
        rb'.w = (RingBuffer.mk [5, 2, 3, 4] 4 2 1 false).w ∧
        rb'.size = (RingBuffer.mk [5, 2, 3, 4] 4 2 1 false).size ∧
        rb'.buf = (RingBuffer.mk [5, 2, 3, 4] 4 2 1 false).buf) ∧
    ((RingBuffer.mk [5, 2, 3, 4] 4 2 1 false).Length ≤ 2 →
      (RingBuffer.mk [5, 2, 3, 4] 4 2 1 false).Discard 2 =
        some (RingBuffer.mk [5, 2, 3, 4] 4 2 1 false).Reset ∧
      (RingBuffer.mk [5, 2, 3, 4] 4 2 1 false).Reset.IsEmpty = true ∧
      (RingBuffer.mk [5, 2, 3, 4] 4 2 1 false).Reset.Length = 0 ∧
      (RingBuffer.mk [5, 2, 3, 4] 4 2 1 false).Reset.r = 0 ∧
      (RingBuffer.mk [5, 2, 3, 4] 4 2 1 false).Reset.w = 0 ∧
      (RingBuffer.mk [5, 2, 3, 4] 4 2 1 false).Reset.Cap =
        (RingBuffer.mk [5, 2, 3, 4] 4 2 1 false).Cap) :=
  C10_Discard (RingBuffer.mk [5, 2, 3, 4] 4 2 1 false) 2
    (Reachable.write [] (RingBuffer.mk [1, 2, 3, 0] 4 2 3 false) [4, 5] _ 2 none
      (Reachable.read (RingBuffer.mk [1, 2, 3, 0] 4 0 3 false) [0, 0] _ [1, 2] 2 none
        (Reachable.write [] (RingBuffer.mk [0, 0, 0, 0] 4 0 0 true) [1, 2, 3] _ 3 none
          (Reachable.new 4 _ ⟨by decide, by decide⟩ (by decide) (by decide))
          (by decide) (by decide))
        (by decide))
      (by decide) (by decide))

end RingBuffer

namespace RingBuffer

/-! ## Sequences of `Write` and `Read` calls -/

theorem writeAll_spec (ws : List (List Byte × List Byte)) :
    ∀ rb : RingBuffer, WF rb → rb.Length + len (ws.map Prod.snd).flatten ≤ maxBytes →
      ∃ rb', writeAll rb ws = some rb' ∧ WF rb' ∧
        readable rb' = readable rb ++ (ws.map Prod.snd).flatten := by
  induction ws with
  | nil =>
    intro rb h _
    exact ⟨rb, rfl, h, by simp only [List.map_nil, List.flatten_nil, List.append_nil]⟩
  | cons w ws ih =>
    intro rb h hb
    obtain ⟨recycled, p⟩ := w
    simp only [List.map_cons, List.flatten_cons, len, List.length_append, Nat.cast_add] at hb
    have hrest : (0 : Int) ≤ ((ws.map Prod.snd).flatten.length : Int) := by omega
    have hpb : rb.Length + len p ≤ maxBytes := by simp only [len]; omega
    have hstep : ∃ rb1, rb.Write recycled p = some (rb1, len p, none) ∧ WF rb1 ∧
        readable rb1 = readable rb ++ p := by
      by_cases hp : p = []
      · subst hp
        exact ⟨rb, Write_nil recycled rb, h, by rw [List.append_nil]⟩
      · obtain ⟨rb1, h1, h2, h3, -⟩ := Write_spec h recycled hp hpb
        exact ⟨rb1, h1, h2, h3⟩
    obtain ⟨rb1, h1, h2, h3⟩ := hstep
    have hL1 : rb1.Length = rb.Length + len p := by
      rw [Length_eq_readable h2, Length_eq_readable h, h3]
      simp only [len, List.length_append, Nat.cast_add]
    obtain ⟨rb', h4, h5, h6⟩ := ih rb1 h2 (by rw [hL1]; simp only [len]; omega)
    refine ⟨rb', ?_, h5, ?_⟩
    · simp only [writeAll, h1, Option.bind_eq_bind, Option.some_bind, h4]
    · rw [h6, h3, List.map_cons, List.flatten_cons, List.append_assoc]

theorem readAll_spec (ds : List (List Byte)) :
    ∀ rb : RingBuffer, WF rb → (ds.map List.length).sum ≤ (readable rb).length →
      ∃ rb' outs, readAll rb ds = some (rb', outs) ∧ WF rb' ∧
        outs.flatten = (readable rb).take (ds.map List.length).sum ∧
        readable rb' = (readable rb).drop (ds.map List.length).sum := by
  induction ds with
  | nil =>
    intro rb h _
    exact ⟨rb, [], rfl, h, by simp, by simp⟩
  | cons d ds ih =>
    intro rb h hsum
    simp only [List.map_cons, List.sum_cons] at hsum ⊢
    by_cases hd : d = []
    · subst hd
      have hrd : rb.Read [] = some (rb, [], 0, none) := by
        simp only [Read, len, List.length_nil, Nat.cast_zero, ↓reduceIte]
      simp only [List.length_nil, Nat.zero_add] at hsum ⊢
      obtain ⟨rb', outs, h1, h2, h3, h4⟩ := ih rb h hsum
      refine ⟨rb', [] :: outs, ?_, h2, ?_, h4⟩
      · simp only [readAll, hrd, Option.bind_eq_bind, Option.some_bind, h1, Int.toNat_zero,
          List.take_zero]
      · rw [List.flatten_cons, List.nil_append, h3]
    · have hdl := List.length_pos.mpr hd
      have hne : rb.isEmpty = false := by
        by_contra hc
        have hr := @readable_of_isEmpty rb (by simpa using hc)
        rw [hr] at hsum
        simp only [List.length_nil] at hsum
        omega
      obtain ⟨rb1, h1, h2, h3, -⟩ := Read_spec h hne hd
      have hL := Length_eq_readable h
      have hmin : (min (len d) rb.Length).toNat = d.length := by
        rw [hL]; simp only [len]; omega
      have hout : (copy d (readable rb)).take d.length = (readable rb).take d.length := by
        rw [copy_of_le (by omega), List.take_take, Nat.min_self]
      obtain ⟨rb', outs, h4, h5, h6, h7⟩ := ih rb1 h2 (by
        rw [h3, List.length_drop]; omega)
      refine ⟨rb', (readable rb).take d.length :: outs, ?_, h5, ?_, ?_⟩
      · simp only [readAll, h1, Option.bind_eq_bind, Option.some_bind, h4, hmin, hout]
      · rw [List.flatten_cons, h6, h3, List.take_add]
      · rw [h7, h3, List.drop_drop, Nat.add_comm]

/-! ## The round-trip claim -/

/-- C2. `New(k)`, then any sequence of `Write` calls (initial size and bytes
written within `maxBytes`), then any sequence of `Read` calls whose destination
lengths sum to the number of bytes written: all calls return, the bytes the
`Read` calls return, concatenated, are the slices written, concatenated in
order, and the buffer is empty afterwards. -/
theorem C2_roundtrip (k : Int) (ws : List (List Byte × List Byte)) (ds : List (List Byte))
    (hk : IsInt64 k) (hkb : k ≤ maxBytes)
    (hb : len (ws.map Prod.snd).flatten ≤ maxBytes)
    (hsum : (ds.map List.length).sum = ((ws.map Prod.snd).flatten).length) :
    ∃ rb0 rb1 rb2 outs, New k = some rb0 ∧ writeAll rb0 ws = some rb1 ∧
      readAll rb1 ds = some (rb2, outs) ∧ outs.flatten = (ws.map Prod.snd).flatten ∧
      rb2.IsEmpty = true ∧ rb2.Length = 0 := by
  obtain ⟨rb0, h0, hwf0, he0, -⟩ := New_spec hk hkb
  have hL0 := Length_of_isEmpty hwf0 he0
  obtain ⟨rb1, h1, hwf1, hr1⟩ := writeAll_spec ws rb0 hwf0 (by rw [hL0]; omega)
  rw [readable_of_isEmpty he0, List.nil_append] at hr1
  obtain ⟨rb2, outs, h2, hwf2, ho, hr2⟩ := readAll_spec ds rb1 hwf1 (by rw [hr1, hsum])
  have hL2 : rb2.Length = 0 := by
    rw [Length_eq_readable hwf2, hr2, hr1, hsum]
    simp only [len, List.drop_length, List.length_nil, Nat.cast_zero]
  refine ⟨rb0, rb1, rb2, outs, h0, h1, h2, ?_, isEmpty_of_Length_zero hwf2 hL2, hL2⟩
  rw [ho, hr1, hsum, List.take_length]

/-- Witness of C2: `New(0)`, `Write("hello")`, `Read` into five bytes. -/
theorem C2_roundtrip_witness :
    ∃ rb0 rb1 rb2 outs, New 0 = some rb0 ∧
      writeAll rb0 [([], [104, 101, 108, 108, 111])] = some rb1 ∧
      readAll rb1 [[0, 0, 0, 0, 0]] = some (rb2, outs) ∧
      outs.flatten =
        (([([], [104, 101, 108, 108, 111])] : List (List Byte × List Byte)).map
          Prod.snd).flatten ∧
      rb2.IsEmpty = true ∧ rb2.Length = 0 :=
  C2_roundtrip 0 [([], [104, 101, 108, 108, 111])] [[0, 0, 0, 0, 0]] ⟨by decide, by decide⟩
    (by decide) (by decide) (by decide)

end RingBuffer

/-! ## The claims about `math.go` -/

/-- C16. For every 64-bit `n` with `n ≤ 2^62`, `CeilToPowerOfTwo n` returns a power
of two `2^k` with `k ≥ 1` (so at least 2) that is at least `n` and is the smallest
such power of two; it is `2` for every `n ≤ 2`, negative values included; and for
every 64-bit `n > 2^62` the call panics. -/
theorem C16_CeilToPowerOfTwo (n : Int) (hn : IsInt64 n) :
    (n ≤ 4611686018427387904 →
      ∃ k : Nat, 1 ≤ k ∧ CeilToPowerOfTwo n = some (2 ^ k) ∧ n ≤ 2 ^ k ∧
        ∀ j : Nat, 1 ≤ j → n ≤ 2 ^ j → (2 : Int) ^ k ≤ 2 ^ j) ∧
    (n ≤ 2 → CeilToPowerOfTwo n = some 2) ∧
    (4611686018427387904 < n → CeilToPowerOfTwo n = none) := by
  obtain ⟨hlo, hhi⟩ := hn
  refine ⟨fun h => ?_, fun h => ?_, fun h => ?_⟩
  · obtain ⟨k, hk1, -, hk, hle, hmin⟩ :=
      CeilToPowerOfTwo_eq hlo (by unfold maxintHeadBit; exact h)
    refine ⟨k, hk1, hk, hle, fun j hj hnj => ?_⟩
    rcases hmin with h1 | h1
    · subst h1
      exact pow_le_pow_right₀ (by norm_num) hj
    · have hlt : (2 : Int) ^ (k - 1) < 2 ^ j := lt_of_lt_of_le h1 hnj
      have hkj : k - 1 < j := (pow_lt_pow_iff_right₀ (by norm_num)).mp hlt
      exact pow_le_pow_right₀ (by norm_num) (by omega)
  · have hnp : ¬ (Int.land n maxintHeadBit ≠ 0 ∧ n > maxintHeadBit) := fun hc => by
      have := hc.2
      unfold maxintHeadBit at this
      omega
    simp [CeilToPowerOfTwo, hnp, h]
  · exact CeilToPowerOfTwo_panics (by unfold maxintHeadBit; exact h) hhi

theorem C16_CeilToPowerOfTwo_witness :
    (∃ k : Nat, 1 ≤ k ∧ CeilToPowerOfTwo 5 = some (2 ^ k) ∧ (5 : Int) ≤ 2 ^ k ∧
        ∀ j : Nat, 1 ≤ j → (5 : Int) ≤ 2 ^ j → (2 : Int) ^ k ≤ 2 ^ j) :=
  (C16_CeilToPowerOfTwo 5 ⟨by decide, by decide⟩).1 (by decide)

theorem ldiff_self (n : Nat) : Nat.ldiff n n = 0 := by
  apply Nat.eq_of_testBit_eq
  intro i
  rw [Nat.testBit_ldiff]
  simp

/-- C17. `IsPowerOfTwo` answers true at `0` and at the least 64-bit integer, neither
of which is a power of two. -/
theorem C17_IsPowerOfTwo_zero :
    IsPowerOfTwo 0 = true ∧ ¬ IsPow2 0 ∧
      IsPowerOfTwo (-9223372036854775808) = true ∧ ¬ IsPow2 (-9223372036854775808) := by
  have e0 : sub64 0 1 = Int.negSucc 0 := by decide
  have e1 : sub64 (-9223372036854775808) 1 = Int.ofNat 9223372036854775807 := by decide
  refine ⟨?_, ?_, ?_, ?_⟩
  · unfold IsPowerOfTwo
    rw [e0]
    show decide (Int.land (Int.ofNat 0) (Int.negSucc 0) = 0) = true
    simp only [Int.land, ldiff_self]
    rfl
  rotate_left
  · unfold IsPowerOfTwo
    rw [e1]
    show decide (Int.land (Int.negSucc 9223372036854775807)
      (Int.ofNat 9223372036854775807) = 0) = true
    simp only [Int.land, ldiff_self]
    rfl
  · rintro ⟨k, hk⟩
    have : (0 : Int) < 2 ^ k := by positivity
    omega
  · rintro ⟨k, hk⟩
    have : (0 : Int) < 2 ^ k := by positivity
    omega

namespace RingBuffer

/-! ## The invariants of reachable buffers -/

/-- C20. In every reachable buffer `Len() == Cap()`; when `Cap() > 0` both cursors
lie in `[0, Cap())`; `IsEmpty()` holds exactly when `Length() == 0`, and then
`r == w == 0`; and a non-empty buffer has `1 ≤ Length() ≤ Cap()` and is full
exactly when `Length() == Cap()`. -/
theorem C20_invariants (rb : RingBuffer) (hr : Reachable rb) :
    rb.Len = rb.Cap ∧
    (0 < rb.Cap → 0 ≤ rb.r ∧ rb.r < rb.Cap ∧ 0 ≤ rb.w ∧ rb.w < rb.Cap) ∧
    (rb.IsEmpty = true ↔ rb.Length = 0) ∧
    (rb.IsEmpty = true → rb.r = 0 ∧ rb.w = 0) ∧
    (rb.IsEmpty = false →
      1 ≤ rb.Length ∧ rb.Length ≤ rb.Cap ∧ (rb.IsFull = true ↔ rb.Length = rb.Cap)) := by
  have h := hr.wf
  refine ⟨h.len_eq, fun hc => ⟨h.r_nonneg, h.r_lt hc, h.w_nonneg, h.w_lt hc⟩,
    ⟨fun he => Length_of_isEmpty h he, fun hL => isEmpty_of_Length_zero h hL⟩,
    fun he => h.empty_zero he, fun hne => ?_⟩
  have hne' : rb.isEmpty = false := hne
  have hpos := Length_pos h hne'
  refine ⟨by omega, Length_le_size h, ?_⟩
  have hs := h.size_pos hne'
  obtain ⟨h1, h2, h3, h4, h5, h6, h7, h8, h9⟩ := h
  rcases rb with ⟨buf, size, r, w, e⟩
  simp only at hne' hs h2 h4 h5 h6 h7
  subst hne'
  specialize h6 hs; specialize h7 hs
  simp only [IsFull, Cap, Length, add64, sub64, wrap64, Bool.not_false, Bool.and_true,
    decide_eq_true_eq, Bool.false_eq_true, ↓reduceIte]
  by_cases hrw : r = w
  · simp only [hrw, ↓reduceIte]
  · simp only [hrw, ↓reduceIte, false_iff]
    split_ifs <;> omega

theorem C20_invariants_witness :
    (RingBuffer.mk [5, 2, 3, 4] 4 2 1 false).Len = (RingBuffer.mk [5, 2, 3, 4] 4 2 1 false).Cap :=
  (C20_invariants (RingBuffer.mk [5, 2, 3, 4] 4 2 1 false)
    (Reachable.write [] (RingBuffer.mk [1, 2, 3, 0] 4 2 3 false) [4, 5] _ 2 none
      (Reachable.read (RingBuffer.mk [1, 2, 3, 0] 4 0 3 false) [0, 0] _ [1, 2] 2 none
        (Reachable.write [] (RingBuffer.mk [0, 0, 0, 0] 4 0 0 true) [1, 2, 3] _ 3 none
          (Reachable.new 4 _ ⟨by decide, by decide⟩ (by decide) (by decide))
          (by decide) (by decide))
        (by decide))
      (by decide) (by decide))).1

end RingBuffer

/-! ## The growth loop -/

theorem growSeq_shift (n : Int) (i : Nat) : growSeq (n + n / 4) i = growSeq n (i + 1) := by
  induction i with
  | zero => rfl
  | succ i ih =>
    show growSeq (n + n / 4) i + growSeq (n + n / 4) i / 4 =
      growSeq n (i + 1) + growSeq n (i + 1) / 4
    rw [ih]

theorem growIter_shift (n : Int) (i : Nat) :
    growIter (add64 n (Int.tdiv n 4)) i = growIter n (i + 1) := by
  induction i with
  | zero => rfl
  | succ i ih =>
    show add64 (growIter (add64 n (Int.tdiv n 4)) i)
        (Int.tdiv (growIter (add64 n (Int.tdiv n 4)) i) 4) =
      add64 (growIter n (i + 1)) (Int.tdiv (growIter n (i + 1)) 4)
    rw [ih]

/-- One round of the loop body on a value of at least `4096`: the value grows, or
the addition wraps to a negative value. -/
theorem growStep {x : Int} (h4 : 4096 ≤ x) (hx : x < 9223372036854775808) :
    (x < add64 x (Int.tdiv x 4) ∧ add64 x (Int.tdiv x 4) < 9223372036854775808) ∨
      add64 x (Int.tdiv x 4) < 0 := by
  have hdiv : Int.tdiv x 4 = x / 4 := Int.tdiv_eq_ediv (by omega) (by omega)
  rw [hdiv]
  by_cases hov : x + x / 4 < 9223372036854775808
  · rw [add64_eq (by omega) hov]
    exact Or.inl ⟨by omega, hov⟩
  · have e : add64 x (x / 4) = x + x / 4 - 18446744073709551616 := by
      unfold add64 wrap64
      omega
    rw [e]
    exact Or.inr (by omega)

namespace RingBuffer

theorem growLoop_seq (fuel : Nat) : ∀ (n newCap : Int), 4 ≤ n → n < 4611686018427387904 →
    newCap ≤ maxBytes → (newCap - n).toNat < fuel →
    ∃ i : Nat, growLoop fuel n newCap = some (growSeq n i) ∧ newCap ≤ growSeq n i ∧
      ∀ j, j < i → growSeq n j < newCap := by
  unfold maxBytes
  induction fuel with
  | zero => intro n newCap _ _ _ hf; omega
  | succ fuel ih =>
    intro n newCap h4 hn hc hf
    by_cases hlt : n < newCap
    · have hcond : 0 < n ∧ n < newCap := ⟨by omega, hlt⟩
      have hdiv : Int.tdiv n 4 = n / 4 := Int.tdiv_eq_ediv (by omega) (by omega)
      have hadd : add64 n (n / 4) = n + n / 4 := add64_eq (by omega) (by omega)
      obtain ⟨i, hm, h1, h2⟩ := ih (n + n / 4) newCap (by omega) (by omega) hc (by omega)
      refine ⟨i + 1, ?_, ?_, ?_⟩
      · simp only [growLoop, hcond, and_self, ↓reduceIte, hdiv, hadd, hm, growSeq_shift]
      · rw [← growSeq_shift]; exact h1
      · intro j hj
        cases j with
        | zero => exact hlt
        | succ j => rw [← growSeq_shift]; exact h2 j (by omega)
    · have hcond : ¬ (0 < n ∧ n < newCap) := fun hh => hlt hh.2
      exact ⟨0, by simp only [growLoop, hcond, ↓reduceIte, growSeq], not_lt.mp hlt,
        fun j hj => by omega⟩

theorem growLoop_iter (fuel : Nat) : ∀ (n newCap : Int), 4096 ≤ n →
    n < 9223372036854775808 → (newCap - n).toNat < fuel →
    ∃ k : Nat, growLoop fuel n newCap = some (growIter n k) ∧
      (∀ i, i < k → 0 < growIter n i ∧ growIter n i < newCap ∧
        (growIter n i < growIter n (i + 1) ∨ growIter n (i + 1) ≤ 0)) ∧
      ¬ (0 < growIter n k ∧ growIter n k < newCap) ∧
      (growIter n k ≤ 0 ∨ n ≤ growIter n k) := by
  induction fuel with
  | zero => intro n newCap _ _ hf; omega
  | succ fuel ih =>
    intro n newCap h4 hn hf
    by_cases hlt : n < newCap
    · have hcond : 0 < n ∧ n < newCap := ⟨by omega, hlt⟩
      have hstep := growStep h4 hn
      have hunf : growLoop (fuel + 1) n newCap =
          growLoop fuel (add64 n (Int.tdiv n 4)) newCap := by
        simp only [growLoop, hcond, and_self, ↓reduceIte]
      have h1eq : growIter n 1 = add64 n (Int.tdiv n 4) := rfl
      rcases hstep with ⟨hgt, hlt63⟩ | hneg
      · obtain ⟨k, hm, h1, h2, h3⟩ :=
          ih (add64 n (Int.tdiv n 4)) newCap (by omega) hlt63 (by omega)
        refine ⟨k + 1, ?_, ?_, ?_, ?_⟩
        · rw [hunf, hm, growIter_shift]
        · intro i hi
          cases i with
          | zero => exact ⟨hcond.1, hlt, Or.inl (by rw [h1eq]; exact hgt)⟩
          | succ i =>
            have := h1 i (by omega)
            rw [growIter_shift, growIter_shift] at this
            exact this
        · rw [← growIter_shift]; exact h2
        · rw [← growIter_shift]
          rcases h3 with h3 | h3
          · exact Or.inl h3
          · exact Or.inr (by omega)
      · obtain ⟨f, rfl⟩ : ∃ f, fuel = f + 1 := ⟨fuel - 1, by omega⟩
        have hcond' : ¬ (0 < add64 n (Int.tdiv n 4) ∧ add64 n (Int.tdiv n 4) < newCap) :=
          fun hh => by omega
        refine ⟨1, ?_, ?_, ?_, ?_⟩
        · rw [hunf, h1eq]
          simp only [growLoop, hcond', ↓reduceIte]
        · intro i hi
          obtain rfl : i = 0 := by omega
          exact ⟨hcond.1, hlt, Or.inr (by rw [h1eq]; omega)⟩
        · rw [h1eq]; exact hcond'
        · rw [h1eq]; exact Or.inl (by omega)
    · have hcond : ¬ (0 < n ∧ n < newCap) := fun hh => hlt hh.2
      exact ⟨0, by simp only [growLoop, hcond, ↓reduceIte, growIter],
        fun i hi => by omega, hcond, Or.inr (le_refl _)⟩

/-- The capacity `grow` settles on, branch by branch. -/
theorem growCap_cases {size newCap : Int} (hs0 : 0 ≤ size)
    (hs2 : size < 4611686018427387904) (hc1 : -9223372036854775808 ≤ newCap)
    (hc2 : newCap ≤ maxBytes) :
    ∃ cap, growCap size newCap = some cap ∧ newCap ≤ cap ∧ size ≤ cap ∧ 2 ≤ cap ∧
      cap < 4611686018427387904 ∧
      (size = 0 → ∃ c, CeilToPowerOfTwo newCap = some c ∧ cap = max 1024 c) ∧
      (0 < size → newCap ≤ 2 * size → size < 4096 → cap = 2 * size) ∧
      (0 < size → newCap ≤ 2 * size → 4096 ≤ size →
        ∃ i : Nat, cap = growSeq size i ∧ ∀ j, j < i → growSeq size j < newCap) ∧
      (0 < size → 2 * size < newCap → cap = newCap) := by
  have hc2' := hc2
  unfold maxBytes at hc2'
  by_cases hz : size = 0
  · subst hz
    obtain ⟨k, hk1, hk62, hk, hle, hmin⟩ :=
      CeilToPowerOfTwo_eq (n := newCap) hc1 (by unfold maxintHeadBit; omega)
    have hp1 : (2 : Int) ^ 1 ≤ 2 ^ k := pow_le_pow_right₀ (by norm_num) hk1
    norm_num at hp1
    by_cases hd : newCap ≤ DefaultBufferSize
    · have hd' := hd
      unfold DefaultBufferSize at hd'
      have hk10 : k ≤ 10 := by
        by_contra hcon
        have hp : (2 : Int) ^ 10 ≤ 2 ^ (k - 1) := pow_le_pow_right₀ (by norm_num) (by omega)
        norm_num at hp
        rcases hmin with h1 | h1 <;> omega
      have hp2 : (2 : Int) ^ k ≤ 2 ^ 10 := pow_le_pow_right₀ (by norm_num) hk10
      norm_num at hp2
      refine ⟨1024, ?_, hd', by omega, by omega, by omega,
        fun _ => ⟨2 ^ k, hk, (max_eq_left hp2).symm⟩, fun h => by omega, fun h => by omega,
        fun h => by omega⟩
      simp only [growCap, DefaultBufferSize, ↓reduceIte, hd']
    · have hd' := hd
      unfold DefaultBufferSize at hd'
      have hk61 : k ≤ 61 := by
        by_contra hcon
        have hp : (2 : Int) ^ 61 ≤ 2 ^ (k - 1) := pow_le_pow_right₀ (by norm_num) (by omega)
        norm_num at hp
        rcases hmin with h1 | h1 <;> omega
      have hp2 : (2 : Int) ^ k ≤ 2 ^ 61 := pow_le_pow_right₀ (by norm_num) hk61
      norm_num at hp2
      refine ⟨2 ^ k, ?_, hle, by omega, hp1, by omega,
        fun _ => ⟨2 ^ k, hk, (max_eq_right (by omega)).symm⟩, fun h => by omega,
        fun h => by omega, fun h => by omega⟩
      simp only [growCap, ↓reduceIte, hd, hk]
  · have hdbl : add64 size size = size + size := add64_eq (by omega) (by omega)
    by_cases hd : newCap ≤ size + size
    · by_cases ht : size < bufferGrowThreshold
      · have ht' := ht
        unfold bufferGrowThreshold at ht'
        refine ⟨size + size, ?_, hd, by omega, by omega, by omega, fun h => absurd h hz,
          fun _ _ _ => by omega, fun _ _ h => by omega, fun _ h => by omega⟩
        simp only [growCap, hz, ↓reduceIte, hdbl, hd, ht]
      · have ht' : 4096 ≤ size := by unfold bufferGrowThreshold at ht; omega
        obtain ⟨m, hm, h1, h2, h3⟩ :=
          growLoop_spec (newCap.toNat + 1) size newCap (by omega) hs2 hc2 (by omega)
        obtain ⟨i, hi, -, hi2⟩ :=
          growLoop_seq (newCap.toNat + 1) size newCap (by omega) hs2 hc2 (by omega)
        have hmi : m = growSeq size i := by
          rw [hm] at hi
          exact Option.some.inj hi
        have hpos : m > 0 := by omega
        refine ⟨m, ?_, h2, h1, by omega, ?_, fun h => absurd h hz, fun _ _ h => by omega,
          fun _ _ _ => ⟨i, hmi, hi2⟩, fun _ h => by omega⟩
        · simp only [growCap, hz, ↓reduceIte, hdbl, hd, ht, hm, Option.bind_eq_bind,
            Option.some_bind, hpos]
        · rcases h3 with h3 | h3 <;> omega
    · refine ⟨newCap, ?_, le_refl _, by omega, by omega, by omega, fun h => absurd h hz,
        fun _ h => by omega, fun _ h => by omega, fun _ _ => rfl⟩
      simp only [growCap, hz, ↓reduceIte, hdbl, hd]

/-- What `PeekAll` presents of a state as `grow` leaves it. -/
theorem contents_grown {B : List Byte} {cap : Int} {L : Nat} {e : Bool}
    (hL : L ≤ B.length) (he : e = true ↔ L = 0) :
    contents (RingBuffer.mk B cap 0 (L : Int) e) = some (B.take L) := by
  cases e
  · have hpos : 0 < L := by
      rcases Nat.eq_zero_or_pos L with h | h
      · exact absurd (he.mpr h) (by simp)
      · exact h
    have hgt : (L : Int) > 0 := by omega
    have hs := slice_natCast (l := B) (Nat.zero_le L) hL
    simp only [Nat.cast_zero, List.drop_zero] at hs
    simp only [contents, PeekAll, Bool.false_eq_true, ↓reduceIte, hgt, hs,
      Option.bind_eq_bind, Option.some_bind, Option.map_some', List.append_nil]
  · have h0 : L = 0 := he.mp rfl
    subst h0
    simp [contents, PeekAll]

/-! ## The claims about `grow` -/

/-- C18. On a reachable buffer and for a 64-bit request `newCap` of at most `2^61`,
`grow(newCap)` returns with the capacity chosen as follows: when `size == 0` it is
`max(1024, CeilToPowerOfTwo(newCap))`; when `size > 0` and `newCap <= 2*size` it is
`2*size` if `size < 4096` and otherwise the first value that is at least `newCap`
in the sequence `n0 = size`, `n(i+1) = n(i) + n(i)/4`.  In every case afterwards
`Cap() >= newCap`, `r == 0`, `w` is the prior `Length()` and the readable
bytes are the same. -/
theorem C18_grow (recycled : List Byte) (rb : RingBuffer) (newCap : Int)
    (hr : Reachable rb) (hc : IsInt64 newCap) (hm : newCap ≤ maxBytes) :
    ∃ rb', grow recycled rb newCap = some rb' ∧
      (rb.size = 0 → ∃ c, CeilToPowerOfTwo newCap = some c ∧ rb'.Cap = max 1024 c) ∧
      (0 < rb.size → newCap ≤ 2 * rb.size → rb.size < 4096 → rb'.Cap = 2 * rb.size) ∧
      (0 < rb.size → newCap ≤ 2 * rb.size → 4096 ≤ rb.size →
        ∃ i : Nat, rb'.Cap = growSeq rb.size i ∧ newCap ≤ growSeq rb.size i ∧
          ∀ j, j < i → growSeq rb.size j < newCap) ∧
      newCap ≤ rb'.Cap ∧ rb'.r = 0 ∧ rb'.w = rb.Length ∧ contents rb' = contents rb := by
  have h := hr.wf
  obtain ⟨cap, hcap, h1, h2, h3, h4, c1, c2, c3, -⟩ :=
    growCap_cases h.size_nonneg h.size_lt hc.1 hm
  have hLs := Length_le_size h
  have hLr := Length_eq_readable h
  have hpos : 0 < cap := by omega
  have hlen := byteslice.length_Get recycled hpos
  refine ⟨_, grow_eq h recycled hcap hpos (by omega), c1, c2, ?_, h1, rfl, rfl, ?_⟩
  · intro a b c
    obtain ⟨i, hi, hi2⟩ := c3 a b c
    exact ⟨i, hi, by rw [← hi]; exact h1, hi2⟩
  · rw [contents_eq h]
    simp only [len] at hLr
    have hle : (readable rb).length ≤ (byteslice.Get recycled cap).length := by omega
    have e1 : ((readable rb).length : Int) = rb.Length := hLr.symm
    rw [← e1, contents_grown (by rw [length_copy]; exact hle)
      ⟨fun he => by have := Length_of_isEmpty h he; omega,
       fun hz => isEmpty_of_Length_zero h (by omega)⟩]
    rw [copy_of_ge hle, List.take_left']
    rfl

theorem C18_grow_witness :
    ∃ rb', grow [] (RingBuffer.mk [1, 2, 3, 0] 4 0 3 false) 5 = some rb' ∧
      ((4 : Int) = 0 → ∃ c, CeilToPowerOfTwo 5 = some c ∧ rb'.Cap = max 1024 c) ∧
      ((0 : Int) < 4 → (5 : Int) ≤ 2 * 4 → (4 : Int) < 4096 → rb'.Cap = 2 * 4) ∧
      ((0 : Int) < 4 → (5 : Int) ≤ 2 * 4 → (4096 : Int) ≤ 4 →
        ∃ i : Nat, rb'.Cap = growSeq 4 i ∧ 5 ≤ growSeq 4 i ∧
          ∀ j, j < i → growSeq 4 j < 5) ∧
      5 ≤ rb'.Cap ∧ rb'.r = 0 ∧ rb'.w = (RingBuffer.mk [1, 2, 3, 0] 4 0 3 false).Length ∧
      contents rb' = contents (RingBuffer.mk [1, 2, 3, 0] 4 0 3 false) :=
  C18_grow [] (RingBuffer.mk [1, 2, 3, 0] 4 0 3 false) 5
    (Reachable.write [] (RingBuffer.mk [0, 0, 0, 0] 4 0 0 true) [1, 2, 3] _ 3 none
      (Reachable.new 4 _ ⟨by decide, by decide⟩ (by decide) (by decide))
      (by decide) (by decide))
    ⟨by decide, by decide⟩ (by decide)

/-- C19. For every 64-bit `n ≥ 4096` and every 64-bit `newCap`, the loop
`for 0 < n && n < newCap { n += n / 4 }` of `grow` terminates, after `k` rounds say:
in every round the guard holds and `n` either strictly increases or wraps to a
non-positive value, after the last round the guard fails, and `grow` then takes
the final `n` when it is positive and keeps the requested `newCap` otherwise. -/
theorem C19_growLoop_terminates (n newCap : Int) (hn : IsInt64 n) (h4 : 4096 ≤ n)
    (hc : IsInt64 newCap) :
    ∃ k : Nat, growLoop (newCap.toNat + 1) n newCap = some (growIter n k) ∧
      (∀ i, i < k → 0 < growIter n i ∧ growIter n i < newCap ∧
        (growIter n i < growIter n (i + 1) ∨ growIter n (i + 1) ≤ 0)) ∧
      ¬ (0 < growIter n k ∧ growIter n k < newCap) ∧
      (newCap ≤ add64 n n →
        growCap n newCap = some (if growIter n k > 0 then growIter n k else newCap)) := by
  obtain ⟨k, hk, h1, h2, -⟩ := growLoop_iter (newCap.toNat + 1) n newCap h4 hn.2 (by omega)
  refine ⟨k, hk, h1, h2, fun hd => ?_⟩
  have hz : ¬ n = 0 := by omega
  have ht : ¬ n < bufferGrowThreshold := by unfold bufferGrowThreshold; omega
  simp only [growCap, hz, ↓reduceIte, hd, ht, hk, Option.bind_eq_bind, Option.some_bind]
  split_ifs <;> rfl

theorem C19_growLoop_terminates_witness :
    ∃ k : Nat, growLoop ((5000 : Int).toNat + 1) 4096 5000 = some (growIter 4096 k) ∧
      (∀ i, i < k → 0 < growIter 4096 i ∧ growIter 4096 i < 5000 ∧
        (growIter 4096 i < growIter 4096 (i + 1) ∨ growIter 4096 (i + 1) ≤ 0)) ∧
      ¬ (0 < growIter 4096 k ∧ growIter 4096 k < 5000) ∧
      ((5000 : Int) ≤ add64 4096 4096 →
        growCap 4096 5000 = some (if growIter 4096 k > 0 then growIter 4096 k else 5000)) :=
  C19_growLoop_terminates 4096 5000 ⟨by decide, by decide⟩ (by decide) ⟨by decide, by decide⟩

end RingBuffer

/-! ## Chains of nodes -/

theorem isChain_nil {heap : Heap} {p : Option Nat} : isChain heap p [] = true ↔ p = none := by
  simp [isChain]

theorem isChain_cons {heap : Heap} {p : Option Nat} {i : Nat} {ids : List Nat} :
    isChain heap p (i :: ids) = true ↔
      p = some i ∧ ∃ node, heap[i]? = some node ∧ isChain heap node.next ids = true := by
  simp only [isChain, Bool.and_eq_true, beq_iff_eq]
  cases heap[i]? <;> simp

theorem isChain_head {heap : Heap} {p : Option Nat} {ids : List Nat}
    (h : isChain heap p ids = true) : p = ids.head? := by
  cases ids with
  | nil => exact isChain_nil.mp h
  | cons i ids => exact (isChain_cons.mp h).1

theorem isChain_congr {heap heap' : Heap} : ∀ {ids : List Nat} {p : Option Nat},
    (∀ i ∈ ids, heap'[i]? = heap[i]?) → isChain heap p ids = true →
    isChain heap' p ids = true := by
  intro ids
  induction ids with
  | nil => intro p _ h; exact isChain_nil.mpr (isChain_nil.mp h)
  | cons i ids ih =>
    intro p hag h
    obtain ⟨hp, node, hn, hc⟩ := isChain_cons.mp h
    refine isChain_cons.mpr ⟨hp, node, ?_, ih (fun j hj => hag j (List.mem_cons_of_mem _ hj)) hc⟩
    rw [hag i (List.mem_cons_self _ _)]
    exact hn

theorem isChain_unique {heap : Heap} : ∀ {ids ids' : List Nat} {p : Option Nat},
    isChain heap p ids = true → isChain heap p ids' = true → ids = ids' := by
  intro ids
  induction ids with
  | nil =>
    intro ids' p h h'
    cases ids' with
    | nil => rfl
    | cons j ids' =>
      have h1 := isChain_nil.mp h
      have h2 := (isChain_cons.mp h').1
      rw [h1] at h2
      exact absurd h2 (by simp)
  | cons i ids ih =>
    intro ids' p h h'
    obtain ⟨hp, node, hn, hc⟩ := isChain_cons.mp h
    cases ids' with
    | nil =>
      have h1 := isChain_nil.mp h'
      rw [h1] at hp
      exact absurd hp (by simp)
    | cons j ids' =>
      obtain ⟨hp', node', hn', hc'⟩ := isChain_cons.mp h'
      rw [hp] at hp'
      obtain rfl : i = j := Option.some.inj hp'
      rw [hn] at hn'
      obtain rfl : node = node' := Option.some.inj hn'
      rw [ih hc hc']

theorem isChain_suffix {heap : Heap} : ∀ {a b : List Nat} {p : Option Nat},
    isChain heap p (a ++ b) = true → ∃ q, isChain heap q b = true := by
  intro a
  induction a with
  | nil => intro b p h; exact ⟨p, h⟩
  | cons i a ih =>
    intro b p h
    obtain ⟨-, node, -, hc⟩ := isChain_cons.mp h
    exact ih hc

theorem isChain_nodup {heap : Heap} : ∀ {ids : List Nat} {p : Option Nat},
    isChain heap p ids = true → ids.Nodup := by
  intro ids
  induction ids with
  | nil => intro p _; exact List.nodup_nil
  | cons i ids ih =>
    intro p h
    obtain ⟨-, node, hn, hc⟩ := isChain_cons.mp h
    refine List.nodup_cons.mpr ⟨fun hmem => ?_, ih hc⟩
    obtain ⟨a, c, rfl⟩ := List.append_of_mem hmem
    obtain ⟨q, hq⟩ := isChain_suffix hc
    obtain ⟨-, node', hn', hc'⟩ := isChain_cons.mp hq
    rw [hn] at hn'
    obtain rfl : node = node' := Option.some.inj hn'
    have := congrArg List.length (isChain_unique hc hc')
    simp only [List.length_append, List.length_cons] at this
    omega

theorem isChain_lt {heap : Heap} : ∀ {ids : List Nat} {p : Option Nat},
    isChain heap p ids = true → ∀ i ∈ ids, i < heap.length := by
  intro ids
  induction ids with
  | nil => intro p _ i hi; exact absurd hi (List.not_mem_nil _)
  | cons j ids ih =>
    intro p h i hi
    obtain ⟨-, node, hn, hc⟩ := isChain_cons.mp h
    rcases List.mem_cons.mp hi with rfl | hi
    · exact (List.getElem?_eq_some_iff.mp hn).1
    · exact ih hc i hi

theorem isChain_length_le {heap : Heap} {ids : List Nat} {p : Option Nat}
    (h : isChain heap p ids = true) : ids.length ≤ heap.length := by
  have hsub : ids ⊆ List.range heap.length := fun i hi =>
    List.mem_range.mpr (isChain_lt h i hi)
  have := (List.subperm_of_subset (isChain_nodup h) hsub).length_le
  rwa [List.length_range] at this

/-! ## Chunks -/

theorem SameBufs.refl (heap : Heap) : SameBufs heap heap := ⟨rfl, fun _ => rfl⟩

theorem SameBufs.trans {h1 h2 h3 : Heap} (a : SameBufs h1 h2) (b : SameBufs h2 h3) :
    SameBufs h1 h3 := ⟨b.1.trans a.1, fun j => (b.2 j).trans (a.2 j)⟩

theorem SameBufs.set {heap : Heap} {i : Nat} {node x : ByteBuffer}
    (hn : heap[i]? = some node) (hx : x.Buf = node.Buf) : SameBufs heap (heap.set i x) := by
  refine ⟨List.length_set _ _ _, fun j => ?_⟩
  by_cases hij : i = j
  · subst hij
    rw [List.getElem?_set_self (List.getElem?_eq_some_iff.mp hn).1, hn]
    simp [hx]
  · rw [List.getElem?_set_ne hij]

theorem SameBufs.chunk {heap heap' : Heap} (h : SameBufs heap heap') (j : Nat) :
    chunk heap' j = chunk heap j := by
  have := h.2 j
  unfold Toolkit.chunk
  cases h1 : heap'[j]? <;> cases h2 : heap[j]? <;> rw [h1, h2] at this <;> simp at this ⊢
  exact congrArg (fun b => Option.getD b []) this

theorem SameBufs.hasChunk {heap heap' : Heap} (h : SameBufs heap heap') (j : Nat) :
    hasChunk heap' j = hasChunk heap j := by
  have := h.2 j
  unfold Toolkit.hasChunk
  cases h1 : heap'[j]? <;> cases h2 : heap[j]? <;> rw [h1, h2] at this <;> simp at this ⊢
  exact congrArg Option.isSome this

theorem SameBufs.chunks {heap heap' : Heap} (h : SameBufs heap heap') (ids : List Nat) :
    chunks heap' ids = chunks heap ids := by
  unfold Toolkit.chunks
  exact List.map_congr_left (fun j _ => h.chunk j)

theorem SameBufs.totalBytes {heap heap' : Heap} (h : SameBufs heap heap') (ids : List Nat) :
    totalBytes heap' ids = totalBytes heap ids := by
  unfold Toolkit.totalBytes
  rw [h.chunks]

theorem chunk_of_buf {heap : Heap} {i : Nat} {node : ByteBuffer} {B : List Byte}
    (hn : heap[i]? = some node) (hB : node.Buf = some B) : chunk heap i = B := by
  simp [chunk, hn, hB]

theorem totalBytes_cons (heap : Heap) (i : Nat) (ids : List Nat) :
    totalBytes heap (i :: ids) = (chunk heap i).length + totalBytes heap ids := by
  simp [totalBytes, chunks]

theorem totalBytes_append (heap : Heap) (a b : List Nat) :
    totalBytes heap (a ++ b) = totalBytes heap a + totalBytes heap b := by
  simp [totalBytes, chunks, List.sum_append]

theorem totalBytes_eq_length (heap : Heap) (ids : List Nat) :
    totalBytes heap ids = (chunks heap ids).flatten.length := by
  simp [totalBytes]

theorem isChain_snoc {heap : Heap} {t i : Nat} {last node : ByteBuffer}
    (ht : heap[t]? = some last) (hn : heap[i]? = some node) :
    ∀ {ys : List Nat} {p : Option Nat}, isChain heap p (ys ++ [t]) = true →
      i ∉ ys ++ [t] → (ys ++ [t]).Nodup →
      isChain ((heap.set t { last with next := some i }).set i { node with next := none })
        p (ys ++ [t] ++ [i]) = true := by
  have hti : t < heap.length := (List.getElem?_eq_some_iff.mp ht).1
  have hii : i < heap.length := (List.getElem?_eq_some_iff.mp hn).1
  intro ys
  induction ys with
  | nil =>
    intro p h hi _
    obtain ⟨hp, -, -, -⟩ := isChain_cons.mp h
    have hne : i ≠ t := fun e => hi (by simp [e])
    refine isChain_cons.mpr ⟨hp, { last with next := some i }, ?_, ?_⟩
    · rw [List.getElem?_set_ne hne, List.getElem?_set_self hti]
    · refine isChain_cons.mpr ⟨rfl, { node with next := none }, ?_, isChain_nil.mpr rfl⟩
      rw [List.getElem?_set_self (by rw [List.length_set]; exact hii)]
  | cons j ys ih =>
    intro p h hi hnd
    obtain ⟨hp, nodej, hnj, hc⟩ := isChain_cons.mp h
    have hji : i ≠ j := fun e => hi (by simp [e])
    have hjt : t ≠ j := fun e => by
      have := (List.nodup_cons.mp hnd).1
      exact this (by simp [e])
    refine isChain_cons.mpr ⟨hp, nodej, ?_, ?_⟩
    · rw [List.getElem?_set_ne hji, List.getElem?_set_ne hjt]
      exact hnj
    · exact ih hc (fun hm => hi (List.mem_cons_of_mem _ hm)) (List.nodup_cons.mp hnd).2

namespace ListBuffer

/-! ## Lists as sequences of nodes -/

theorem Seq.eq {heap : Heap} {l : ListBuffer} {ids : List Nat} (h : Seq heap l ids) :
    l = ListBuffer.mk l.bs ids.head? ids.getLast? ids.length (totalBytes heap ids) := by
  obtain ⟨hc, ht, -, hs, hb, -, -⟩ := h
  rcases l with ⟨bs, head, tail, size, bytes⟩
  simp only at hc ht hs hb
  rw [isChain_head hc, ht, hs, hb]

theorem Seq.of_chain {heap : Heap} {p : Option Nat} {ids : List Nat} (bs : List (List Byte))
    (hc : isChain heap p ids = true) (hch : ∀ i ∈ ids, hasChunk heap i = true)
    (hs : (ids.length : Int) < 9223372036854775808)
    (hb : (totalBytes heap ids : Int) < 9223372036854775808) :
    Seq heap (ListBuffer.mk bs ids.head? ids.getLast? ids.length (totalBytes heap ids)) ids := by
  rw [isChain_head hc] at hc
  exact ⟨hc, rfl, hch, rfl, rfl, hs, hb⟩

theorem Seq.frame {heap heap' : Heap} {l : ListBuffer} {ids : List Nat} (h : Seq heap l ids)
    (hag : ∀ i ∈ ids, heap'[i]? = heap[i]?) : Seq heap' l ids := by
  obtain ⟨hc, ht, hch, hs, hb, hs63, hb63⟩ := h
  have hck : ∀ i ∈ ids, chunk heap' i = chunk heap i := fun i hi => by
    simp only [chunk, hag i hi]
  have htb : totalBytes heap' ids = totalBytes heap ids := by
    unfold totalBytes chunks
    rw [List.map_congr_left hck]
  refine ⟨isChain_congr hag hc, ht, fun i hi => ?_, hs, by rw [htb]; exact hb, hs63, hb63⟩
  have := hch i hi
  simp only [hasChunk, hag i hi] at this ⊢
  exact this

theorem Seq.nil_head {heap : Heap} {l : ListBuffer} (h : Seq heap l []) : l.head = none :=
  isChain_nil.mp h.1

theorem Seq.node {heap : Heap} {l : ListBuffer} {ids : List Nat} (h : Seq heap l ids)
    {i : Nat} (hi : i ∈ ids) :
    ∃ node B, heap[i]? = some node ∧ node.Buf = some B := by
  have := h.2.2.1 i hi
  unfold hasChunk at this
  cases hn : heap[i]? with
  | none => simp [hn] at this
  | some node =>
    cases hB : node.Buf with
    | none => simp [hn, hB] at this
    | some B => exact ⟨node, B, rfl, hB⟩

/-- `Pop` on an empty list. -/
theorem Seq.pop_nil {heap : Heap} {l : ListBuffer} (h : Seq heap l []) :
    Pop heap l = some (heap, l, none) := by
  have := h.nil_head
  rcases l with ⟨bs, head, tail, size, bytes⟩
  simp only at this
  subst this
  rfl

/-- `Pop` on a list with first node `i`. -/
theorem Seq.pop {heap : Heap} {l : ListBuffer} {i : Nat} {rest : List Nat}
    (h : Seq heap l (i :: rest)) :
    ∃ node, heap[i]? = some node ∧ i ∉ rest ∧
      Pop heap l = some (heap.set i { node with next := none },
        ListBuffer.mk l.bs rest.head? rest.getLast? rest.length (totalBytes heap rest),
        some i) ∧
      Seq (heap.set i { node with next := none })
        (ListBuffer.mk l.bs rest.head? rest.getLast? rest.length (totalBytes heap rest))
        rest := by
  obtain ⟨node, B, hn, hB⟩ := h.node (List.mem_cons_self _ _)
  obtain ⟨hc, ht, hch, hs, hb, hs63, hb63⟩ := h
  obtain ⟨hp, node', hn', hc'⟩ := isChain_cons.mp hc
  rw [hn] at hn'
  obtain rfl : node = node' := Option.some.inj hn'
  have hnd := isChain_nodup hc
  have hi : i ∉ rest := (List.nodup_cons.mp hnd).1
  have hsb := SameBufs.set (x := { node with next := none }) hn rfl
  have hnext := isChain_head hc'
  refine ⟨node, hn, hi, ?_, ?_⟩
  · rcases l with ⟨bs, head, tail, size, bytes⟩
    simp only at hp ht hs hb hs63 hb63 ⊢
    subst hp
    have hck := chunk_of_buf hn hB
    have hs' : size = (rest.length : Int) + 1 := by
      rw [hs, List.length_cons]; push_cast; rfl
    have hb' : bytes = (B.length : Int) + (totalBytes heap rest : Int) := by
      rw [hb, totalBytes_cons, hck]; push_cast; rfl
    have e1 : sub64 size 1 = (rest.length : Int) := by
      rw [sub64_eq] <;> omega
    have e2 : sub64 bytes (len B) = (totalBytes heap rest : Int) := by
      rw [sub64_eq] <;> simp only [len] <;> omega
    have e3 : (if rest.head? = none then none else tail) = rest.getLast? := by
      rw [ht]
      cases rest with
      | nil => simp
      | cons k r => simp
    simp only [Pop, hn, hB, hnext, bytebuffer.Len, Option.map_some', Option.bind_eq_bind,
      Option.some_bind, e1, e2, e3]
  · have hag : ∀ j ∈ rest, (heap.set i { node with next := none })[j]? = heap[j]? :=
      fun j hj => List.getElem?_set_ne (fun (e : i = j) => hi (by rw [e]; exact hj))
    have hs' : (rest.length : Int) < 9223372036854775808 := by
      rw [hs, List.length_cons] at hs63
      push_cast at hs63
      omega
    have hb' : (totalBytes heap rest : Int) < 9223372036854775808 := by
      rw [hb, totalBytes_cons] at hb63
      push_cast at hb63
      omega
    have := Seq.of_chain l.bs hc' (fun j hj => hch j (List.mem_cons_of_mem _ hj)) hs' hb'
    exact this.frame hag

/-- `PushFront` of a node that owns a chunk and is not in the list. -/
theorem Seq.pushFront {heap : Heap} {l : ListBuffer} {ids : List Nat} {i : Nat}
    {node : ByteBuffer} {B : List Byte} (h : Seq heap l ids) (hn : heap[i]? = some node)
    (hB : node.Buf = some B) (hi : i ∉ ids)
    (hs : (ids.length : Int) + 1 < 9223372036854775808)
    (hb : (totalBytes heap ids : Int) + B.length < 9223372036854775808) :
    PushFront heap l (some i) = some (heap.set i { node with next := ids.head? },
        ListBuffer.mk l.bs (some i) (i :: ids).getLast? ((i :: ids).length : Nat)
          (totalBytes heap (i :: ids))) ∧
      Seq (heap.set i { node with next := ids.head? })
        (ListBuffer.mk l.bs (some i) (i :: ids).getLast? ((i :: ids).length : Nat)
          (totalBytes heap (i :: ids))) (i :: ids) := by
  obtain ⟨hc, ht, hch, hs0, hb0, hs63, hb63⟩ := h
  have hhead := isChain_head hc
  have hck := chunk_of_buf hn hB
  have hii : i < heap.length := (List.getElem?_eq_some_iff.mp hn).1
  have hsb := SameBufs.set (x := { node with next := ids.head? }) hn rfl
  constructor
  · rcases l with ⟨bs, head, tail, size, bytes⟩
    simp only at hhead ht hs0 hb0 ⊢
    subst hhead
    have e1 : add64 size 1 = (((i :: ids).length : Nat) : Int) := by
      rw [add64_eq, hs0, List.length_cons] <;> first | (push_cast; rfl) | omega
    have e2 : add64 bytes (len B) = (totalBytes heap (i :: ids) : Int) := by
      rw [add64_eq, hb0, totalBytes_cons, hck] <;> simp only [len] <;>
        first | (push_cast; omega) | omega
    have e3 : (if ids.head? = none then some i else tail) = (i :: ids).getLast? := by
      rw [ht]
      cases ids with
      | nil => simp
      | cons k r => simp
    have e4 : (if ids.head? = none then none else ids.head?) = ids.head? := by
      split_ifs with hh
      · exact hh.symm
      · rfl
    simp only [PushFront, hn, hB, bytebuffer.Len, Option.map_some', Option.bind_eq_bind,
      Option.some_bind, e1, e2, e3, e4]
  · have hag : ∀ j ∈ ids, (heap.set i { node with next := ids.head? })[j]? = heap[j]? :=
      fun j hj => List.getElem?_set_ne (fun (e : i = j) => hi (by rw [e]; exact hj))
    refine ⟨?_, rfl, ?_, rfl, ?_, ?_, ?_⟩
    · refine isChain_cons.mpr ⟨rfl, { node with next := ids.head? },
        List.getElem?_set_self hii, ?_⟩
      have := isChain_congr hag hc
      rw [hhead] at this
      exact this
    · intro j hj
      rw [hsb.hasChunk]
      rcases List.mem_cons.mp hj with rfl | hj
      · simp [hasChunk, hn, hB]
      · exact hch j hj
    · simp only [hsb.totalBytes]
    · simp only [List.length_cons]
      push_cast
      omega
    · simp only [hsb.totalBytes, totalBytes_cons, hck]
      push_cast
      omega

end ListBuffer

namespace ListBuffer

/-- `PushBack` of a node that owns a chunk and is not in the list. -/
theorem Seq.pushBack {heap : Heap} {l : ListBuffer} {ids : List Nat} {i : Nat}
    {node : ByteBuffer} {B : List Byte} (h : Seq heap l ids) (hn : heap[i]? = some node)
    (hB : node.Buf = some B) (hi : i ∉ ids)
    (hs : (ids.length : Int) + 1 < 9223372036854775808)
    (hb : (totalBytes heap ids : Int) + B.length < 9223372036854775808) :
    ∃ heap', PushBack heap l (some i) = some (heap',
        ListBuffer.mk l.bs (ids ++ [i]).head? (some i) ((ids ++ [i]).length : Nat)
          (totalBytes heap (ids ++ [i]))) ∧
      SameBufs heap heap' ∧
      Seq heap' (ListBuffer.mk l.bs (ids ++ [i]).head? (some i) ((ids ++ [i]).length : Nat)
          (totalBytes heap (ids ++ [i]))) (ids ++ [i]) := by
  have hck := chunk_of_buf hn hB
  have hii : i < heap.length := (List.getElem?_eq_some_iff.mp hn).1
  have htb : totalBytes heap (ids ++ [i]) = totalBytes heap ids + B.length := by
    rw [totalBytes_append, totalBytes_cons, hck]
    simp [totalBytes, chunks]
  have hlen : (ids ++ [i]).length = ids.length + 1 := by simp
  have hch' : ∀ {heap' : Heap}, SameBufs heap heap' → ∀ j ∈ ids ++ [i], hasChunk heap' j = true := by
    intro heap' hsb j hj
    rw [hsb.hasChunk]
    rcases List.mem_append.mp hj with hj | hj
    · exact h.2.2.1 j hj
    · obtain rfl : j = i := by simpa using hj
      simp [hasChunk, hn, hB]
  have hfin : ∀ {heap' : Heap}, SameBufs heap heap' →
      isChain heap' (ids ++ [i]).head? (ids ++ [i]) = true →
      Seq heap' (ListBuffer.mk l.bs (ids ++ [i]).head? (some i) ((ids ++ [i]).length : Nat)
          (totalBytes heap (ids ++ [i]))) (ids ++ [i]) := by
    intro heap' hsb hc
    refine ⟨hc, (List.getLast?_concat ids).symm, hch' hsb, rfl, ?_, ?_, ?_⟩
    · simp only [hsb.totalBytes]
    · simp only [hlen]; push_cast; omega
    · simp only [htb]; push_cast; omega
  obtain ⟨hc, ht, hch, hs0, hb0, hs63, hb63⟩ := h
  have hhead := isChain_head hc
  rcases l with ⟨bs, head, tail, size, bytes⟩
  simp only at hhead ht hs0 hb0 hc ⊢
  have e1 : add64 size 1 = (((ids ++ [i]).length : Nat) : Int) := by
    rw [add64_eq, hs0, hlen] <;> first | (push_cast; rfl) | omega
  have e2 : add64 bytes (len B) = (totalBytes heap (ids ++ [i]) : Int) := by
    rw [add64_eq, hb0, htb] <;> simp only [len] <;> first | (push_cast; omega) | omega
  have hsplit : ids = [] ∨ ∃ ys t, ids = ys ++ [t] := by
    rcases List.eq_nil_or_concat ids with e | ⟨ys, t, e⟩
    · exact Or.inl e
    · exact Or.inr ⟨ys, t, by rw [e, List.concat_eq_append]⟩
  rcases hsplit with rfl | ⟨ys, t, rfl⟩
  · have ht' : tail = none := ht
    subst ht'
    have hh' : head = none := hhead
    subst hh'
    have hsb := SameBufs.set (x := { node with next := none }) hn rfl
    refine ⟨heap.set i { node with next := none }, ?_, hsb, hfin hsb ?_⟩
    · simp only [PushBack, hn, hB, bytebuffer.Len, Option.map_some', Option.bind_eq_bind,
        Option.some_bind, e1, e2, ↓reduceIte, List.nil_append, List.head?_cons]
    · exact isChain_cons.mpr ⟨rfl, { node with next := none }, List.getElem?_set_self hii,
        isChain_nil.mpr rfl⟩
  · have ht' : tail = some t := by rw [ht, List.getLast?_concat]
    subst ht'
    have htm : t ∈ ys ++ [t] := by simp
    have hne : i ≠ t := fun e => hi (by rw [e]; exact htm)
    have hlast : ∃ last, heap[t]? = some last := by
      have := hch t htm
      unfold hasChunk at this
      cases hl : heap[t]? with
      | none => simp [hl] at this
      | some last => exact ⟨last, rfl⟩
    obtain ⟨last, hlast⟩ := hlast
    have hn1 : (heap.set t { last with next := some i })[i]? = some node := by
      rw [List.getElem?_set_ne (fun e => hne e.symm)]
      exact hn
    have hsb1 := SameBufs.set (x := { last with next := some i }) hlast rfl
    have hsb2 := SameBufs.set (x := { node with next := none }) hn1 rfl
    have hsb := hsb1.trans hsb2
    have hhd : (if (some t : Option Nat) = none then some i else head) =
        (ys ++ [t] ++ [i]).head? := by
      rw [hhead]
      cases ys <;> simp
    refine ⟨(heap.set t { last with next := some i }).set i { node with next := none },
      ?_, hsb, hfin hsb ?_⟩
    · simp only [PushBack, hlast, hn1, hB, bytebuffer.Len, Option.map_some',
        Option.bind_eq_bind, Option.some_bind, e1, e2, hhd]
    · have := isChain_snoc hlast hn hc hi (isChain_nodup hc)
      rw [hhead] at this
      have e : (ys ++ [t] ++ [i]).head? = (ys ++ [t]).head? := by cases ys <;> simp
      rw [e]
      exact this

/-- A list seen from a longer store of nodes. -/
theorem Seq.alloc {heap : Heap} {l : ListBuffer} {ids : List Nat} (h : Seq heap l ids)
    (x : ByteBuffer) :
    Seq (heap ++ [x]) l ids ∧ heap.length ∉ ids ∧
      totalBytes (heap ++ [x]) ids = totalBytes heap ids ∧
      chunks (heap ++ [x]) ids = chunks heap ids := by
  have hlt := isChain_lt h.1
  have hag : ∀ i ∈ ids, (heap ++ [x])[i]? = heap[i]? :=
    fun i hi => List.getElem?_append_left (hlt i hi)
  have hck : ∀ i ∈ ids, chunk (heap ++ [x]) i = chunk heap i := fun i hi => by
    simp only [chunk, hag i hi]
  have hcs : chunks (heap ++ [x]) ids = chunks heap ids := List.map_congr_left hck
  refine ⟨h.frame hag, fun hm => Nat.lt_irrefl _ (hlt _ hm), ?_, hcs⟩
  unfold totalBytes
  rw [hcs]

end ListBuffer

theorem chunks_congr {heap heap' : Heap} {ids : List Nat}
    (hag : ∀ j ∈ ids, heap'[j]? = heap[j]?) : chunks heap' ids = chunks heap ids :=
  List.map_congr_left (fun j hj => by simp only [chunk, hag j hj])

namespace ListBuffer

theorem len_ne_zero {p : List Byte} (hp : p ≠ []) : ¬ len p = 0 := by
  intro h
  apply hp
  simp only [len] at h
  exact List.length_eq_zero.mp (by omega)

/-- `PushBytesFront` of a non-empty slice. -/
theorem Seq.pushBytesFront {heap : Heap} {l : ListBuffer} {ids : List Nat} {p : List Byte}
    (h : Seq heap l ids) (hp : p ≠ [])
    (hs : (ids.length : Int) + 1 < 9223372036854775808)
    (hb : (totalBytes heap ids : Int) + p.length < 9223372036854775808) :
    ∃ heap' l', PushBytesFront heap l p = some (heap', l') ∧
      Seq heap' l' (heap.length :: ids) ∧
      chunks heap' (heap.length :: ids) = p :: chunks heap ids ∧ l'.bs = l.bs := by
  obtain ⟨h1, hfresh, htb, hcs⟩ := h.alloc { Buf := some p, next := none }
  have hn : (heap ++ [{ Buf := some p, next := none }])[heap.length]? =
      some { Buf := some p, next := none } := List.getElem?_concat_length _ _
  obtain ⟨e, hseq⟩ := Seq.pushFront h1 hn rfl hfresh hs (by rw [htb]; exact hb)
  have hsb := SameBufs.set
    (x := { ({ Buf := some p, next := none } : ByteBuffer) with next := ids.head? }) hn rfl
  refine ⟨_, _, ?_, hseq, ?_, rfl⟩
  · simp only [PushBytesFront, len_ne_zero hp, ↓reduceIte, bytebuffer.Write, bytebuffer.Get,
      List.nil_append]
    exact e
  · rw [hsb.chunks]
    show chunk _ heap.length :: chunks _ ids = _
    rw [chunk_of_buf hn rfl, hcs]

/-- `PushBytesBack` of a non-empty slice. -/
theorem Seq.pushBytesBack {heap : Heap} {l : ListBuffer} {ids : List Nat} {p : List Byte}
    (h : Seq heap l ids) (hp : p ≠ [])
    (hs : (ids.length : Int) + 1 < 9223372036854775808)
    (hb : (totalBytes heap ids : Int) + p.length < 9223372036854775808) :
    ∃ heap' l', PushBytesBack heap l p = some (heap', l') ∧
      Seq heap' l' (ids ++ [heap.length]) ∧
      chunks heap' (ids ++ [heap.length]) = chunks heap ids ++ [p] ∧ l'.bs = l.bs := by
  obtain ⟨h1, hfresh, htb, hcs⟩ := h.alloc { Buf := some p, next := none }
  have hn : (heap ++ [{ Buf := some p, next := none }])[heap.length]? =
      some { Buf := some p, next := none } := List.getElem?_concat_length _ _
  obtain ⟨heap', e, hsb, hseq⟩ := Seq.pushBack h1 hn rfl hfresh hs (by rw [htb]; exact hb)
  refine ⟨_, _, ?_, hseq, ?_, rfl⟩
  · simp only [PushBytesBack, len_ne_zero hp, ↓reduceIte, bytebuffer.Write, bytebuffer.Get,
      List.nil_append]
    exact e
  · rw [hsb.chunks]
    have e2 : chunks (heap ++ [{ Buf := some p, next := none }]) (ids ++ [heap.length]) =
        chunks (heap ++ [{ Buf := some p, next := none }]) ids ++
          [chunk (heap ++ [{ Buf := some p, next := none }]) heap.length] := by
      simp [chunks]
    rw [e2, chunk_of_buf hn rfl, hcs]

/-! ## The loops -/

theorem peekLoop_none (heap : Heap) (fuel : Nat) (acc : List (List Byte)) :
    peekLoop heap fuel none acc = some acc := by
  cases fuel <;> rfl

theorem peekLoop_spec {heap : Heap} : ∀ {ids : List Nat} {p : Option Nat} {fuel : Nat}
    {acc : List (List Byte)}, isChain heap p ids = true →
    (∀ i ∈ ids, hasChunk heap i = true) → ids.length ≤ fuel →
    peekLoop heap fuel p acc = some (acc ++ chunks heap ids) := by
  intro ids
  induction ids with
  | nil =>
    intro p fuel acc hc _ _
    rw [isChain_nil.mp hc, peekLoop_none]
    simp [chunks]
  | cons i ids ih =>
    intro p fuel acc hc hch hf
    obtain ⟨hp, node, hn, hc'⟩ := isChain_cons.mp hc
    obtain ⟨f, rfl⟩ : ∃ f, fuel = f + 1 := ⟨fuel - 1, by simp at hf; omega⟩
    have := hch i (List.mem_cons_self _ _)
    simp only [hasChunk, hn] at this
    obtain ⟨B, hB⟩ := Option.isSome_iff_exists.mp this
    subst hp
    have hck := chunk_of_buf hn hB
    simp only [peekLoop, hn, hB, Option.bind_eq_bind, Option.some_bind]
    rw [ih hc' (fun j hj => hch j (List.mem_cons_of_mem _ hj)) (by simp at hf; omega)]
    simp [chunks, hck]

theorem foldl_extras (bs : List (List Byte)) : ∀ (acc : List (List Byte)),
    bs.foldl (fun acc b => if len b > 0 then acc ++ [b] else acc) acc =
      acc ++ bs.filter (fun b => decide (b ≠ [])) := by
  induction bs with
  | nil => intro acc; simp
  | cons b bs ih =>
    intro acc
    rw [List.foldl_cons, ih]
    by_cases hb : b = []
    · subst hb
      simp [len]
    · have : len b > 0 := by
        have := len_ne_zero hb
        simp only [len] at this ⊢
        omega
      simp [this, hb]

end ListBuffer

namespace ListBuffer

theorem discardLoop_zero (fuel : Nat) (heap : Heap) (l : ListBuffer) :
    discardLoop (fuel + 1) heap l 0 = some (heap, l) := by
  simp [discardLoop]

theorem discardLoop_nil {fuel : Nat} {heap : Heap} {l : ListBuffer} {n : Int}
    (h : Seq heap l []) (hn0 : n ≠ 0) : discardLoop (fuel + 1) heap l n = some (heap, l) := by
  simp only [discardLoop, ne_eq, hn0, not_false_eq_true, ↓reduceIte, h.pop_nil,
    Option.bind_eq_bind, Option.some_bind]

/-- One round of the loop of `DiscardBytes` on a list with first node `i`. -/
theorem discardLoop_cons {fuel : Nat} {heap : Heap} {l : ListBuffer} {i : Nat}
    {rest : List Nat} {node : ByteBuffer} {B : List Byte} {n : Int}
    (h : Seq heap l (i :: rest)) (hn : heap[i]? = some node) (hB : node.Buf = some B)
    (hn0 : n ≠ 0) :
    discardLoop (fuel + 1) heap l n =
      if n < len B then
        (sliceFrom B n).bind (fun B' =>
          PushFront ((heap.set i { node with next := none }).set i
              { Buf := some B', next := none })
            (ListBuffer.mk l.bs rest.head? rest.getLast? rest.length (totalBytes heap rest))
            (some i))
      else
        discardLoop fuel (heap.set i { node with next := none })
          (ListBuffer.mk l.bs rest.head? rest.getLast? rest.length (totalBytes heap rest))
          (sub64 n (len B)) := by
  obtain ⟨node', hn', -, hpop, -⟩ := h.pop
  rw [hn] at hn'
  obtain rfl : node = node' := Option.some.inj hn'
  have hii : i < heap.length := (List.getElem?_eq_some_iff.mp hn).1
  obtain ⟨buf, nx⟩ := node
  simp only at hB
  subst hB
  have h1 : (heap.set i { Buf := some B, next := none })[i]? =
      some { Buf := some B, next := none } := List.getElem?_set_self hii
  have hne : ¬ (some B : Option (List Byte)) = none := by simp
  simp only [discardLoop, ne_eq, hn0, not_false_eq_true, ↓reduceIte, hpop,
    Option.bind_eq_bind, Option.some_bind, h1, ByteBuffer.Len, hne, bytebuffer.Len,
    Option.map_some']

theorem drop_flatten_part (B : List Byte) (r : List (List Byte)) {k : Nat}
    (hk : k ≤ B.length) : (B.drop k :: r).flatten = (B :: r).flatten.drop k := by
  simp only [List.flatten_cons]
  rw [List.drop_append_of_le_length hk]

theorem drop_flatten_whole (B : List Byte) (r : List (List Byte)) {k : Nat}
    (hk : B.length ≤ k) : r.flatten.drop (k - B.length) = (B :: r).flatten.drop k := by
  simp only [List.flatten_cons]
  rw [List.drop_append_eq_append_drop, List.drop_eq_nil_of_le hk, List.nil_append]

/-- The loop of `DiscardBytes` returns within `fuel` rounds when `fuel` exceeds the
number of nodes, and drops the first `n` bytes of the concatenated chunks. -/
theorem discardLoop_spec : ∀ (ids : List Nat) (heap : Heap) (l : ListBuffer) (n : Int)
    (fuel : Nat), Seq heap l ids → 0 ≤ n → n < 9223372036854775808 → ids.length < fuel →
    ∃ heap' l' ids', discardLoop fuel heap l n = some (heap', l') ∧ Seq heap' l' ids' ∧
      (chunks heap' ids').flatten = (chunks heap ids).flatten.drop n.toNat ∧
      l'.bs = l.bs ∧ heap'.length = heap.length ∧
      ((∀ c ∈ chunks heap ids, c ≠ []) → ∀ c ∈ chunks heap' ids', c ≠ []) := by
  intro ids
  induction ids with
  | nil =>
    intro heap l n fuel h h0 h63 hf
    obtain ⟨f, rfl⟩ : ∃ f, fuel = f + 1 := ⟨fuel - 1, by omega⟩
    refine ⟨heap, l, [], ?_, h, by simp [chunks], rfl, rfl, fun hc => hc⟩
    by_cases hn0 : n = 0
    · rw [hn0]; exact discardLoop_zero f heap l
    · exact discardLoop_nil h hn0
  | cons i rest ih =>
    intro heap l n fuel h h0 h63 hf
    obtain ⟨f, rfl⟩ : ∃ f, fuel = f + 1 := ⟨fuel - 1, by omega⟩
    by_cases hn0 : n = 0
    · refine ⟨heap, l, i :: rest, ?_, h, by simp [hn0], rfl, rfl, fun hc => hc⟩
      rw [hn0]; exact discardLoop_zero f heap l
    obtain ⟨node, B, hn, hB⟩ := h.node (List.mem_cons_self _ _)
    have hck := chunk_of_buf hn hB
    rw [discardLoop_cons h hn hB hn0]
    obtain ⟨node', hn', hi, -, hseq1⟩ := h.pop
    rw [hn] at hn'
    obtain rfl : node = node' := Option.some.inj hn'
    have hii : i < heap.length := (List.getElem?_eq_some_iff.mp hn).1
    have hcs1 : chunks (heap.set i { node with next := none }) rest = chunks heap rest :=
      chunks_congr (fun j hj => List.getElem?_set_ne (fun (e : i = j) => hi (by rw [e]; exact hj)))
    have hs63 := h.2.2.2.2.2.1
    have hb63 := h.2.2.2.2.2.2
    rw [h.2.2.2.1] at hs63
    rw [h.2.2.2.2.1, totalBytes_cons, hck] at hb63
    simp only [List.length_cons] at hs63 hf
    push_cast at hs63 hb63
    obtain ⟨k, hk⟩ : ∃ k : Nat, n = (k : Int) := ⟨n.toNat, by omega⟩
    subst hk
    simp only [Int.toNat_ofNat]
    have hcc : chunks heap (i :: rest) = B :: chunks heap rest := by
      simp [chunks, hck]
    by_cases hlt : (k : Int) < len B
    · have hkB : k < B.length := by simp only [len] at hlt; omega
      rw [if_pos hlt, sliceFrom_natCast (le_of_lt hkB), Option.some_bind]
      have hag2 : ∀ j ∈ rest, ((heap.set i { node with next := none }).set i
          { Buf := some (B.drop k), next := none })[j]? =
          (heap.set i { node with next := none })[j]? :=
        fun j hj => List.getElem?_set_ne (fun (e : i = j) => hi (by rw [e]; exact hj))
      have hseq2 := hseq1.frame hag2
      have hn2 : ((heap.set i { node with next := none }).set i
          { Buf := some (B.drop k), next := none })[i]? =
          some { Buf := some (B.drop k), next := none } :=
        List.getElem?_set_self (by rw [List.length_set]; exact hii)
      have htb2 : totalBytes ((heap.set i { node with next := none }).set i
          { Buf := some (B.drop k), next := none }) rest = totalBytes heap rest := by
        unfold totalBytes
        rw [chunks_congr hag2, hcs1]
      have hdl : (B.drop k).length ≤ B.length := by
        rw [List.length_drop]; omega
      obtain ⟨e, hseq3⟩ := Seq.pushFront hseq2 hn2 rfl hi (by omega)
        (by rw [htb2]; omega)
      have hsb3 := SameBufs.set
        (x := { ({ Buf := some (B.drop k), next := none } : ByteBuffer) with
          next := rest.head? }) hn2 rfl
      have hcs3 : chunks (((heap.set i { node with next := none }).set i
          { Buf := some (B.drop k), next := none }).set i
            { ({ Buf := some (B.drop k), next := none } : ByteBuffer) with
              next := rest.head? }) (i :: rest) = B.drop k :: chunks heap rest := by
        rw [hsb3.chunks]
        show chunk _ i :: chunks _ rest = _
        rw [chunk_of_buf hn2 rfl, chunks_congr hag2, hcs1]
      refine ⟨_, _, i :: rest, e, hseq3, ?_, rfl, ?_, ?_⟩
      · rw [hcs3, hcc]
        exact drop_flatten_part B _ (le_of_lt hkB)
      · simp only [List.length_set]
      · intro hne c hc
        rw [hcs3] at hc
        rw [hcc] at hne
        rcases List.mem_cons.mp hc with rfl | hc
        · intro e0
          have := congrArg List.length e0
          rw [List.length_drop, List.length_nil] at this
          omega
        · exact hne c (List.mem_cons_of_mem _ hc)
    · have hkB : B.length ≤ k := by simp only [len] at hlt; omega
      rw [if_neg hlt]
      have hsub : sub64 (k : Int) (len B) = ((k - B.length : Nat) : Int) := by
        rw [sub64_eq] <;> simp only [len] <;> omega
      rw [hsub]
      obtain ⟨heap', l', ids', e, hseq', hfl, hbs, hlen, hne'⟩ :=
        ih (heap.set i { node with next := none }) _ ((k - B.length : Nat) : Int) f hseq1
          (by omega) (by omega) (by omega)
      refine ⟨heap', l', ids', e, hseq', ?_, hbs, ?_, ?_⟩
      · rw [hfl, hcs1, hcc, Int.toNat_ofNat]
        exact drop_flatten_whole B _ hkB
      · rw [hlen, List.length_set]
      · intro hne
        apply hne'
        rw [hcs1]
        rw [hcc] at hne
        exact fun c hc => hne c (List.mem_cons_of_mem _ hc)

theorem resetLoop_spec : ∀ (ids : List Nat) (heap : Heap) (l : ListBuffer) (fuel : Nat),
    Seq heap l ids → ids.length < fuel →
    ∃ heap' l', resetLoop fuel heap l = some (heap', l') ∧ Seq heap' l' [] ∧
      SameBufs heap heap' := by
  intro ids
  induction ids with
  | nil =>
    intro heap l fuel h hf
    obtain ⟨f, rfl⟩ : ∃ f, fuel = f + 1 := ⟨fuel - 1, by omega⟩
    refine ⟨heap, l, ?_, h, SameBufs.refl heap⟩
    simp only [resetLoop, h.pop_nil, Option.bind_eq_bind, Option.some_bind]
  | cons i rest ih =>
    intro heap l fuel h hf
    obtain ⟨f, rfl⟩ : ∃ f, fuel = f + 1 := ⟨fuel - 1, by omega⟩
    obtain ⟨node, hn, hi, hpop, hseq1⟩ := h.pop
    obtain ⟨heap', l', e, hseq', hsb⟩ := ih _ _ f hseq1 (by simp at hf; omega)
    refine ⟨heap', l', ?_, hseq', (SameBufs.set (x := { node with next := none }) hn rfl).trans hsb⟩
    simp only [resetLoop, hpop, Option.bind_eq_bind, Option.some_bind, e]

end ListBuffer

namespace ListBuffer

theorem Seq.with_bs {heap : Heap} {l : ListBuffer} {ids : List Nat} (h : Seq heap l ids)
    (bs : List (List Byte)) : Seq heap { l with bs := bs } ids := h

theorem Seq.zero (heap : Heap) (bs : List (List Byte)) :
    Seq heap (ListBuffer.mk bs none none 0 0) [] :=
  ⟨rfl, rfl, fun i hi => absurd hi (List.not_mem_nil i), rfl, rfl,
    show (0 : Int) < 9223372036854775808 by decide,
    show (0 : Int) < 9223372036854775808 by decide⟩

/-- `DiscardBytes` on a list of nodes `ids`. -/
theorem DiscardBytes_spec {heap : Heap} {l : ListBuffer} {ids : List Nat} {n : Int}
    (h : Seq heap l ids) (h0 : 0 < n) (h63 : n < 9223372036854775808) :
    ∃ heap' l' ids', DiscardBytes heap l n = some (heap', l') ∧ Seq heap' l' ids' ∧
      (chunks heap' ids').flatten = (chunks heap ids).flatten.drop n.toNat ∧
      l'.bs = l.bs ∧ heap'.length = heap.length ∧
      ((∀ c ∈ chunks heap ids, c ≠ []) → ∀ c ∈ chunks heap' ids', c ≠ []) := by
  have hf : ids.length < heap.length + 1 := Nat.lt_succ_of_le (isChain_length_le h.1)
  obtain ⟨heap', l', ids', e, r⟩ :=
    discardLoop_spec ids heap l n (heap.length + 1) h (le_of_lt h0) h63 hf
  refine ⟨heap', l', ids', ?_, r⟩
  have hn : ¬ n ≤ 0 := by omega
  simp only [DiscardBytes, hn, ↓reduceIte, e]

theorem Reset_spec {heap : Heap} {l : ListBuffer} {ids : List Nat} (h : Seq heap l ids) :
    ∃ heap', Reset heap l = some (heap', ListBuffer.mk [] none none 0 0) ∧
      heap'.length = heap.length := by
  have hf : ids.length < heap.length + 1 := Nat.lt_succ_of_le (isChain_length_le h.1)
  obtain ⟨heap', l', e, -, hsb⟩ := resetLoop_spec ids heap l (heap.length + 1) h hf
  refine ⟨heap', ?_, hsb.1⟩
  simp only [Reset, e, Option.bind_eq_bind, Option.some_bind]

theorem PeekBytesListWithBytes_spec {heap : Heap} {l : ListBuffer} {ids : List Nat}
    (h : Seq heap l ids) (extras : List (List Byte)) :
    PeekBytesListWithBytes heap l extras =
      some ({ l with bs := extras.filter (fun b => decide (b ≠ [])) ++ chunks heap ids },
        extras.filter (fun b => decide (b ≠ [])) ++ chunks heap ids) := by
  have hp := @peekLoop_spec heap ids l.head heap.length
    (extras.filter (fun b => decide (b ≠ []))) h.1 h.2.2.1 (isChain_length_le h.1)
  simp only [PeekBytesListWithBytes, foldl_extras, List.nil_append, hp, Option.bind_eq_bind,
    Option.some_bind]

theorem PeekBytesList_spec {heap : Heap} {l : ListBuffer} {ids : List Nat}
    (h : Seq heap l ids) :
    PeekBytesList heap l = some ({ l with bs := chunks heap ids }, chunks heap ids) := by
  have hp := @peekLoop_spec heap ids l.head heap.length [] h.1 h.2.2.1
    (isChain_length_le h.1)
  simp only [PeekBytesList, hp, Option.bind_eq_bind, Option.some_bind, List.nil_append]

/-- Every reachable list is a sequence of nodes with matching counters. -/
theorem Reachable.seq {heap : Heap} {l : ListBuffer} (h : Reachable heap l) :
    ∃ ids, Seq heap l ids := by
  induction h with
  | zero => exact ⟨[], Seq.zero [] []⟩
  | caller heap l heap' ids' _ hc hag ih =>
    obtain ⟨ids, hs⟩ := ih
    obtain rfl := isChain_unique hs.1 hc
    exact ⟨ids, hs.frame hag⟩
  | pushFront heap l b heap' l' _ hp he ih =>
    obtain ⟨ids, hs⟩ := ih
    rcases hp with rfl | ⟨i, node, B, ids', rfl, hn, hB, hc, hi, h1, h2⟩
    · simp only [PushFront, Option.some.injEq, Prod.mk.injEq] at he
      obtain ⟨rfl, rfl⟩ := he
      exact ⟨ids, hs⟩
    · obtain rfl := isChain_unique hs.1 hc
      rw [hs.2.2.2.1] at h1
      rw [hs.2.2.2.2.1] at h2
      obtain ⟨e, hseq⟩ := Seq.pushFront hs hn hB hi h1 h2
      rw [e] at he
      simp only [Option.some.injEq, Prod.mk.injEq] at he
      obtain ⟨rfl, rfl⟩ := he
      exact ⟨_, hseq⟩
  | pushBack heap l b heap' l' _ hp he ih =>
    obtain ⟨ids, hs⟩ := ih
    rcases hp with rfl | ⟨i, node, B, ids', rfl, hn, hB, hc, hi, h1, h2⟩
    · simp only [PushBack, Option.some.injEq, Prod.mk.injEq] at he
      obtain ⟨rfl, rfl⟩ := he
      exact ⟨ids, hs⟩
    · obtain rfl := isChain_unique hs.1 hc
      rw [hs.2.2.2.1] at h1
      rw [hs.2.2.2.2.1] at h2
      obtain ⟨heap'', e, -, hseq⟩ := Seq.pushBack hs hn hB hi h1 h2
      rw [e] at he
      simp only [Option.some.injEq, Prod.mk.injEq] at he
      obtain ⟨rfl, rfl⟩ := he
      exact ⟨_, hseq⟩
  | pushBytesFront heap l p heap' l' _ h1 h2 he ih =>
    obtain ⟨ids, hs⟩ := ih
    by_cases hp : p = []
    · subst hp
      simp only [PushBytesFront, len, List.length_nil, Nat.cast_zero, ↓reduceIte,
        Option.some.injEq, Prod.mk.injEq] at he
      obtain ⟨rfl, rfl⟩ := he
      exact ⟨ids, hs⟩
    · rw [hs.2.2.2.1] at h1
      rw [hs.2.2.2.2.1] at h2
      obtain ⟨heap'', l'', e, hseq, -, -⟩ := Seq.pushBytesFront hs hp h1 h2
      rw [e] at he
      simp only [Option.some.injEq, Prod.mk.injEq] at he
      obtain ⟨rfl, rfl⟩ := he
      exact ⟨_, hseq⟩
  | pushBytesBack heap l p heap' l' _ h1 h2 he ih =>
    obtain ⟨ids, hs⟩ := ih
    by_cases hp : p = []
    · subst hp
      simp only [PushBytesBack, len, List.length_nil, Nat.cast_zero, ↓reduceIte,
        Option.some.injEq, Prod.mk.injEq] at he
      obtain ⟨rfl, rfl⟩ := he
      exact ⟨ids, hs⟩
    · rw [hs.2.2.2.1] at h1
      rw [hs.2.2.2.2.1] at h2
      obtain ⟨heap'', l'', e, hseq, -, -⟩ := Seq.pushBytesBack hs hp h1 h2
      rw [e] at he
      simp only [Option.some.injEq, Prod.mk.injEq] at he
      obtain ⟨rfl, rfl⟩ := he
      exact ⟨_, hseq⟩
  | pop heap l heap' l' b _ he ih =>
    obtain ⟨ids, hs⟩ := ih
    cases ids with
    | nil =>
      rw [hs.pop_nil] at he
      simp only [Option.some.injEq, Prod.mk.injEq] at he
      obtain ⟨rfl, rfl, -⟩ := he
      exact ⟨[], hs⟩
    | cons i rest =>
      obtain ⟨node, -, -, e, hseq⟩ := hs.pop
      rw [e] at he
      simp only [Option.some.injEq, Prod.mk.injEq] at he
      obtain ⟨rfl, rfl, -⟩ := he
      exact ⟨rest, hseq⟩
  | peekBytesList heap l l' out _ he ih =>
    obtain ⟨ids, hs⟩ := ih
    rw [PeekBytesList_spec hs] at he
    simp only [Option.some.injEq, Prod.mk.injEq] at he
    obtain ⟨rfl, -⟩ := he
    exact ⟨ids, hs.with_bs _⟩
  | peekBytesListWithBytes heap l bs l' out _ he ih =>
    obtain ⟨ids, hs⟩ := ih
    rw [PeekBytesListWithBytes_spec hs] at he
    simp only [Option.some.injEq, Prod.mk.injEq] at he
    obtain ⟨rfl, -⟩ := he
    exact ⟨ids, hs.with_bs _⟩
  | discardBytes heap l n heap' l' _ hn he ih =>
    obtain ⟨ids, hs⟩ := ih
    by_cases h0 : n ≤ 0
    · simp only [DiscardBytes, h0, ↓reduceIte, Option.some.injEq, Prod.mk.injEq] at he
      obtain ⟨rfl, rfl⟩ := he
      exact ⟨ids, hs⟩
    · obtain ⟨heap'', l'', ids', e, hseq, -⟩ := DiscardBytes_spec hs (by omega) hn.2
      rw [e] at he
      simp only [Option.some.injEq, Prod.mk.injEq] at he
      obtain ⟨rfl, rfl⟩ := he
      exact ⟨ids', hseq⟩
  | reset heap l heap' l' _ he ih =>
    obtain ⟨ids, hs⟩ := ih
    obtain ⟨heap'', e, -⟩ := Reset_spec hs
    rw [e] at he
    simp only [Option.some.injEq, Prod.mk.injEq] at he
    obtain ⟨rfl, rfl⟩ := he
    exact ⟨[], Seq.zero _ _⟩

end ListBuffer

theorem hasChunk_iff {heap : Heap} {i : Nat} :
    hasChunk heap i = true ↔ ∃ node B, heap[i]? = some node ∧ node.Buf = some B := by
  unfold hasChunk
  constructor
  · intro h
    cases hn : heap[i]? with
    | none => simp [hn] at h
    | some node =>
      cases hB : node.Buf with
      | none => simp [hn, hB] at h
      | some B => exact ⟨node, B, rfl, hB⟩
  · rintro ⟨node, B, hn, hB⟩
    simp [hn, hB]

namespace ListBuffer

/-- `PushBack` of several nodes appends them in the order given. -/
theorem pushBackAll_spec : ∀ (js : List Nat) (heap : Heap) (l : ListBuffer) (ids : List Nat),
    Seq heap l ids → js.Nodup → (∀ j ∈ js, hasChunk heap j = true ∧ j ∉ ids) →
    ((ids ++ js).length : Int) < 9223372036854775808 →
    (totalBytes heap (ids ++ js) : Int) < 9223372036854775808 →
    ∃ heap' l', pushBackAll heap l js = some (heap', l') ∧ Seq heap' l' (ids ++ js) ∧
      SameBufs heap heap' := by
  intro js
  induction js with
  | nil =>
    intro heap l ids h _ _ _ _
    exact ⟨heap, l, rfl, by rw [List.append_nil]; exact h, SameBufs.refl heap⟩
  | cons j js ih =>
    intro heap l ids h hnd hjs hs hb
    obtain ⟨hj, hji⟩ := hjs j (List.mem_cons_self _ _)
    obtain ⟨node, B, hn, hB⟩ := hasChunk_iff.mp hj
    have hck := chunk_of_buf hn hB
    have hassoc : ids ++ j :: js = (ids ++ [j]) ++ js := by simp
    simp only [List.length_append, List.length_cons] at hs
    rw [totalBytes_append, totalBytes_cons, hck] at hb
    push_cast at hs hb
    obtain ⟨heap1, e1, hsb1, hseq1⟩ := Seq.pushBack h hn hB hji (by omega) (by omega)
    have hnd' := List.nodup_cons.mp hnd
    obtain ⟨heap', l', e2, hseq', hsb'⟩ := ih heap1 _ (ids ++ [j]) hseq1 hnd'.2
      (fun k hk => ⟨by rw [hsb1.hasChunk]; exact (hjs k (List.mem_cons_of_mem _ hk)).1,
        fun hm => by
          rcases List.mem_append.mp hm with hm | hm
          · exact (hjs k (List.mem_cons_of_mem _ hk)).2 hm
          · obtain rfl : k = j := by simpa using hm
            exact hnd'.1 hk⟩)
      (by simp only [List.length_append, List.length_cons, List.length_nil]; push_cast; omega)
      (by
        have h1 : totalBytes heap [j] = B.length := by
          rw [totalBytes_cons, hck]
          simp [totalBytes, chunks]
        rw [hsb1.totalBytes, totalBytes_append, totalBytes_append, h1]
        push_cast
        omega)
    refine ⟨heap', l', ?_, by rw [hassoc]; exact hseq', hsb1.trans hsb'⟩
    simp only [pushBackAll, e1, Option.bind_eq_bind, Option.some_bind, e2]

/-- `Pop` called once per node returns the nodes head first and empties the list. -/
theorem popN_spec : ∀ (ids : List Nat) (heap : Heap) (l : ListBuffer), Seq heap l ids →
    ∃ heap' l', popN ids.length heap l = some (heap', l', ids.map some) ∧ Seq heap' l' [] ∧
      SameBufs heap heap' := by
  intro ids
  induction ids with
  | nil => intro heap l h; exact ⟨heap, l, rfl, h, SameBufs.refl heap⟩
  | cons i rest ih =>
    intro heap l h
    obtain ⟨node, hn, -, e, hseq⟩ := h.pop
    obtain ⟨heap', l', e', hseq', hsb'⟩ := ih _ _ hseq
    refine ⟨heap', l', ?_, hseq',
      (SameBufs.set (x := { node with next := none }) hn rfl).trans hsb'⟩
    simp only [List.length_cons, popN, e, Option.bind_eq_bind, Option.some_bind, e',
      List.map_cons]

theorem Seq.head_pos {heap : Heap} {l : ListBuffer} {ids : List Nat} (h : Seq heap l ids)
    (hne : ∀ c ∈ chunks heap ids, c ≠ []) :
    l.IsEmpty = true ∨ ∃ i, l.head = some i ∧ 0 < len (chunk heap i) := by
  have hh := isChain_head h.1
  cases ids with
  | nil =>
    left
    simp only [IsEmpty, hh, List.head?_nil, decide_True]
  | cons i rest =>
    right
    refine ⟨i, hh, ?_⟩
    have := hne (chunk heap i) (by simp [chunks])
    simp only [len]
    have := List.length_pos.mpr this
    omega

end ListBuffer

namespace ListBuffer

/-! ## The claims about `ListBuffer` -/

/-- C11. On a list whose counters match its nodes `ids`, `DiscardBytes(n)` with
`n > 0` returns and leaves a list whose counters match its nodes, the concatenation
of whose chunks is the prior concatenation without its first `min(n, priorBytes)`
bytes, and `Bytes() == max(0, priorBytes - n)`; with `n <= 0` the list and the nodes
are unchanged. -/
theorem C11_DiscardBytes (heap : Heap) (l : ListBuffer) (ids : List Nat) (n : Int)
    (h : Seq heap l ids) (hn : IsInt64 n) :
    (0 < n → ∃ heap' l' ids', DiscardBytes heap l n = some (heap', l') ∧
        Seq heap' l' ids' ∧
        (chunks heap' ids').flatten =
          (chunks heap ids).flatten.drop (min n.toNat l.Bytes.toNat) ∧
        l'.Bytes = max 0 (l.Bytes - n)) ∧
    (n ≤ 0 → DiscardBytes heap l n = some (heap, l)) := by
  constructor
  · intro h0
    obtain ⟨heap', l', ids', e, hseq, hfl, -, -, -⟩ := DiscardBytes_spec h h0 hn.2
    have hT : l.Bytes = ((chunks heap ids).flatten.length : Int) := by
      rw [← totalBytes_eq_length]; exact h.2.2.2.2.1
    have hT' : l'.Bytes = ((chunks heap' ids').flatten.length : Int) := by
      rw [← totalBytes_eq_length]; exact hseq.2.2.2.2.1
    obtain ⟨k, hk⟩ : ∃ k : Nat, n = (k : Int) := ⟨n.toNat, by omega⟩
    subst hk
    simp only [Int.toNat_ofNat] at hfl
    refine ⟨heap', l', ids', e, hseq, ?_, ?_⟩
    · rw [hfl, hT, Int.toNat_ofNat, Int.toNat_ofNat]
      by_cases hle : k ≤ (chunks heap ids).flatten.length
      · rw [min_eq_left hle]
      · rw [min_eq_right (by omega), List.drop_length,
          List.drop_eq_nil_of_le (by omega)]
    · rw [hT', hfl, hT, List.length_drop]
      omega
  · intro h0
    simp only [DiscardBytes, h0, ↓reduceIte]

theorem C11_DiscardBytes_witness :
    ∃ heap' l' ids',
      DiscardBytes [⟨some [97, 98], some 1⟩, ⟨some [99, 100], none⟩]
        (ListBuffer.mk [] (some 0) (some 1) 2 4) 3 = some (heap', l') ∧
      Seq heap' l' ids' ∧
      (chunks heap' ids').flatten =
        (chunks [⟨some [97, 98], some 1⟩, ⟨some [99, 100], none⟩] [0, 1]).flatten.drop
          (min (3 : Int).toNat (ListBuffer.mk [] (some 0) (some 1) 2 4).Bytes.toNat) ∧
      l'.Bytes = max 0 ((ListBuffer.mk [] (some 0) (some 1) 2 4).Bytes - 3) :=
  (C11_DiscardBytes [⟨some [97, 98], some 1⟩, ⟨some [99, 100], none⟩]
    (ListBuffer.mk [] (some 0) (some 1) 2 4) [0, 1] 3 (by decide)
    ⟨by decide, by decide⟩).1 (by decide)

/-- C12. In every reachable state the nodes reachable from `head` form a sequence
`ids`, each of them owns a chunk, `Bytes()` is the sum of their chunk lengths and
`Len()` is their number. -/
theorem C12_counters (heap : Heap) (l : ListBuffer) (h : Reachable heap l) :
    ∃ ids, isChain heap l.head ids = true ∧ (∀ i ∈ ids, hasChunk heap i = true) ∧
      l.Bytes = (totalBytes heap ids : Int) ∧ l.Len = (ids.length : Int) := by
  obtain ⟨ids, hs⟩ := h.seq
  exact ⟨ids, hs.1, hs.2.2.1, hs.2.2.2.2.1, hs.2.2.2.1⟩

theorem C12_counters_witness :
    ∃ ids, isChain [⟨some [97, 98], some 1⟩, ⟨some [99, 100], none⟩]
        (ListBuffer.mk [] (some 0) (some 1) 2 4).head ids = true ∧
      (∀ i ∈ ids, hasChunk [⟨some [97, 98], some 1⟩, ⟨some [99, 100], none⟩] i = true) ∧
      (ListBuffer.mk [] (some 0) (some 1) 2 4).Bytes =
        (totalBytes [⟨some [97, 98], some 1⟩, ⟨some [99, 100], none⟩] ids : Int) ∧
      (ListBuffer.mk [] (some 0) (some 1) 2 4).Len = (ids.length : Int) :=
  C12_counters [⟨some [97, 98], some 1⟩, ⟨some [99, 100], none⟩]
    (ListBuffer.mk [] (some 0) (some 1) 2 4)
    (Reachable.pushBytesBack [⟨some [97, 98], none⟩] (ListBuffer.mk [] (some 0) (some 0) 1 2)
      [99, 100] _ _
      (Reachable.pushBytesBack [] zero [97, 98] _ _ Reachable.zero (by decide) (by decide)
        (by decide))
      (by decide) (by decide) (by decide))

/-- C13. On a list of nodes `ids`, `PeekBytesListWithBytes(extras...)` returns the
non-empty extras in their order followed by the chunks of the nodes from head to
tail; the nodes are not written, the list still consists of the nodes `ids`, and
`Len()` and `Bytes()` are unchanged; `PeekBytesList()` is `PeekBytesListWithBytes()`
without extras. -/
theorem C13_PeekBytesListWithBytes (heap : Heap) (l : ListBuffer) (ids : List Nat)
    (extras : List (List Byte)) (h : Seq heap l ids) :
    (∃ l', PeekBytesListWithBytes heap l extras =
        some (l', extras.filter (fun b => decide (b ≠ [])) ++ chunks heap ids) ∧
      Seq heap l' ids ∧ l'.Len = l.Len ∧ l'.Bytes = l.Bytes) ∧
    PeekBytesList heap l = PeekBytesListWithBytes heap l [] ∧
    (PeekBytesList heap l).map Prod.snd = some (chunks heap ids) := by
  refine ⟨⟨_, PeekBytesListWithBytes_spec h extras, h.with_bs _, rfl, rfl⟩, ?_, ?_⟩
  · rw [PeekBytesList_spec h, PeekBytesListWithBytes_spec h]
    simp only [List.filter_nil, List.nil_append]
  · rw [PeekBytesList_spec h]
    rfl

theorem C13_PeekBytesListWithBytes_witness :
    ∃ l', PeekBytesListWithBytes [⟨some [97, 98], some 1⟩, ⟨some [99, 100], none⟩]
        (ListBuffer.mk [] (some 0) (some 1) 2 4) [[88]] =
        some (l', [[88]].filter (fun b => decide (b ≠ [])) ++
          chunks [⟨some [97, 98], some 1⟩, ⟨some [99, 100], none⟩] [0, 1]) ∧
      Seq [⟨some [97, 98], some 1⟩, ⟨some [99, 100], none⟩] l' [0, 1] ∧
      l'.Len = (ListBuffer.mk [] (some 0) (some 1) 2 4).Len ∧
      l'.Bytes = (ListBuffer.mk [] (some 0) (some 1) 2 4).Bytes :=
  (C13_PeekBytesListWithBytes [⟨some [97, 98], some 1⟩, ⟨some [99, 100], none⟩]
    (ListBuffer.mk [] (some 0) (some 1) 2 4) [0, 1] [[88]] (by decide)).1

end ListBuffer

namespace ListBuffer

/-- C14. Let the list consist of the nodes `ids`, head first.  `PushBack(b)` of a
node that may be pushed leaves the nodes `ids ++ [b]`; `PushFront(b)` leaves
`b :: ids`, and a `Pop()` after it returns `b` and restores the list with its
counters and the sequence `ids`; `Pop()` on a list `i :: rest` returns `i` and
leaves `rest`, and on the empty list returns nil and changes nothing; pushing nil
changes nothing; and after `PushBack` of the nodes `js` one after the other, as
many calls of `Pop()` as there are nodes return `ids ++ js` in this order.  No
call changes the chunk of any node. -/
theorem C14_sequence (heap : Heap) (l : ListBuffer) (ids : List Nat) (h : Seq heap l ids) :
    (∀ i, Pushable heap l (some i) →
      ∃ heap' l', PushBack heap l (some i) = some (heap', l') ∧ Seq heap' l' (ids ++ [i]) ∧
        SameBufs heap heap') ∧
    (∀ i, Pushable heap l (some i) →
      ∃ heap' l', PushFront heap l (some i) = some (heap', l') ∧ Seq heap' l' (i :: ids) ∧
        SameBufs heap heap' ∧
        ∃ heap'', Pop heap' l' = some (heap'', l, some i) ∧ Seq heap'' l ids ∧
          SameBufs heap heap'') ∧
    (∀ i rest, ids = i :: rest →
      ∃ heap' l', Pop heap l = some (heap', l', some i) ∧ Seq heap' l' rest ∧
        SameBufs heap heap') ∧
    (ids = [] → Pop heap l = some (heap, l, none)) ∧
    PushFront heap l none = some (heap, l) ∧ PushBack heap l none = some (heap, l) ∧
    (∀ js : List Nat, js.Nodup → (∀ j ∈ js, hasChunk heap j = true ∧ j ∉ ids) →
      ((ids ++ js).length : Int) < 9223372036854775808 →
      (totalBytes heap (ids ++ js) : Int) < 9223372036854775808 →
      ∃ heap1 l1 heap2 l2, pushBackAll heap l js = some (heap1, l1) ∧
        Seq heap1 l1 (ids ++ js) ∧
        popN (ids ++ js).length heap1 l1 = some (heap2, l2, (ids ++ js).map some) ∧
        Seq heap2 l2 [] ∧ SameBufs heap heap2) := by
  have hpush : ∀ i, Pushable heap l (some i) → ∃ node B, heap[i]? = some node ∧
      node.Buf = some B ∧ i ∉ ids ∧ (ids.length : Int) + 1 < 9223372036854775808 ∧
      (totalBytes heap ids : Int) + B.length < 9223372036854775808 := by
    intro i hp
    rcases hp with hp | ⟨i', node, B, ids', hi, hn, hB, hc, hni, h1, h2⟩
    · exact absurd hp (by simp)
    · obtain rfl : i = i' := Option.some.inj hi
      obtain rfl := isChain_unique h.1 hc
      rw [h.2.2.2.1] at h1
      rw [h.2.2.2.2.1] at h2
      exact ⟨node, B, hn, hB, hni, h1, h2⟩
  refine ⟨fun i hp => ?_, fun i hp => ?_, fun i rest hi => ?_, fun hi => ?_, rfl, rfl,
    fun js hnd hjs hs hb => ?_⟩
  · obtain ⟨node, B, hn, hB, hni, h1, h2⟩ := hpush i hp
    obtain ⟨heap', e, hsb, hseq⟩ := Seq.pushBack h hn hB hni h1 h2
    exact ⟨heap', _, e, hseq, hsb⟩
  · obtain ⟨node, B, hn, hB, hni, h1, h2⟩ := hpush i hp
    obtain ⟨e, hseq⟩ := Seq.pushFront h hn hB hni h1 h2
    have hsb := SameBufs.set (x := { node with next := ids.head? }) hn rfl
    obtain ⟨node2, hn2, -, e2, hseq2⟩ := hseq.pop
    have hsb2 := hsb.trans (SameBufs.set (x := { node2 with next := none }) hn2 rfl)
    have hl : ListBuffer.mk l.bs ids.head? ids.getLast? ids.length
        (totalBytes (heap.set i { node with next := ids.head? }) ids) = l := by
      rw [hsb.totalBytes]
      exact h.eq.symm
    simp only [hl] at e2 hseq2
    exact ⟨_, _, e, hseq, hsb, _, e2, hseq2, hsb2⟩
  · subst hi
    obtain ⟨node, hn, -, e, hseq⟩ := h.pop
    exact ⟨_, _, e, hseq, SameBufs.set (x := { node with next := none }) hn rfl⟩
  · subst hi
    exact h.pop_nil
  · obtain ⟨heap1, l1, e1, hseq1, hsb1⟩ := pushBackAll_spec js heap l ids h hnd hjs hs hb
    obtain ⟨heap2, l2, e2, hseq2, hsb2⟩ := popN_spec (ids ++ js) heap1 l1 hseq1
    exact ⟨heap1, l1, heap2, l2, e1, hseq1, e2, hseq2, hsb1.trans hsb2⟩

theorem C14_sequence_witness :
    ∃ heap' l', Pop [⟨some [97, 98], some 1⟩, ⟨some [99, 100], none⟩]
        (ListBuffer.mk [] (some 0) (some 1) 2 4) = some (heap', l', some 0) ∧
      Seq heap' l' [1] ∧
      SameBufs [⟨some [97, 98], some 1⟩, ⟨some [99, 100], none⟩] heap' :=
  (C14_sequence [⟨some [97, 98], some 1⟩, ⟨some [99, 100], none⟩]
    (ListBuffer.mk [] (some 0) (some 1) 2 4) [0, 1] (by decide)).2.2.1 0 [1] rfl

/-- C15, as stated, fails: after `PushBack` of a node with the chunk `"ab"` and of a
node with an empty chunk, `DiscardBytes(2)` leaves a list that is not empty and
whose head node has a chunk of length `0`. -/
theorem C15_counterexample :
    Reachable [⟨some [97, 98], some 1⟩, ⟨some [], none⟩]
        (ListBuffer.mk [] (some 0) (some 1) 2 2) ∧
      DiscardBytes [⟨some [97, 98], some 1⟩, ⟨some [], none⟩]
        (ListBuffer.mk [] (some 0) (some 1) 2 2) 2 =
        some ([⟨some [97, 98], none⟩, ⟨some [], none⟩],
          ListBuffer.mk [] (some 1) (some 1) 1 0) ∧
      (ListBuffer.mk [] (some 1) (some 1) 1 0).IsEmpty = false ∧
      (ListBuffer.mk [] (some 1) (some 1) 1 0).head = some 1 ∧
      len (chunk [⟨some [97, 98], none⟩, ⟨some [], none⟩] 1) = 0 := by
  refine ⟨?_, by decide, by decide, rfl, by decide⟩
  have r0 : Reachable [⟨some [97, 98], none⟩, ⟨some [], none⟩] zero :=
    Reachable.caller [] zero _ [] Reachable.zero (by decide) (by decide)
  have r1 : Reachable [⟨some [97, 98], none⟩, ⟨some [], none⟩]
      (ListBuffer.mk [] (some 0) (some 0) 1 2) :=
    Reachable.pushBack _ _ (some 0) _ _ r0
      (Or.inr ⟨0, ⟨some [97, 98], none⟩, [97, 98], [], rfl, rfl, rfl, by decide, by decide,
        by decide, by decide⟩)
      (by decide)
  exact Reachable.pushBack _ _ (some 1) _ _ r1
    (Or.inr ⟨1, ⟨some [], none⟩, [], [0], rfl, rfl, rfl, by decide, by decide,
      by decide, by decide⟩)
    (by decide)

/-- C15, amended. On a reachable list in which every node has a non-empty chunk,
and for every 64-bit `n`, `DiscardBytes(n)` returns and leaves a list that is empty
or whose head node has a chunk of strictly positive length. -/
theorem C15_DiscardBytes_head (heap : Heap) (l : ListBuffer) (ids : List Nat) (n : Int)
    (hr : Reachable heap l) (hc : isChain heap l.head ids = true)
    (hne : ∀ i ∈ ids, chunk heap i ≠ []) (hn : IsInt64 n) :
    ∃ heap' l', DiscardBytes heap l n = some (heap', l') ∧
      (l'.IsEmpty = true ∨ ∃ i, l'.head = some i ∧ 0 < len (chunk heap' i)) := by
  obtain ⟨ids', h⟩ := hr.seq
  obtain rfl := isChain_unique h.1 hc
  have hne' : ∀ c ∈ chunks heap ids', c ≠ [] := by
    intro c hcm
    obtain ⟨i, hi, rfl⟩ := List.mem_map.mp hcm
    exact hne i hi
  by_cases h0 : n ≤ 0
  · exact ⟨heap, l, by simp only [DiscardBytes, h0, ↓reduceIte], h.head_pos hne'⟩
  · obtain ⟨heap', l', ids'', e, hseq, -, -, -, hne''⟩ :=
      DiscardBytes_spec h (by omega) hn.2
    exact ⟨heap', l', e, hseq.head_pos (hne'' hne')⟩

theorem C15_DiscardBytes_head_witness :
    ∃ heap' l', DiscardBytes [⟨some [97, 98], some 1⟩, ⟨some [99, 100], none⟩]
        (ListBuffer.mk [] (some 0) (some 1) 2 4) 3 = some (heap', l') ∧
      (l'.IsEmpty = true ∨ ∃ i, l'.head = some i ∧ 0 < len (chunk heap' i)) :=
  C15_DiscardBytes_head [⟨some [97, 98], some 1⟩, ⟨some [99, 100], none⟩]
    (ListBuffer.mk [] (some 0) (some 1) 2 4) [0, 1] 3
    (Reachable.pushBytesBack [⟨some [97, 98], none⟩] (ListBuffer.mk [] (some 0) (some 0) 1 2)
      [99, 100] _ _
      (Reachable.pushBytesBack [] zero [97, 98] _ _ Reachable.zero (by decide) (by decide)
        (by decide))
      (by decide) (by decide) (by decide))
    (by decide) (by decide) ⟨by decide, by decide⟩

end ListBuffer

/-! ## `IsPowerOfTwo` on all 64-bit integers -/

theorem testBit_of_range {x k : Nat} (h1 : 2 ^ k ≤ x) (h2 : x < 2 ^ (k + 1)) :
    x.testBit k = true := by
  by_contra hc
  have hf : x.testBit k = false := by simpa using hc
  have : x < 2 ^ k := by
    apply Nat.lt_pow_two_of_testBit
    intro i hi
    rcases Nat.eq_or_lt_of_le hi with rfl | hlt
    · exact hf
    · apply Nat.testBit_lt_two_pow
      exact lt_of_lt_of_le h2 (Nat.pow_le_pow_right (by norm_num) hlt)
  omega

theorem land_pred_eq_zero_iff {m : Nat} (hm : 0 < m) :
    m &&& (m - 1) = 0 ↔ ∃ k : Nat, m = 2 ^ k := by
  constructor
  · intro h
    obtain ⟨k, hk, hhi⟩ := Nat.exists_most_significant_bit (Nat.pos_iff_ne_zero.mp hm)
    have hge : 2 ^ k ≤ m := Nat.testBit_implies_ge hk
    have hlt : m < 2 ^ (k + 1) := by
      apply Nat.lt_pow_two_of_testBit
      intro i hi
      exact hhi i (by omega)
    refine ⟨k, ?_⟩
    by_contra hne
    have h1 : (m - 1).testBit k = true := testBit_of_range (by omega) (by omega)
    have h2 : (m &&& (m - 1)).testBit k = true := by
      rw [Nat.testBit_and, hk, h1]; rfl
    rw [h] at h2
    simp at h2
  · rintro ⟨k, rfl⟩
    apply Nat.eq_of_testBit_eq
    intro i
    rw [Nat.testBit_and, Nat.testBit_two_pow, Nat.testBit_two_pow_sub_one, Nat.zero_testBit]
    by_cases hik : k = i
    · subst hik; simp
    · simp [hik]

/-- The 64-bit integers on which `IsPowerOfTwo` answers true: the powers of two,
`0`, and the least integer. -/
theorem IsPowerOfTwo_iff (n : Int) (hn : IsInt64 n) :
    IsPowerOfTwo n = true ↔ (IsPow2 n ∨ n = 0 ∨ n = -9223372036854775808) := by
  obtain ⟨hlo, hhi⟩ := hn
  have hnot : ∀ {x : Int}, x ≤ 0 → ¬ IsPow2 x := by
    rintro x hx ⟨k, hk⟩
    have : (0 : Int) < 2 ^ k := by positivity
    omega
  rcases lt_trichotomy n 0 with hneg | hz | hpos
  · by_cases hmin : n = -9223372036854775808
    · subst hmin
      have e1 : sub64 (-9223372036854775808) 1 = Int.ofNat 9223372036854775807 := by decide
      have : IsPowerOfTwo (-9223372036854775808) = true := by
        unfold IsPowerOfTwo
        rw [e1]
        show decide (Int.land (Int.negSucc 9223372036854775807)
          (Int.ofNat 9223372036854775807) = 0) = true
        simp only [Int.land, ldiff_self]
        rfl
      simp [this]
    · obtain ⟨a, ha⟩ : ∃ a : Nat, n = Int.negSucc a := ⟨(-n - 1).toNat, by
        rw [Int.negSucc_eq]; omega⟩
      have e1 : sub64 n 1 = Int.negSucc (a + 1) := by
        rw [sub64_eq (by omega) (by omega), ha, Int.negSucc_eq, Int.negSucc_eq]
        push_cast
        ring
      have hf : IsPowerOfTwo n = false := by
        unfold IsPowerOfTwo
        rw [e1, ha]
        simp only [Int.land]
        simp
      rw [hf]
      constructor
      · intro h; exact absurd h (by simp)
      · rintro (h | h | h)
        · exact absurd h (hnot (le_of_lt hneg))
        · omega
        · exact absurd h hmin
  · subst hz
    have e0 : sub64 0 1 = Int.negSucc 0 := by decide
    have : IsPowerOfTwo 0 = true := by
      unfold IsPowerOfTwo
      rw [e0]
      show decide (Int.land (Int.ofNat 0) (Int.negSucc 0) = 0) = true
      simp only [Int.land, ldiff_self]
      rfl
    simp [this]
  · obtain ⟨m, hm⟩ : ∃ m : Nat, n = (m : Int) := ⟨n.toNat, by omega⟩
    subst hm
    have hm0 : 0 < m := by omega
    have e1 : sub64 (m : Int) 1 = ((m - 1 : Nat) : Int) := by
      rw [sub64_eq (by omega) (by omega)]
      omega
    have e2 : Int.land (m : Int) ((m - 1 : Nat) : Int) = ((m &&& (m - 1) : Nat) : Int) := rfl
    unfold IsPowerOfTwo
    rw [e1, e2, decide_eq_true_eq, Int.natCast_eq_zero, land_pred_eq_zero_iff hm0]
    constructor
    · rintro ⟨k, hk⟩
      exact Or.inl ⟨k, by rw [hk]; push_cast; rfl⟩
    · rintro (⟨k, hk⟩ | h | h)
      · exact ⟨k, by exact_mod_cast hk⟩
      · omega
      · omega

end Toolkit
